import Mathlib

/-!
Verification development for the random-events set-algebra library.

The library implements a computable product sigma-algebra: an abstract pair
of atom (`SimpleSet`) and composite (`CompositeSet`) together with the
disjointification procedure `make_disjoint` /
`split_into_disjoint_and_non_disjoint` (given as pseudocode in the
repository's conceptual guide), instantiated at real intervals and at
symbolic sets, and lifted to multi-variable events with a linear-time
complement construction.

Atoms of a generic algebra are modelled as elements of a decidable
meet-semilattice with a bottom element: `⊓` is the atom-level
`intersection_with` (associative, commutative, idempotent since the
library keeps atoms canonical and `intersection_with` returns the
canonical empty sentinel `⊥` on empty results).  Point semantics is a
boolean membership function, supplied together with its laws where a
theorem needs it.
-/

set_option linter.unusedSectionVars false

namespace RandomEvents

namespace SA

variable {α : Type} [DecidableEq α] [SemilatticeInf α] [OrderBot α]
variable {β : Type}

/-- Modelled from the spec: boolean membership of a point in a union of
atoms (`CompositeSet.contains`): a point is in the composite iff it is in
some simple. -/
def memL (mem : β → α → Bool) (x : β) (l : List α) : Bool :=
  l.any (mem x)

/-- Semantic disjointness of two atoms: no common point. -/
def Dis (mem : β → α → Bool) (a b : α) : Prop :=
  ∀ x, ¬(mem x a = true ∧ mem x b = true)

/-- Modelled from the spec: the atom-level `difference_with`, implemented
generically as intersecting with each atom of the other's `complement()`
and discarding empty results. -/
def atomDiff (compl : α → List α) (a b : α) : List α :=
  ((compl b).map (fun c => a ⊓ c)).filter (fun p => decide (p ≠ ⊥))

/-- Modelled from the spec: subtracting a whole list of atoms from one
atom, piece by piece; the result is the list of surviving pieces of
`a` minus the union of `others`. -/
def diffList (compl : α → List α) : α → List α → List α
  | a, [] => [a]
  | a, b :: rest => (atomDiff compl a b).flatMap (fun p => diffList compl p rest)

/-- The atoms of `S` other than the one at position `i`. -/
def othersAt (S : List α) (i : Fin S.length) : List α :=
  ((List.finRange S.length).filter (fun j => decide (j ≠ i))).map (fun j => S.get j)

/-- Modelled from the source's `split_into_disjoint_and_non_disjoint`
(conceptual guide, step 3.1): the disjoint part `A` collects, for every
atom `s_i`, the part of `s_i` not covered by any other atom. -/
def splitA (compl : α → List α) (S : List α) : List α :=
  (List.finRange S.length).flatMap (fun i => diffList compl (S.get i) (othersAt S i))

/-- All pairwise intersections `s_i ⊓ s_j` over ordered pairs with
`i ≠ j` (conceptual guide, step 3.2). -/
def pairMeets (S : List α) : List α :=
  (List.finRange S.length).flatMap (fun i =>
    ((List.finRange S.length).filter (fun j => decide (j ≠ i))).map
      (fun j => S.get i ⊓ S.get j))

/-- Modelled from the source's `split_into_disjoint_and_non_disjoint`
(conceptual guide, step 3.2): the non-disjoint part `B` is the set of
nonempty pairwise intersections, kept as a set (the pseudocode builds `B`
by set union, so duplicates collapse and empty intersections vanish). -/
def splitB (S : List α) : List α :=
  ((pairMeets S).filter (fun t => decide (t ≠ ⊥))).dedup

/-- Modelled from the source's `make_disjoint` loop: starting from a
non-disjoint remainder `B`, repeatedly split it, accumulating the
disjoint parts, until `B` is empty or the fuel runs out.  Returns the
accumulated disjoint atoms and the final remainder. -/
def splitN (compl : α → List α) : Nat → List α → List α × List α
  | 0, B => ([], B)
  | Nat.succ f, B =>
    if B = [] then ([], [])
    else
      let p := splitN compl f (splitB B)
      (splitA compl B ++ p.1, p.2)

/-- Modelled from the source's `make_disjoint`: one initial split, then
the loop on the non-disjoint remainder; the fuel `S.length` is enough to
reach the empty remainder (proved below). -/
def makeDisjoint (compl : α → List α) (S : List α) : List α :=
  splitA compl S ++ (splitN compl S.length (splitB S)).1

theorem sa_memL_iff (mem : β → α → Bool) (x : β) (l : List α) :
    memL mem x l = true ↔ ∃ a ∈ l, mem x a = true := by
  simp [memL, List.any_eq_true]

theorem sa_memL_append (mem : β → α → Bool) (x : β) (l₁ l₂ : List α) :
    memL mem x (l₁ ++ l₂) = (memL mem x l₁ || memL mem x l₂) := by
  simp [memL, List.any_append]

theorem sa_mem_splitB_iff (S : List α) (t : α) :
    t ∈ splitB S ↔ t ≠ ⊥ ∧ ∃ i j : Fin S.length, i ≠ j ∧ t = S.get i ⊓ S.get j := by
  constructor
  · intro ht
    rw [splitB, List.mem_dedup, List.mem_filter] at ht
    obtain ⟨hmem, hbot⟩ := ht
    rw [pairMeets, List.mem_flatMap] at hmem
    obtain ⟨i, -, hmem⟩ := hmem
    rw [List.mem_map] at hmem
    obtain ⟨j, hj, rfl⟩ := hmem
    rw [List.mem_filter] at hj
    refine ⟨by simpa using hbot, i, j, ?_, rfl⟩
    have := hj.2
    simp only [decide_eq_true_eq] at this
    exact fun h => this h.symm
  · rintro ⟨hbot, i, j, hij, rfl⟩
    rw [splitB, List.mem_dedup, List.mem_filter]
    refine ⟨?_, by simpa using hbot⟩
    rw [pairMeets, List.mem_flatMap]
    refine ⟨i, List.mem_finRange i, ?_⟩
    rw [List.mem_map]
    refine ⟨j, ?_, rfl⟩
    rw [List.mem_filter]
    exact ⟨List.mem_finRange j, by simpa using fun h => hij h.symm⟩

theorem sa_splitB_ne_bot (S : List α) {t : α} (ht : t ∈ splitB S) : t ≠ ⊥ :=
  ((sa_mem_splitB_iff S t).mp ht).1

theorem sa_splitB_nodup (S : List α) : (splitB S).Nodup :=
  List.nodup_dedup _

/-- Invariant of the disjointification loop: every atom of the current
non-disjoint remainder is the meet of at least `k + 1` distinct atoms of
the original input. -/
def Covers (S0 : Finset α) (k : Nat) (B : List α) : Prop :=
  B.Nodup ∧ ∀ t ∈ B, t ≠ ⊥ ∧
    ∃ T : Finset α, ∃ h : T.Nonempty, T ⊆ S0 ∧ k + 1 ≤ T.card ∧ t = T.inf' h id

theorem sa_covers_step {S0 : Finset α} {k : Nat} {B : List α}
    (h : Covers S0 k B) : Covers S0 (k + 1) (splitB B) := by
  refine ⟨sa_splitB_nodup B, ?_⟩
  intro t ht
  rw [sa_mem_splitB_iff] at ht
  obtain ⟨htb, i, j, hij, rfl⟩ := ht
  refine ⟨htb, ?_⟩
  have hne : B.get i ≠ B.get j := fun he => hij ((h.1.get_inj_iff).mp he)
  obtain ⟨-, Ti, hTine, hTisub, hTicard, hTieq⟩ := h.2 (B.get i) (B.get_mem i.1 i.2)
  obtain ⟨-, Tj, hTjne, hTjsub, hTjcard, hTjeq⟩ := h.2 (B.get j) (B.get_mem j.1 j.2)
  have hTne : Ti ≠ Tj := by
    rintro rfl
    exact hne (hTieq.trans hTjeq.symm)
  refine ⟨Ti ∪ Tj, hTine.mono Finset.subset_union_left, Finset.union_subset hTisub hTjsub,
    ?_, ?_⟩
  · by_contra hcard
    push_neg at hcard
    have h1 : Ti = Ti ∪ Tj :=
      Finset.eq_of_subset_of_card_le Finset.subset_union_left (by omega)
    have h2 : Tj = Ti ∪ Tj :=
      Finset.eq_of_subset_of_card_le Finset.subset_union_right (by omega)
    exact hTne (h1.trans h2.symm)
  · rw [hTieq, hTjeq, Finset.inf'_union hTine hTjne]

theorem sa_covers_init {S : List α} (hS : S.Nodup) :
    Covers S.toFinset 1 (splitB S) := by
  refine ⟨sa_splitB_nodup S, ?_⟩
  intro t ht
  rw [sa_mem_splitB_iff] at ht
  obtain ⟨htb, i, j, hij, rfl⟩ := ht
  have hne : S.get i ≠ S.get j := fun he => hij (hS.get_inj_iff.mp he)
  refine ⟨htb, {S.get i, S.get j}, ⟨S.get i, by simp⟩, ?_, ?_, ?_⟩
  · intro x hx
    rw [Finset.mem_insert, Finset.mem_singleton] at hx
    rcases hx with rfl | rfl
    · exact List.mem_toFinset.mpr (S.get_mem i.1 i.2)
    · exact List.mem_toFinset.mpr (S.get_mem j.1 j.2)
  · rw [Finset.card_pair hne]
  · rw [Finset.inf'_insert ⟨S.get j, Finset.mem_singleton_self _⟩ id,
      Finset.inf'_singleton id]
    rfl

theorem sa_covers_nil {S0 : Finset α} {k : Nat} {B : List α}
    (h : Covers S0 k B) (hk : S0.card ≤ k) : B = [] := by
  cases B with
  | nil => rfl
  | cons t B' =>
    obtain ⟨-, T, hne, hsub, hcard, -⟩ := h.2 t (List.mem_cons_self t B')
    have := Finset.card_le_card hsub
    omega

theorem sa_covers_iterate {S0 : Finset α} (f : Nat) :
    ∀ (k : Nat) (B : List α), Covers S0 k B → S0.card ≤ k + f →
      splitB^[f] B = [] := by
  induction f with
  | zero =>
    intro k B h hk
    exact sa_covers_nil h (by omega)
  | succ f ih =>
    intro k B h hk
    rw [Function.iterate_succ_apply]
    exact ih (k + 1) (splitB B) (sa_covers_step h) (by omega)

theorem sa_splitN_snd_nil {S0 : Finset α} (compl : α → List α) (f : Nat) :
    ∀ (k : Nat) (B : List α), Covers S0 k B → S0.card ≤ k + f →
      (splitN compl f B).2 = [] := by
  induction f with
  | zero =>
    intro k B h hk
    exact sa_covers_nil h (by omega)
  | succ f ih =>
    intro k B h hk
    rw [splitN]
    by_cases hB : B = []
    · simp [hB]
    · simp only [hB, if_false]
      exact ih (k + 1) (splitB B) (sa_covers_step h) (by omega)

/-- Law of the atom contract: `intersection_with` intersects point sets. -/
def LawMemInf (mem : β → α → Bool) : Prop :=
  ∀ (x : β) (a b : α), mem x (a ⊓ b) = (mem x a && mem x b)

/-- Law of the atom contract: the canonical empty sentinel has no points. -/
def LawMemBot (mem : β → α → Bool) : Prop :=
  ∀ x : β, mem x (⊥ : α) = false

/-- Law of the atom contract: `complement()` of a nonempty atom covers
exactly the points outside the atom. -/
def LawMemCompl (mem : β → α → Bool) (compl : α → List α) : Prop :=
  ∀ (x : β) (a : α), a ≠ ⊥ → memL mem x (compl a) = !(mem x a)

/-- Law of the atom contract: `complement()` of a nonempty atom is a
disjoint collection. -/
def LawComplDis (mem : β → α → Bool) (compl : α → List α) : Prop :=
  ∀ a : α, a ≠ ⊥ → (compl a).Pairwise (Dis mem)

theorem sa_memL_atomDiff {mem : β → α → Bool} {compl : α → List α}
    (hinf : LawMemInf mem) (hbot : LawMemBot mem) (hcompl : LawMemCompl mem compl)
    (x : β) (a b : α) (hb : b ≠ ⊥) :
    memL mem x (atomDiff compl a b) = (mem x a && !(mem x b)) := by
  have h1 : memL mem x (atomDiff compl a b) = (mem x a && memL mem x (compl b)) := by
    rw [atomDiff, memL, List.any_filter]
    have h2 : ∀ l : List α,
        (List.map (fun c => a ⊓ c) l).any (fun p => decide (p ≠ ⊥) && mem x p)
          = (mem x a && l.any (mem x)) := by
      intro l
      induction l with
      | nil => simp
      | cons c l ih =>
        simp only [List.map_cons, List.any_cons, ih]
        by_cases hc : a ⊓ c = ⊥
        · have : mem x (a ⊓ c) = false := hc ▸ hbot x
          have hac : (mem x a && mem x c) = false := by rw [← hinf]; exact this
          simp only [hc, this]
          cases hma : mem x a
          · simp
          · cases hmc : mem x c
            · simp
            · rw [hma, hmc] at hac; simp at hac
        · simp only [hc, decide_eq_true_eq, hinf x a c]
          simp [hc, Bool.and_or_distrib_left]
    rw [h2]
    rfl
  rw [h1, hcompl x b hb]

theorem sa_memL_diffList {mem : β → α → Bool} {compl : α → List α}
    (hinf : LawMemInf mem) (hbot : LawMemBot mem) (hcompl : LawMemCompl mem compl)
    (x : β) :
    ∀ (l : List α) (a : α), (∀ b ∈ l, b ≠ ⊥) →
      memL mem x (diffList compl a l) = (mem x a && !(memL mem x l)) := by
  intro l
  induction l with
  | nil => intro a _; simp [diffList, memL]
  | cons b rest ih =>
    intro a hl
    have hb : b ≠ ⊥ := hl b (List.mem_cons_self b rest)
    have hrest : ∀ c ∈ rest, c ≠ ⊥ := fun c hc => hl c (List.mem_cons_of_mem b hc)
    rw [diffList, memL, List.any_flatMap]
    have h2 : ∀ p, (diffList compl p rest).any (mem x)
        = (mem x p && !(memL mem x rest)) := fun p => ih p hrest
    have h3 : (atomDiff compl a b).any (fun p => (diffList compl p rest).any (mem x))
        = ((atomDiff compl a b).any (fun p => mem x p) && !(memL mem x rest)) := by
      induction (atomDiff compl a b) with
      | nil => simp
      | cons q l ihq =>
        simp only [List.any_cons, ihq, h2 q, Bool.and_or_distrib_right]
    rw [h3]
    have h4 : (atomDiff compl a b).any (fun p => mem x p)
        = (mem x a && !(mem x b)) := sa_memL_atomDiff hinf hbot hcompl x a b hb
    rw [h4]
    simp only [memL, List.any_cons]
    cases mem x a <;> cases mem x b <;> cases rest.any (mem x) <;> rfl

theorem sa_diffList_subset {mem : β → α → Bool} {compl : α → List α}
    (hinf : LawMemInf mem) (hbot : LawMemBot mem) (hcompl : LawMemCompl mem compl)
    {l : List α} {a p : α} (hl : ∀ b ∈ l, b ≠ ⊥) (hp : p ∈ diffList compl a l)
    {x : β} (hx : mem x p = true) : mem x a = true ∧ memL mem x l = false := by
  have h1 : memL mem x (diffList compl a l) = true :=
    (sa_memL_iff mem x _).mpr ⟨p, hp, hx⟩
  rw [sa_memL_diffList hinf hbot hcompl x l a hl] at h1
  constructor
  · cases hma : mem x a
    · rw [hma] at h1; simp at h1
    · rfl
  · cases hml : memL mem x l
    · rfl
    · rw [hml] at h1; simp at h1

theorem sa_pairwise_flatMap {γ : Type} {l : List γ} {f : γ → List α}
    {R : γ → γ → Prop} {D : α → α → Prop}
    (hl : l.Pairwise R)
    (hin : ∀ p ∈ l, (f p).Pairwise D)
    (hcross : ∀ p q, p ∈ l → q ∈ l → R p q → ∀ u ∈ f p, ∀ v ∈ f q, D u v) :
    (l.flatMap f).Pairwise D := by
  induction l with
  | nil => simp
  | cons p l ih =>
    rw [List.flatMap_cons, List.pairwise_append]
    refine ⟨hin p (List.mem_cons_self p l), ?_, ?_⟩
    · refine ih (List.Pairwise.of_cons hl) (fun q hq => hin q (List.mem_cons_of_mem p hq))
        (fun q r hq hr hqr => hcross q r (List.mem_cons_of_mem p hq)
          (List.mem_cons_of_mem p hr) hqr)
    · intro u hu v hv
      rw [List.mem_flatMap] at hv
      obtain ⟨q, hq, hvq⟩ := hv
      have hpq : R p q := (List.pairwise_cons.mp hl).1 q hq
      exact hcross p q (List.mem_cons_self p l) (List.mem_cons_of_mem p hq) hpq u hu v hvq

theorem sa_dis_inf_left {mem : β → α → Bool} (hinf : LawMemInf mem) {c c' : α}
    (h : Dis mem c c') (a a' : α) : Dis mem (a ⊓ c) (a' ⊓ c') := by
  intro x ⟨h1, h2⟩
  rw [hinf] at h1 h2
  exact h x ⟨(Bool.and_eq_true_iff.mp h1).2, (Bool.and_eq_true_iff.mp h2).2⟩

theorem sa_atomDiff_pairwise {mem : β → α → Bool} {compl : α → List α}
    (hinf : LawMemInf mem) (hdis : LawComplDis mem compl)
    (a b : α) (hb : b ≠ ⊥) : (atomDiff compl a b).Pairwise (Dis mem) := by
  apply List.Pairwise.filter
  rw [List.pairwise_map]
  exact (hdis b hb).imp (fun h => sa_dis_inf_left hinf h a a)

theorem sa_diffList_pairwise {mem : β → α → Bool} {compl : α → List α}
    (hinf : LawMemInf mem) (hbot : LawMemBot mem) (hcompl : LawMemCompl mem compl)
    (hdis : LawComplDis mem compl) :
    ∀ (l : List α) (a : α), (∀ b ∈ l, b ≠ ⊥) →
      (diffList compl a l).Pairwise (Dis mem) := by
  intro l
  induction l with
  | nil => intro a _; exact List.pairwise_singleton _ a
  | cons b rest ih =>
    intro a hl
    have hb : b ≠ ⊥ := hl b (List.mem_cons_self b rest)
    have hrest : ∀ c ∈ rest, c ≠ ⊥ := fun c hc => hl c (List.mem_cons_of_mem b hc)
    rw [diffList]
    refine sa_pairwise_flatMap (sa_atomDiff_pairwise hinf hdis a b hb)
      (fun p _ => ih p hrest) ?_
    intro p q _ _ hpq u hu v hv
    intro x ⟨hxu, hxv⟩
    have h1 := sa_diffList_subset hinf hbot hcompl hrest hu hxu
    have h2 := sa_diffList_subset hinf hbot hcompl hrest hv hxv
    exact hpq x ⟨h1.1, h2.1⟩

theorem sa_othersAt_ne_bot {S : List α} (hS : ∀ s ∈ S, s ≠ ⊥) (i : Fin S.length) :
    ∀ b ∈ othersAt S i, b ≠ ⊥ := by
  intro b hb
  rw [othersAt, List.mem_map] at hb
  obtain ⟨j, -, rfl⟩ := hb
  exact hS (S.get j) (S.get_mem j.1 j.2)

theorem sa_memL_othersAt (mem : β → α → Bool) (x : β) (S : List α) (i : Fin S.length) :
    memL mem x (othersAt S i) = true ↔
      ∃ j : Fin S.length, j ≠ i ∧ mem x (S.get j) = true := by
  rw [sa_memL_iff]
  constructor
  · rintro ⟨a, ha, hmem⟩
    rw [othersAt, List.mem_map] at ha
    obtain ⟨j, hj, rfl⟩ := ha
    rw [List.mem_filter] at hj
    exact ⟨j, by simpa using hj.2, hmem⟩
  · rintro ⟨j, hj, hmem⟩
    refine ⟨S.get j, ?_, hmem⟩
    rw [othersAt, List.mem_map]
    refine ⟨j, ?_, rfl⟩
    rw [List.mem_filter]
    exact ⟨List.mem_finRange j, by simpa using hj⟩

theorem sa_memL_splitA_iff {mem : β → α → Bool} {compl : α → List α}
    (hinf : LawMemInf mem) (hbot : LawMemBot mem) (hcompl : LawMemCompl mem compl)
    {S : List α} (hS : ∀ s ∈ S, s ≠ ⊥) (x : β) :
    memL mem x (splitA compl S) = true ↔
      ∃ i : Fin S.length, mem x (S.get i) = true ∧
        ∀ j : Fin S.length, j ≠ i → mem x (S.get j) = false := by
  rw [splitA, memL, List.any_flatMap, List.any_eq_true]
  constructor
  · rintro ⟨i, -, hany⟩
    have : memL mem x (diffList compl (S.get i) (othersAt S i)) = true := hany
    rw [sa_memL_diffList hinf hbot hcompl x _ _ (sa_othersAt_ne_bot hS i)] at this
    obtain ⟨h1, h2⟩ := Bool.and_eq_true_iff.mp this
    refine ⟨i, h1, ?_⟩
    intro j hj
    cases hmj : mem x (S.get j)
    · rfl
    · exfalso
      have : memL mem x (othersAt S i) = true :=
        (sa_memL_othersAt mem x S i).mpr ⟨j, hj, hmj⟩
      rw [this] at h2
      simp at h2
  · rintro ⟨i, h1, h2⟩
    refine ⟨i, List.mem_finRange i, ?_⟩
    show memL mem x (diffList compl (S.get i) (othersAt S i)) = true
    rw [sa_memL_diffList hinf hbot hcompl x _ _ (sa_othersAt_ne_bot hS i)]
    rw [h1]
    have : memL mem x (othersAt S i) = false := by
      cases hml : memL mem x (othersAt S i)
      · rfl
      · obtain ⟨j, hj, hmj⟩ := (sa_memL_othersAt mem x S i).mp hml
        rw [h2 j hj] at hmj
        exact absurd hmj (by simp)
    rw [this]
    rfl

theorem sa_memL_splitB_iff {mem : β → α → Bool}
    (hinf : LawMemInf mem) (hbot : LawMemBot mem) (S : List α) (x : β) :
    memL mem x (splitB S) = true ↔
      ∃ i j : Fin S.length, i ≠ j ∧ mem x (S.get i) = true ∧ mem x (S.get j) = true := by
  rw [sa_memL_iff]
  constructor
  · rintro ⟨t, ht, hmem⟩
    obtain ⟨-, i, j, hij, rfl⟩ := (sa_mem_splitB_iff S t).mp ht
    obtain ⟨h1, h2⟩ := Bool.and_eq_true_iff.mp ((hinf x _ _) ▸ hmem)
    exact ⟨i, j, hij, h1, h2⟩
  · rintro ⟨i, j, hij, h1, h2⟩
    refine ⟨S.get i ⊓ S.get j, ?_, ?_⟩
    · rw [sa_mem_splitB_iff]
      refine ⟨?_, i, j, hij, rfl⟩
      intro hb
      have : mem x (S.get i ⊓ S.get j) = false := hb ▸ hbot x
      rw [hinf, h1, h2] at this
      exact absurd this (by simp)
    · rw [hinf, h1, h2]
      rfl

theorem sa_split_mem_union {mem : β → α → Bool} {compl : α → List α}
    (hinf : LawMemInf mem) (hbot : LawMemBot mem) (hcompl : LawMemCompl mem compl)
    {S : List α} (hS : ∀ s ∈ S, s ≠ ⊥) (x : β) :
    (memL mem x (splitA compl S) || memL mem x (splitB S)) = memL mem x S := by
  rw [Bool.eq_iff_iff, Bool.or_eq_true]
  rw [sa_memL_splitA_iff hinf hbot hcompl hS, sa_memL_splitB_iff hinf hbot]
  constructor
  · rintro (⟨i, h1, -⟩ | ⟨i, j, -, h1, -⟩) <;>
      exact (sa_memL_iff mem x S).mpr ⟨S.get i, S.get_mem i.1 i.2, h1⟩
  · intro h
    obtain ⟨a, ha, hmem⟩ := (sa_memL_iff mem x S).mp h
    obtain ⟨i, hi⟩ := List.mem_iff_get.mp ha
    subst hi
    by_cases hex : ∃ j : Fin S.length, j ≠ i ∧ mem x (S.get j) = true
    · obtain ⟨j, hj, hmj⟩ := hex
      exact Or.inr ⟨j, i, hj, hmj, hmem⟩
    · push_neg at hex
      refine Or.inl ⟨i, hmem, ?_⟩
      intro j hj
      cases hmj : mem x (S.get j)
      · rfl
      · exact absurd hmj (hex j hj)

theorem sa_splitA_dis_splitB {mem : β → α → Bool} {compl : α → List α}
    (hinf : LawMemInf mem) (hbot : LawMemBot mem) (hcompl : LawMemCompl mem compl)
    {S : List α} (hS : ∀ s ∈ S, s ≠ ⊥) (x : β)
    (hA : memL mem x (splitA compl S) = true) :
    memL mem x (splitB S) = false := by
  cases hB : memL mem x (splitB S)
  · rfl
  · exfalso
    obtain ⟨i, h1, h2⟩ := (sa_memL_splitA_iff hinf hbot hcompl hS x).mp hA
    obtain ⟨i', j', hij, h1', h2'⟩ := (sa_memL_splitB_iff hinf hbot S x).mp hB
    by_cases hii : i' = i
    · subst hii
      have := h2 j' (fun h => hij h.symm)
      rw [this] at h2'
      exact absurd h2' (by simp)
    · have := h2 i' hii
      rw [this] at h1'
      exact absurd h1' (by simp)

theorem sa_splitA_pairwise {mem : β → α → Bool} {compl : α → List α}
    (hinf : LawMemInf mem) (hbot : LawMemBot mem) (hcompl : LawMemCompl mem compl)
    (hdis : LawComplDis mem compl)
    {S : List α} (hS : ∀ s ∈ S, s ≠ ⊥) :
    (splitA compl S).Pairwise (Dis mem) := by
  rw [splitA]
  refine sa_pairwise_flatMap ((List.nodup_finRange S.length) : _) ?_ ?_
  · intro i _
    exact sa_diffList_pairwise hinf hbot hcompl hdis _ _ (sa_othersAt_ne_bot hS i)
  · intro i i' _ _ hii u hu v hv
    intro x ⟨hxu, hxv⟩
    have h1 := sa_diffList_subset hinf hbot hcompl (sa_othersAt_ne_bot hS i) hu hxu
    have h2 := sa_diffList_subset hinf hbot hcompl (sa_othersAt_ne_bot hS i') hv hxv
    have : memL mem x (othersAt S i) = true :=
      (sa_memL_othersAt mem x S i).mpr ⟨i', fun h => hii h.symm, h2.1⟩
    rw [this] at h1
    exact absurd h1.2 (by simp)

theorem sa_splitN_spec {mem : β → α → Bool} {compl : α → List α}
    (hinf : LawMemInf mem) (hbot : LawMemBot mem) (hcompl : LawMemCompl mem compl)
    (hdis : LawComplDis mem compl) (f : Nat) :
    ∀ B : List α, (∀ s ∈ B, s ≠ ⊥) →
      (splitN compl f B).1.Pairwise (Dis mem) ∧
      (∀ x, (memL mem x (splitN compl f B).1 || memL mem x (splitN compl f B).2)
        = memL mem x B) ∧
      (∀ x, memL mem x (splitN compl f B).1 = true →
        memL mem x (splitN compl f B).2 = false) := by
  induction f with
  | zero =>
    intro B hB
    refine ⟨List.Pairwise.nil, fun x => rfl, fun x h => ?_⟩
    exact absurd h (by simp [splitN, memL])
  | succ f ih =>
    intro B hB
    rw [splitN]
    by_cases hBnil : B = []
    · subst hBnil
      refine ⟨by simp, fun x => by simp [memL], fun x h => by simp [memL] at h⟩
    · simp only [hBnil, if_false]
      obtain ⟨ihp, ihu, ihd⟩ := ih (splitB B) (fun t ht => sa_splitB_ne_bot B ht)
      refine ⟨?_, ?_, ?_⟩
      · rw [List.pairwise_append]
        refine ⟨sa_splitA_pairwise hinf hbot hcompl hdis hB, ihp, ?_⟩
        intro u hu v hv
        intro x ⟨hxu, hxv⟩
        have hA : memL mem x (splitA compl B) = true :=
          (sa_memL_iff mem x _).mpr ⟨u, hu, hxu⟩
        have hP1 : memL mem x (splitN compl f (splitB B)).1 = true :=
          (sa_memL_iff mem x _).mpr ⟨v, hv, hxv⟩
        have hSB : memL mem x (splitB B) = true := by
          rw [← ihu x, hP1]
          rfl
        rw [sa_splitA_dis_splitB hinf hbot hcompl hB x hA] at hSB
        exact absurd hSB (by simp)
      · intro x
        rw [sa_memL_append, Bool.or_assoc, ihu x,
          sa_split_mem_union hinf hbot hcompl hB x]
      · intro x hx
        rw [sa_memL_append, Bool.or_eq_true] at hx
        rcases hx with hx | hx
        · cases hP2 : memL mem x (splitN compl f (splitB B)).2
          · rfl
          · exfalso
            have hSB : memL mem x (splitB B) = true := by
              rw [← ihu x, hP2]
              simp
            rw [sa_splitA_dis_splitB hinf hbot hcompl hB x hx] at hSB
            exact absurd hSB (by simp)
        · exact ihd x hx

theorem sa_diffList_ne_bot {compl : α → List α} :
    ∀ (l : List α) (a : α), a ≠ ⊥ → ∀ p ∈ diffList compl a l, p ≠ ⊥ := by
  intro l
  induction l with
  | nil =>
    intro a ha p hp
    rw [diffList, List.mem_singleton] at hp
    exact hp ▸ ha
  | cons b rest ih =>
    intro a ha p hp
    rw [diffList, List.mem_flatMap] at hp
    obtain ⟨q, hq, hp⟩ := hp
    rw [atomDiff, List.mem_filter] at hq
    exact ih q (by simpa using hq.2) p hp

theorem sa_splitA_ne_bot {compl : α → List α} {S : List α}
    (hS : ∀ s ∈ S, s ≠ ⊥) : ∀ p ∈ splitA compl S, p ≠ ⊥ := by
  intro p hp
  rw [splitA, List.mem_flatMap] at hp
  obtain ⟨i, -, hp⟩ := hp
  exact sa_diffList_ne_bot _ _ (hS (S.get i) (S.get_mem i.1 i.2)) p hp

theorem sa_splitN_fst_ne_bot {compl : α → List α} (f : Nat) :
    ∀ (B : List α), (∀ s ∈ B, s ≠ ⊥) →
      ∀ p ∈ (splitN compl f B).1, p ≠ ⊥ := by
  induction f with
  | zero =>
    intro B _ p hp
    simp [splitN] at hp
  | succ f ih =>
    intro B hB p hp
    rw [splitN] at hp
    by_cases hBnil : B = []
    · simp [hBnil] at hp
    · simp only [hBnil, if_false] at hp
      rw [List.mem_append] at hp
      rcases hp with hp | hp
      · exact sa_splitA_ne_bot hB p hp
      · exact ih (splitB B) (fun t ht => sa_splitB_ne_bot B ht) p hp

theorem sa_makeDisjoint_ne_bot {compl : α → List α} {S : List α}
    (hS : ∀ s ∈ S, s ≠ ⊥) : ∀ p ∈ makeDisjoint compl S, p ≠ ⊥ := by
  intro p hp
  rw [makeDisjoint, List.mem_append] at hp
  rcases hp with hp | hp
  · exact sa_splitA_ne_bot hS p hp
  · exact sa_splitN_fst_ne_bot S.length (splitB S)
      (fun t ht => sa_splitB_ne_bot S ht) p hp

theorem sa_memL_dedup (mem : β → α → Bool) (x : β) (l : List α) :
    memL mem x l.dedup = memL mem x l := by
  rw [Bool.eq_iff_iff, sa_memL_iff, sa_memL_iff]
  constructor
  · rintro ⟨a, ha, hm⟩
    exact ⟨a, List.mem_dedup.mp ha, hm⟩
  · rintro ⟨a, ha, hm⟩
    exact ⟨a, List.mem_dedup.mpr ha, hm⟩

theorem sa_memL_perm (mem : β → α → Bool) (x : β) {l₁ l₂ : List α}
    (h : l₁.Perm l₂) : memL mem x l₁ = memL mem x l₂ := by
  rw [Bool.eq_iff_iff, sa_memL_iff, sa_memL_iff]
  constructor
  · rintro ⟨a, ha, hm⟩
    exact ⟨a, h.mem_iff.mp ha, hm⟩
  · rintro ⟨a, ha, hm⟩
    exact ⟨a, h.mem_iff.mpr ha, hm⟩

theorem sa_makeDisjoint_spec {mem : β → α → Bool} {compl : α → List α}
    (hinf : LawMemInf mem) (hbot : LawMemBot mem) (hcompl : LawMemCompl mem compl)
    (hdis : LawComplDis mem compl)
    {S : List α} (hnd : S.Nodup) (hS : ∀ s ∈ S, s ≠ ⊥) :
    (makeDisjoint compl S).Pairwise (Dis mem) ∧
    (∀ x, memL mem x (makeDisjoint compl S) = memL mem x S) := by
  obtain ⟨hp, hu, hd⟩ :=
    sa_splitN_spec hinf hbot hcompl hdis S.length (splitB S)
      (fun t ht => sa_splitB_ne_bot S ht)
  have hsnd : (splitN compl S.length (splitB S)).2 = [] := by
    refine sa_splitN_snd_nil compl S.length 1 (splitB S) (sa_covers_init hnd) ?_
    have := S.toFinset_card_le
    omega
  constructor
  · rw [makeDisjoint, List.pairwise_append]
    refine ⟨sa_splitA_pairwise hinf hbot hcompl hdis hS, hp, ?_⟩
    intro u hu' v hv'
    intro x ⟨hxu, hxv⟩
    have hA : memL mem x (splitA compl S) = true :=
      (sa_memL_iff mem x _).mpr ⟨u, hu', hxu⟩
    have hP1 : memL mem x (splitN compl S.length (splitB S)).1 = true :=
      (sa_memL_iff mem x _).mpr ⟨v, hv', hxv⟩
    have hSB : memL mem x (splitB S) = true := by
      rw [← hu x, hP1]
      rfl
    rw [sa_splitA_dis_splitB hinf hbot hcompl hS x hA] at hSB
    exact absurd hSB (by simp)
  · intro x
    rw [makeDisjoint, sa_memL_append]
    have h1 : memL mem x (splitN compl S.length (splitB S)).2 = false := by
      rw [hsnd]
      rfl
    have h2 := hu x
    rw [h1, Bool.or_false] at h2
    rw [h2, sa_split_mem_union hinf hbot hcompl hS x]

end SA

instance sa_dis_decidable {α β : Type} [Fintype β] (mem : β → α → Bool) (a b : α) :
    Decidable (SA.Dis mem a b) :=
  inferInstanceAs (Decidable (∀ x, ¬(mem x a = true ∧ mem x b = true)))

instance sa_lawMemInf_decidable {α β : Type} [Fintype α] [Fintype β]
    [SemilatticeInf α] [DecidableEq α] (mem : β → α → Bool) :
    Decidable (SA.LawMemInf mem) :=
  inferInstanceAs (Decidable (∀ (x : β) (a b : α), mem x (a ⊓ b) = (mem x a && mem x b)))

instance sa_lawMemBot_decidable {α β : Type} [Fintype β] [SemilatticeInf α] [OrderBot α]
    (mem : β → α → Bool) : Decidable (SA.LawMemBot mem) :=
  inferInstanceAs (Decidable (∀ x : β, mem x (⊥ : α) = false))

instance sa_lawMemCompl_decidable {α β : Type} [Fintype α] [Fintype β]
    [DecidableEq α] [SemilatticeInf α] [OrderBot α] (mem : β → α → Bool) (compl : α → List α) :
    Decidable (SA.LawMemCompl mem compl) :=
  inferInstanceAs
    (Decidable (∀ (x : β) (a : α), a ≠ ⊥ → SA.memL mem x (compl a) = !(mem x a)))

instance sa_lawComplDis_decidable {α β : Type} [Fintype α] [Fintype β]
    [DecidableEq α] [SemilatticeInf α] [OrderBot α] (mem : β → α → Bool) (compl : α → List α) :
    Decidable (SA.LawComplDis mem compl) :=
  inferInstanceAs
    (Decidable (∀ a : α, a ≠ ⊥ → (compl a).Pairwise (SA.Dis mem)))

/-- C2: for every finite, possibly overlapping collection of simple sets
(nonempty atoms, no duplicates, as a composite stores them), the
`make_disjoint` of the conceptual guide returns a collection of simple
sets that is pairwise disjoint and whose union as a point set equals the
union of the input collection. -/
theorem claim_C2_make_disjoint {α β : Type} [DecidableEq α] [SemilatticeInf α]
    [OrderBot α] (mem : β → α → Bool) (compl : α → List α)
    (hinf : SA.LawMemInf mem) (hbot : SA.LawMemBot mem)
    (hcompl : SA.LawMemCompl mem compl) (hdis : SA.LawComplDis mem compl)
    (S : List α) (hnd : S.Nodup) (hS : ∀ s ∈ S, s ≠ ⊥) :
    (SA.makeDisjoint compl S).Pairwise (SA.Dis mem) ∧
    (∀ x, SA.memL mem x (SA.makeDisjoint compl S) = SA.memL mem x S) :=
  SA.sa_makeDisjoint_spec hinf hbot hcompl hdis hnd hS

/-- Witness for C2: the algebra of subsets of a two-element universe with
the overlapping input collection consisting of a singleton and the full
set. -/
theorem claim_C2_make_disjoint_witness :
    (SA.LawMemInf (fun (x : Fin 2) (a : Finset (Fin 2)) => decide (x ∈ a)) ∧
      ([{0}, {0, 1}] : List (Finset (Fin 2))).Nodup ∧
      (∀ s ∈ ([{0}, {0, 1}] : List (Finset (Fin 2))), s ≠ ⊥)) ∧
    ((SA.makeDisjoint (fun a => [aᶜ])
        ([{0}, {0, 1}] : List (Finset (Fin 2)))).Pairwise
          (SA.Dis (fun x a => decide (x ∈ a))) ∧
      (∀ x, SA.memL (fun x a => decide (x ∈ a)) x
          (SA.makeDisjoint (fun a => [aᶜ]) ([{0}, {0, 1}] : List (Finset (Fin 2))))
        = SA.memL (fun x a => decide (x ∈ a)) x
            ([{0}, {0, 1}] : List (Finset (Fin 2))))) :=
  ⟨⟨by decide, by decide, by decide⟩,
    claim_C2_make_disjoint (fun x a => decide (x ∈ a)) (fun a => [aᶜ])
      (by decide) (by decide) (by decide) (by decide)
      [{0}, {0, 1}] (by decide) (by decide)⟩

/-- C3: `make_disjoint` terminates: starting from the remainder of the
initial split of an `n`-element collection, at most `n - 1` further
iterations of the split step reach the fixed point where the non-disjoint
remainder `B` is empty (and the empty remainder is indeed a fixed point
of the split step). -/
theorem claim_C3_termination {α : Type} [DecidableEq α] [SemilatticeInf α]
    [OrderBot α] (S : List α) (hnd : S.Nodup) :
    SA.splitB^[S.length - 1] (SA.splitB S) = [] ∧
    SA.splitB ([] : List α) = [] := by
  refine ⟨?_, rfl⟩
  refine SA.sa_covers_iterate (S.length - 1) 1 (SA.splitB S) (SA.sa_covers_init hnd) ?_
  have := S.toFinset_card_le
  omega

/-- Witness for C3: a two-element overlapping collection reaches the
empty remainder within one loop iteration after the initial split. -/
theorem claim_C3_termination_witness :
    ([{0}, {0, 1}] : List (Finset (Fin 2))).Nodup ∧
      (SA.splitB^[([{0}, {0, 1}] : List (Finset (Fin 2))).length - 1]
        (SA.splitB ([{0}, {0, 1}] : List (Finset (Fin 2)))) = [] ∧
      SA.splitB ([] : List (Finset (Fin 2))) = []) :=
  ⟨by decide, claim_C3_termination [{0}, {0, 1}] (by decide)⟩

/-- C5: the non-disjoint output `B` of one pass of the split step is, as
a duplicate-free collection, exactly the set of nonempty pairwise
intersections `s_i ⊓ s_j` taken with later elements only (`i < j`): each
overlapping pair contributes exactly one intersection, with no double
counting. -/
theorem claim_C5_splitB_pairs {α : Type} [DecidableEq α] [SemilatticeInf α]
    [OrderBot α] (S : List α) :
    (SA.splitB S).Nodup ∧
      ∀ t : α, t ∈ SA.splitB S ↔
        (t ≠ ⊥ ∧ ∃ i j : Fin S.length, i < j ∧ t = S.get i ⊓ S.get j) := by
  refine ⟨SA.sa_splitB_nodup S, fun t => ?_⟩
  rw [SA.sa_mem_splitB_iff]
  constructor
  · rintro ⟨hb, i, j, hij, rfl⟩
    rcases lt_or_gt_of_ne hij with h | h
    · exact ⟨hb, i, j, h, rfl⟩
    · exact ⟨hb, j, i, h, inf_comm _ _⟩
  · rintro ⟨hb, i, j, hij, rfl⟩
    exact ⟨hb, i, j, ne_of_lt hij, rfl⟩

namespace Itv

/-- Modelled from the spec: a bound tag; open excludes the endpoint,
closed includes it. -/
inductive Bound : Type
  | OPEN : Bound
  | CLOSED : Bound
deriving DecidableEq

/-- Extended rationals: the dense line used for interval endpoints, with
a bottom for `-∞` and a top for `+∞` (the library stores `±∞` as values
with an `OPEN` bound). -/
abbrev Ext : Type := WithBot (WithTop ℚ)

/-- A rational as an extended rational. -/
def ratE (q : ℚ) : Ext := ((q : WithTop ℚ) : Ext)

/-- Modelled from the spec: `SimpleInterval` is a tuple of a lower and
an upper endpoint with their bound tags. -/
@[ext]
structure SIRaw : Type where
  lower : Ext
  upper : Ext
  lower_bound : Bound
  upper_bound : Bound
deriving DecidableEq

/-- Does the point `x` satisfy the lower constraint `(l, b)`? -/
def lowerTest (l : Ext) (b : Bound) (x : ℚ) : Bool :=
  match b with
  | Bound.CLOSED => decide (l ≤ ratE x)
  | Bound.OPEN => decide (l < ratE x)

/-- Does the point `x` satisfy the upper constraint `(u, b)`? -/
def upperTest (u : Ext) (b : Bound) (x : ℚ) : Bool :=
  match b with
  | Bound.CLOSED => decide (ratE x ≤ u)
  | Bound.OPEN => decide (ratE x < u)

/-- Modelled from the spec: `SimpleInterval.contains`, the standard
inequality respecting the bound types. -/
def memSI (x : ℚ) (s : SIRaw) : Bool :=
  lowerTest s.lower s.lower_bound x && upperTest s.upper s.upper_bound x

/-- Modelled from the spec: an interval is empty iff `lower > upper`, or
`lower = upper` and at least one bound is `OPEN`. -/
def isEmptySI (s : SIRaw) : Bool :=
  decide (s.upper < s.lower) ||
    (decide (s.upper = s.lower) &&
      (decide (s.lower_bound = Bound.OPEN) || decide (s.upper_bound = Bound.OPEN)))

/-- Infinite endpoints carry an `OPEN` bound. -/
def shapeSI (s : SIRaw) : Prop :=
  (s.lower = ⊥ → s.lower_bound = Bound.OPEN) ∧
  (s.upper = ⊤ → s.upper_bound = Bound.OPEN)

instance shapeSI_decidable (s : SIRaw) : Decidable (shapeSI s) :=
  inferInstanceAs (Decidable (_ ∧ _))

/-- A nonempty well-formed simple interval. -/
def validSI (s : SIRaw) : Prop := isEmptySI s = false ∧ shapeSI s

instance validSI_decidable (s : SIRaw) : Decidable (validSI s) :=
  inferInstanceAs (Decidable (_ ∧ _))

/-- Modelled from the spec: the designated canonical empty sentinel. -/
def emptySIRaw : SIRaw := ⟨ratE 0, ratE 0, Bound.OPEN, Bound.OPEN⟩

/-- A canonical simple interval: the sentinel or a valid interval. -/
def canonicalSI (s : SIRaw) : Prop := s = emptySIRaw ∨ validSI s

instance canonicalSI_decidable (s : SIRaw) : Decidable (canonicalSI s) :=
  inferInstanceAs (Decidable (_ ∨ _))

/-- The library's atom type: canonical simple intervals. -/
def SI : Type := {s : SIRaw // canonicalSI s}

instance : DecidableEq SI := fun a b =>
  decidable_of_iff (a.val = b.val) Subtype.ext_iff.symm

/-- The canonical empty atom. -/
def botSI : SI := ⟨emptySIRaw, Or.inl rfl⟩

/-- Canonicalize a raw interval: empty or ill-shaped raws collapse to the
sentinel (the library's `intersection_with` returns the empty sentinel on
empty results). -/
def mkSI (s : SIRaw) : SI := if h : validSI s then ⟨s, Or.inr h⟩ else botSI

/-- Membership for canonical atoms. -/
def memB (x : ℚ) (s : SI) : Bool := memSI x s.val

theorem itv_ratE_lt_ratE {a b : ℚ} : ratE a < ratE b ↔ a < b := by
  simp [ratE]

theorem itv_ratE_le_ratE {a b : ℚ} : ratE a ≤ ratE b ↔ a ≤ b := by
  simp [ratE]

theorem itv_bot_lt_ratE (a : ℚ) : (⊥ : Ext) < ratE a :=
  WithBot.bot_lt_coe _

theorem itv_ratE_lt_top (a : ℚ) : ratE a < (⊤ : Ext) := by
  simp [ratE]
  exact WithBot.coe_lt_coe.mpr (WithTop.coe_lt_top a)

theorem itv_ext_cases (l : Ext) : l = ⊥ ∨ l = ⊤ ∨ ∃ q : ℚ, l = ratE q := by
  induction l using WithBot.recBotCoe with
  | bot => exact Or.inl rfl
  | coe w =>
    induction w using WithTop.recTopCoe with
    | top => exact Or.inr (Or.inl rfl)
    | coe q => exact Or.inr (Or.inr ⟨q, rfl⟩)

theorem itv_ratBetween {a b : Ext} (h : a < b) :
    ∃ q : ℚ, a < ratE q ∧ ratE q < b := by
  rcases itv_ext_cases a with ha | ha | ⟨p, ha⟩ <;>
    rcases itv_ext_cases b with hb | hb | ⟨r, hb⟩ <;> subst ha <;> subst hb
  · exact absurd h (lt_irrefl _)
  · exact ⟨0, itv_bot_lt_ratE 0, itv_ratE_lt_top 0⟩
  · exact ⟨r - 1, itv_bot_lt_ratE _, itv_ratE_lt_ratE.mpr (by linarith)⟩
  · exact absurd h (by simp)
  · exact absurd h (lt_irrefl _)
  · exact absurd h (by simp [ratE])
  · exact absurd h not_lt_bot
  · exact ⟨p + 1, itv_ratE_lt_ratE.mpr (by linarith), itv_ratE_lt_top _⟩
  · have hpr : p < r := itv_ratE_lt_ratE.mp h
    refine ⟨(p + r) / 2, itv_ratE_lt_ratE.mpr (by linarith), itv_ratE_lt_ratE.mpr (by linarith)⟩

theorem itv_lowerTest_le {l : Ext} {b : Bound} {x : ℚ}
    (h : lowerTest l b x = true) : l ≤ ratE x := by
  cases b <;> simp [lowerTest] at h
  · exact le_of_lt h
  · exact h

theorem itv_upperTest_le {u : Ext} {b : Bound} {x : ℚ}
    (h : upperTest u b x = true) : ratE x ≤ u := by
  cases b <;> simp [upperTest] at h
  · exact le_of_lt h
  · exact h

theorem itv_lowerTest_of_lt {l : Ext} {x : ℚ} (h : l < ratE x) (b : Bound) :
    lowerTest l b x = true := by
  cases b <;> simp [lowerTest]
  · exact h
  · exact le_of_lt h

theorem itv_upperTest_of_lt {u : Ext} {x : ℚ} (h : ratE x < u) (b : Bound) :
    upperTest u b x = true := by
  cases b <;> simp [upperTest]
  · exact h
  · exact le_of_lt h

theorem itv_mem_emptySIRaw (x : ℚ) : memSI x emptySIRaw = false := by
  rw [memSI]
  cases h : lowerTest emptySIRaw.lower emptySIRaw.lower_bound x
  · rfl
  · have h1 := itv_lowerTest_le h
    cases h2 : upperTest emptySIRaw.upper emptySIRaw.upper_bound x
    · rfl
    · exfalso
      simp [emptySIRaw, lowerTest] at h
      simp [emptySIRaw, upperTest] at h2
      exact absurd (lt_trans h h2) (lt_irrefl _)

theorem itv_isEmpty_no_mem {s : SIRaw} (h : isEmptySI s = true) (x : ℚ) :
    memSI x s = false := by
  cases hm : memSI x s
  · rfl
  · exfalso
    rw [memSI, Bool.and_eq_true_iff] at hm
    have hl := itv_lowerTest_le hm.1
    have hu := itv_upperTest_le hm.2
    rw [isEmptySI, Bool.or_eq_true] at h
    rcases h with h | h
    · rw [decide_eq_true_eq] at h
      exact absurd (le_trans hl hu) (not_le_of_lt h)
    · rw [Bool.and_eq_true_iff, decide_eq_true_eq, Bool.or_eq_true,
        decide_eq_true_eq, decide_eq_true_eq] at h
      obtain ⟨heq, hb⟩ := h
      rcases hb with hb | hb
      · have h1 := hm.1
        rw [hb] at h1
        simp [lowerTest] at h1
        rw [heq] at hu
        exact absurd (lt_of_lt_of_le h1 hu) (lt_irrefl _)
      · have h2 := hm.2
        rw [hb] at h2
        simp [upperTest] at h2
        rw [heq] at h2
        exact absurd (lt_of_le_of_lt hl h2) (lt_irrefl _)

theorem itv_isEmpty_false_iff (s : SIRaw) :
    isEmptySI s = false ↔
      s.lower < s.upper ∨
        (s.lower = s.upper ∧ s.lower_bound = Bound.CLOSED ∧
          s.upper_bound = Bound.CLOSED) := by
  rw [isEmptySI, Bool.or_eq_false_iff, Bool.and_eq_false_iff]
  simp only [decide_eq_false_iff_not, Bool.or_eq_false_iff]
  constructor
  · rintro ⟨h1, h2⟩
    rcases lt_or_eq_of_le (le_of_not_lt h1) with h | h
    · exact Or.inl h
    · refine Or.inr ⟨h, ?_⟩
      rcases h2 with h2 | h2
      · exact absurd h.symm h2
      · obtain ⟨hb1, hb2⟩ := h2
        cases hc1 : s.lower_bound <;> cases hc2 : s.upper_bound
        · exact absurd hc1 hb1
        · exact absurd hc1 hb1
        · exact absurd hc2 hb2
        · exact ⟨rfl, rfl⟩
  · rintro (h | ⟨heq, hb1, hb2⟩)
    · exact ⟨by simp [asymm h], Or.inl (fun he => absurd (he ▸ h) (lt_irrefl _))⟩
    · refine ⟨by simp [heq], Or.inr ⟨?_, ?_⟩⟩
      · simp [hb1]
      · simp [hb2]

theorem itv_valid_le {s : SIRaw} (h : validSI s) : s.lower ≤ s.upper := by
  rcases (itv_isEmpty_false_iff s).mp h.1 with hlt | ⟨heq, -⟩
  · exact le_of_lt hlt
  · exact le_of_eq heq

theorem itv_valid_nonempty {s : SIRaw} (h : validSI s) :
    ∃ x : ℚ, memSI x s = true := by
  rcases (itv_isEmpty_false_iff s).mp h.1 with hlt | ⟨heq, hb1, hb2⟩
  · obtain ⟨q, hq1, hq2⟩ := itv_ratBetween hlt
    exact ⟨q, by rw [memSI, itv_lowerTest_of_lt hq1, itv_upperTest_of_lt hq2]; rfl⟩
  · have hlb : s.lower ≠ ⊥ := by
      intro hb
      rw [h.2.1 hb] at hb1
      exact Bound.noConfusion hb1
    have hub : s.lower ≠ ⊤ := by
      intro ht
      rw [h.2.2 (heq ▸ ht)] at hb2
      exact Bound.noConfusion hb2
    rcases itv_ext_cases s.lower with hc | hc | ⟨q, hc⟩
    · exact absurd hc hlb
    · exact absurd hc hub
    · refine ⟨q, ?_⟩
      rw [memSI, ← heq, hb1, hb2]
      simp [lowerTest, upperTest, hc]

/-- Modelled from the spec: the lower constraint of an intersection is
the larger lower endpoint, with the tighter bound (OPEN wins) at ties. -/
def maxLowerC (l1 : Ext) (b1 : Bound) (l2 : Ext) (b2 : Bound) : Ext × Bound :=
  if l1 < l2 then (l2, b2)
  else if l2 < l1 then (l1, b1)
  else (l1, if b1 = Bound.OPEN ∨ b2 = Bound.OPEN then Bound.OPEN else Bound.CLOSED)

/-- Modelled from the spec: the upper constraint of an intersection is
the smaller upper endpoint, with the tighter bound (OPEN wins) at ties. -/
def minUpperC (u1 : Ext) (b1 : Bound) (u2 : Ext) (b2 : Bound) : Ext × Bound :=
  if u1 < u2 then (u1, b1)
  else if u2 < u1 then (u2, b2)
  else (u1, if b1 = Bound.OPEN ∨ b2 = Bound.OPEN then Bound.OPEN else Bound.CLOSED)

/-- Modelled from the spec: `SimpleInterval.intersection_with` before
canonicalization of empty results. -/
def rawInf (s t : SIRaw) : SIRaw :=
  ⟨(maxLowerC s.lower s.lower_bound t.lower t.lower_bound).1,
   (minUpperC s.upper s.upper_bound t.upper t.upper_bound).1,
   (maxLowerC s.lower s.lower_bound t.lower t.lower_bound).2,
   (minUpperC s.upper s.upper_bound t.upper t.upper_bound).2⟩

/-- Modelled from the spec: `SimpleInterval.intersection_with`; an empty
result collapses to the canonical empty sentinel. -/
def infSI (s t : SI) : SI := mkSI (rawInf s.val t.val)

theorem itv_lowerTest_max (l1 l2 : Ext) (b1 b2 : Bound) (x : ℚ) :
    lowerTest (maxLowerC l1 b1 l2 b2).1 (maxLowerC l1 b1 l2 b2).2 x
      = (lowerTest l1 b1 x && lowerTest l2 b2 x) := by
  rcases lt_trichotomy l1 l2 with h1 | h1 | h1
  · rw [maxLowerC, if_pos h1]
    show lowerTest l2 b2 x = (lowerTest l1 b1 x && lowerTest l2 b2 x)
    cases ht2 : lowerTest l2 b2 x
    · simp
    · have := itv_lowerTest_of_lt (lt_of_lt_of_le h1 (itv_lowerTest_le ht2)) b1
      simp [this]
  · subst h1
    rw [maxLowerC, if_neg (lt_irrefl l1), if_neg (lt_irrefl l1)]
    cases b1 <;> cases b2
    · rw [if_pos (Or.inl rfl)]
      show lowerTest l1 Bound.OPEN x = _
      simp
    · rw [if_pos (Or.inl rfl)]
      show lowerTest l1 Bound.OPEN x
        = (lowerTest l1 Bound.OPEN x && lowerTest l1 Bound.CLOSED x)
      rw [Bool.eq_iff_iff, Bool.and_eq_true_iff]
      simp only [lowerTest, decide_eq_true_eq]
      exact ⟨fun h => ⟨h, le_of_lt h⟩, fun h => h.1⟩
    · rw [if_pos (Or.inr rfl)]
      show lowerTest l1 Bound.OPEN x
        = (lowerTest l1 Bound.CLOSED x && lowerTest l1 Bound.OPEN x)
      rw [Bool.eq_iff_iff, Bool.and_eq_true_iff]
      simp only [lowerTest, decide_eq_true_eq]
      exact ⟨fun h => ⟨le_of_lt h, h⟩, fun h => h.2⟩
    · rw [if_neg (by rintro (h | h) <;> exact Bound.noConfusion h)]
      show lowerTest l1 Bound.CLOSED x = _
      simp
  · rw [maxLowerC, if_neg (asymm h1), if_pos h1]
    show lowerTest l1 b1 x = (lowerTest l1 b1 x && lowerTest l2 b2 x)
    cases ht1 : lowerTest l1 b1 x
    · simp
    · have := itv_lowerTest_of_lt (lt_of_lt_of_le h1 (itv_lowerTest_le ht1)) b2
      simp [this]

theorem itv_upperTest_min (u1 u2 : Ext) (b1 b2 : Bound) (x : ℚ) :
    upperTest (minUpperC u1 b1 u2 b2).1 (minUpperC u1 b1 u2 b2).2 x
      = (upperTest u1 b1 x && upperTest u2 b2 x) := by
  rcases lt_trichotomy u1 u2 with h1 | h1 | h1
  · rw [minUpperC, if_pos h1]
    show upperTest u1 b1 x = (upperTest u1 b1 x && upperTest u2 b2 x)
    cases ht1 : upperTest u1 b1 x
    · simp
    · have := itv_upperTest_of_lt (lt_of_le_of_lt (itv_upperTest_le ht1) h1) b2
      simp [this]
  · subst h1
    rw [minUpperC, if_neg (lt_irrefl u1), if_neg (lt_irrefl u1)]
    cases b1 <;> cases b2
    · rw [if_pos (Or.inl rfl)]
      show upperTest u1 Bound.OPEN x = _
      simp
    · rw [if_pos (Or.inl rfl)]
      show upperTest u1 Bound.OPEN x
        = (upperTest u1 Bound.OPEN x && upperTest u1 Bound.CLOSED x)
      rw [Bool.eq_iff_iff, Bool.and_eq_true_iff]
      simp only [upperTest, decide_eq_true_eq]
      exact ⟨fun h => ⟨h, le_of_lt h⟩, fun h => h.1⟩
    · rw [if_pos (Or.inr rfl)]
      show upperTest u1 Bound.OPEN x
        = (upperTest u1 Bound.CLOSED x && upperTest u1 Bound.OPEN x)
      rw [Bool.eq_iff_iff, Bool.and_eq_true_iff]
      simp only [upperTest, decide_eq_true_eq]
      exact ⟨fun h => ⟨le_of_lt h, h⟩, fun h => h.2⟩
    · rw [if_neg (by rintro (h | h) <;> exact Bound.noConfusion h)]
      show upperTest u1 Bound.CLOSED x = _
      simp
  · rw [minUpperC, if_neg (asymm h1), if_pos h1]
    show upperTest u2 b2 x = (upperTest u1 b1 x && upperTest u2 b2 x)
    cases ht2 : upperTest u2 b2 x
    · simp
    · have := itv_upperTest_of_lt (lt_of_le_of_lt (itv_upperTest_le ht2) h1) b1
      simp [this]

theorem itv_mem_rawInf (s t : SIRaw) (x : ℚ) :
    memSI x (rawInf s t) = (memSI x s && memSI x t) := by
  show (lowerTest (maxLowerC s.lower s.lower_bound t.lower t.lower_bound).1
      (maxLowerC s.lower s.lower_bound t.lower t.lower_bound).2 x &&
    upperTest (minUpperC s.upper s.upper_bound t.upper t.upper_bound).1
      (minUpperC s.upper s.upper_bound t.upper t.upper_bound).2 x) = _
  rw [itv_lowerTest_max, itv_upperTest_min, memSI, memSI]
  cases lowerTest s.lower s.lower_bound x <;>
    cases lowerTest t.lower t.lower_bound x <;>
    cases upperTest s.upper s.upper_bound x <;>
    cases upperTest t.upper t.upper_bound x <;> rfl

theorem itv_ratE_ne_bot (q : ℚ) : ratE q ≠ (⊥ : Ext) :=
  WithBot.coe_ne_bot

theorem itv_ratE_ne_top (q : ℚ) : ratE q ≠ (⊤ : Ext) := by
  intro h
  rw [ratE] at h
  have : ((q : WithTop ℚ)) = (⊤ : WithTop ℚ) := WithBot.coe_inj.mp h
  exact WithTop.coe_ne_top this

theorem itv_canonical_shape {s : SIRaw} (h : canonicalSI s) : shapeSI s := by
  rcases h with rfl | h
  · exact ⟨fun hb => absurd hb (itv_ratE_ne_bot 0),
      fun ht => absurd ht (itv_ratE_ne_top 0)⟩
  · exact h.2

theorem itv_shape_rawInf {s t : SIRaw} (hs : shapeSI s) (ht : shapeSI t) :
    shapeSI (rawInf s t) := by
  constructor
  · show (maxLowerC s.lower s.lower_bound t.lower t.lower_bound).1 = ⊥ →
      (maxLowerC s.lower s.lower_bound t.lower t.lower_bound).2 = Bound.OPEN
    rcases lt_trichotomy s.lower t.lower with h | h | h
    · rw [maxLowerC, if_pos h]
      intro hb
      have hb2 : t.lower = ⊥ := hb
      rw [hb2] at h
      exact absurd h not_lt_bot
    · rw [maxLowerC, if_neg (h ▸ lt_irrefl s.lower), if_neg (h ▸ lt_irrefl s.lower)]
      intro hb
      show (if s.lower_bound = Bound.OPEN ∨ t.lower_bound = Bound.OPEN
        then Bound.OPEN else Bound.CLOSED) = Bound.OPEN
      rw [if_pos (Or.inl (hs.1 hb))]
    · rw [maxLowerC, if_neg (asymm h), if_pos h]
      exact hs.1
  · show (minUpperC s.upper s.upper_bound t.upper t.upper_bound).1 = ⊤ →
      (minUpperC s.upper s.upper_bound t.upper t.upper_bound).2 = Bound.OPEN
    rcases lt_trichotomy s.upper t.upper with h | h | h
    · rw [minUpperC, if_pos h]
      intro htop
      have ht2 : s.upper = ⊤ := htop
      rw [ht2] at h
      exact absurd h not_top_lt
    · rw [minUpperC, if_neg (h ▸ lt_irrefl s.upper), if_neg (h ▸ lt_irrefl s.upper)]
      intro htop
      show (if s.upper_bound = Bound.OPEN ∨ t.upper_bound = Bound.OPEN
        then Bound.OPEN else Bound.CLOSED) = Bound.OPEN
      rw [if_pos (Or.inl (hs.2 htop))]
    · rw [minUpperC, if_neg (asymm h), if_pos h]
      exact ht.2

theorem itv_mem_mkSI {s : SIRaw} (hs : shapeSI s) (x : ℚ) :
    memB x (mkSI s) = memSI x s := by
  rw [mkSI]
  split_ifs with h
  · rfl
  · have hem : isEmptySI s = true := by
      cases he : isEmptySI s
      · exact absurd ⟨he, hs⟩ h
      · rfl
    rw [itv_isEmpty_no_mem hem x]
    exact itv_mem_emptySIRaw x

theorem itv_mem_infSI (s t : SI) (x : ℚ) :
    memB x (infSI s t) = (memB x s && memB x t) := by
  rw [infSI,
    itv_mem_mkSI (itv_shape_rawInf (itv_canonical_shape s.2) (itv_canonical_shape t.2)) x,
    itv_mem_rawInf]
  rfl

theorem itv_mem_botSI (x : ℚ) : memB x botSI = false :=
  itv_mem_emptySIRaw x

theorem itv_valid_lower_ne_top {s : SIRaw} (hv : validSI s) : s.lower ≠ ⊤ := by
  intro h
  have hu : s.upper = ⊤ := top_le_iff.mp (h ▸ itv_valid_le hv)
  rcases (itv_isEmpty_false_iff s).mp hv.1 with hlt | ⟨-, -, hb2⟩
  · rw [h, hu] at hlt
    exact absurd hlt (lt_irrefl _)
  · rw [hv.2.2 hu] at hb2
    exact Bound.noConfusion hb2

theorem itv_valid_upper_ne_bot {s : SIRaw} (hv : validSI s) : s.upper ≠ ⊥ := by
  intro h
  have hl : s.lower = ⊥ := le_bot_iff.mp (h ▸ itv_valid_le hv)
  rcases (itv_isEmpty_false_iff s).mp hv.1 with hlt | ⟨-, hb1, -⟩
  · rw [h, hl] at hlt
    exact absurd hlt (lt_irrefl _)
  · rw [hv.2.1 hl] at hb1
    exact Bound.noConfusion hb1

theorem itv_valid_closed_lower_ratE {s : SIRaw} (hv : validSI s)
    (hb : s.lower_bound = Bound.CLOSED) : ∃ q : ℚ, s.lower = ratE q := by
  rcases itv_ext_cases s.lower with h | h | ⟨q, h⟩
  · rw [hv.2.1 h] at hb
    exact Bound.noConfusion hb
  · exact absurd h (itv_valid_lower_ne_top hv)
  · exact ⟨q, h⟩

theorem itv_valid_closed_upper_ratE {s : SIRaw} (hv : validSI s)
    (hb : s.upper_bound = Bound.CLOSED) : ∃ q : ℚ, s.upper = ratE q := by
  rcases itv_ext_cases s.upper with h | h | ⟨q, h⟩
  · exact absurd h (itv_valid_upper_ne_bot hv)
  · rw [hv.2.2 h] at hb
    exact Bound.noConfusion hb
  · exact ⟨q, h⟩

theorem itv_mem_lower_point {s : SIRaw} {q : ℚ} (hv : validSI s)
    (hl : s.lower = ratE q) (hb : s.lower_bound = Bound.CLOSED) :
    memSI q s = true := by
  rw [memSI, hb]
  have h1 : lowerTest s.lower Bound.CLOSED q = true := by
    simp [lowerTest, hl]
  rw [h1]
  rcases (itv_isEmpty_false_iff s).mp hv.1 with hlt | ⟨heq, -, hb2⟩
  · rw [itv_upperTest_of_lt (hl ▸ hlt) _]
    rfl
  · rw [hb2]
    simp [upperTest, ← heq, hl]

theorem itv_mem_upper_point {s : SIRaw} {q : ℚ} (hv : validSI s)
    (hu : s.upper = ratE q) (hb : s.upper_bound = Bound.CLOSED) :
    memSI q s = true := by
  rw [memSI, hb]
  have h1 : upperTest s.upper Bound.CLOSED q = true := by
    simp [upperTest, hu]
  rw [h1]
  rcases (itv_isEmpty_false_iff s).mp hv.1 with hlt | ⟨heq, hb1, -⟩
  · rw [itv_lowerTest_of_lt (hu ▸ hlt) _]
    rfl
  · rw [hb1]
    simp [lowerTest, heq, hu]

theorem itv_valid_lower_lt_upper {s : SIRaw} (hv : validSI s)
    (hb : s.lower_bound = Bound.OPEN) : s.lower < s.upper := by
  rcases (itv_isEmpty_false_iff s).mp hv.1 with hlt | ⟨-, hb1, -⟩
  · exact hlt
  · rw [hb] at hb1
    exact Bound.noConfusion hb1

theorem itv_valid_lower_lt_upper_of_ub_open {s : SIRaw} (hv : validSI s)
    (hb : s.upper_bound = Bound.OPEN) : s.lower < s.upper := by
  rcases (itv_isEmpty_false_iff s).mp hv.1 with hlt | ⟨-, -, hb2⟩
  · exact hlt
  · rw [hb] at hb2
    exact Bound.noConfusion hb2

/-- Finds a point of `s` violating a strictly stronger lower constraint. -/
theorem itv_lower_witness {s : SIRaw} (hv : validSI s) {l2 : Ext} {b2 : Bound}
    (hstr : s.lower < l2 ∨
      (s.lower = l2 ∧ s.lower_bound = Bound.CLOSED ∧ b2 = Bound.OPEN)) :
    ∃ x : ℚ, memSI x s = true ∧ lowerTest l2 b2 x = false := by
  rcases hstr with h | ⟨heq, hb1, hb2⟩
  · cases hc : s.lower_bound
    · have hlu : s.lower < s.upper := itv_valid_lower_lt_upper hv hc
      have hlm : s.lower < min l2 s.upper := lt_min h hlu
      obtain ⟨q, hq1, hq2⟩ := itv_ratBetween hlm
      refine ⟨q, ?_, ?_⟩
      · rw [memSI, itv_lowerTest_of_lt hq1,
          itv_upperTest_of_lt (lt_of_lt_of_le hq2 (min_le_right l2 s.upper)) _]
        rfl
      · have hql : ratE q < l2 := lt_of_lt_of_le hq2 (min_le_left l2 s.upper)
        cases b2 <;> simp [lowerTest]
        · exact le_of_lt hql
        · exact hql
    · obtain ⟨q, hq⟩ := itv_valid_closed_lower_ratE hv hc
      refine ⟨q, itv_mem_lower_point hv hq hc, ?_⟩
      have hql : ratE q < l2 := hq ▸ h
      cases b2 <;> simp [lowerTest]
      · exact le_of_lt hql
      · exact hql
  · obtain ⟨q, hq⟩ := itv_valid_closed_lower_ratE hv hb1
    refine ⟨q, itv_mem_lower_point hv hq hb1, ?_⟩
    rw [hb2]
    simp [lowerTest, ← heq, hq]

/-- Finds a point of `s` violating a strictly stronger upper constraint. -/
theorem itv_upper_witness {s : SIRaw} (hv : validSI s) {u2 : Ext} {b2 : Bound}
    (hstr : u2 < s.upper ∨
      (s.upper = u2 ∧ s.upper_bound = Bound.CLOSED ∧ b2 = Bound.OPEN)) :
    ∃ x : ℚ, memSI x s = true ∧ upperTest u2 b2 x = false := by
  rcases hstr with h | ⟨heq, hb1, hb2⟩
  · cases hc : s.upper_bound
    · have hlu : s.lower < s.upper := itv_valid_lower_lt_upper_of_ub_open hv hc
      have hlm : max u2 s.lower < s.upper := max_lt h hlu
      obtain ⟨q, hq1, hq2⟩ := itv_ratBetween hlm
      refine ⟨q, ?_, ?_⟩
      · rw [memSI, itv_upperTest_of_lt hq2 _,
          itv_lowerTest_of_lt (lt_of_le_of_lt (le_max_right u2 s.lower) hq1) _]
        rfl
      · have hqu : u2 < ratE q := lt_of_le_of_lt (le_max_left u2 s.lower) hq1
        cases b2 <;> simp [upperTest]
        · exact le_of_lt hqu
        · exact hqu
    · obtain ⟨q, hq⟩ := itv_valid_closed_upper_ratE hv hc
      refine ⟨q, itv_mem_upper_point hv hq hc, ?_⟩
      have hqu : u2 < ratE q := hq ▸ h
      cases b2 <;> simp [upperTest]
      · exact le_of_lt hqu
      · exact hqu
  · obtain ⟨q, hq⟩ := itv_valid_closed_upper_ratE hv hb1
    refine ⟨q, itv_mem_upper_point hv hq hb1, ?_⟩
    rw [hb2]
    simp [upperTest, ← heq, hq]

theorem itv_memSI_false_of_lowerTest_false {t : SIRaw} {x : ℚ}
    (h : lowerTest t.lower t.lower_bound x = false) : memSI x t = false := by
  rw [memSI, h]
  rfl

theorem itv_memSI_false_of_upperTest_false {t : SIRaw} {x : ℚ}
    (h : upperTest t.upper t.upper_bound x = false) : memSI x t = false := by
  rw [memSI, h]
  exact Bool.and_false _

theorem itv_lower_eq_of_mem_eq {a b : SIRaw} (hva : validSI a) (hvb : validSI b)
    (hmab : ∀ x, memSI x a = memSI x b) :
    a.lower = b.lower ∧ a.lower_bound = b.lower_bound := by
  rcases lt_trichotomy a.lower b.lower with h | h | h
  · obtain ⟨x, hx1, hx2⟩ := itv_lower_witness hva (Or.inl h)
    rw [hmab x, itv_memSI_false_of_lowerTest_false hx2] at hx1
    exact Bool.noConfusion hx1
  · refine ⟨h, ?_⟩
    cases hcs : a.lower_bound <;> cases hct : b.lower_bound
    · rfl
    · obtain ⟨x, hx1, hx2⟩ := itv_lower_witness hvb (Or.inr ⟨h.symm, hct, hcs⟩)
      rw [← hmab x] at hx1
      rw [itv_memSI_false_of_lowerTest_false hx2] at hx1
      exact Bool.noConfusion hx1
    · obtain ⟨x, hx1, hx2⟩ := itv_lower_witness hva (Or.inr ⟨h, hcs, hct⟩)
      rw [hmab x] at hx1
      rw [itv_memSI_false_of_lowerTest_false hx2] at hx1
      exact Bool.noConfusion hx1
    · rfl
  · obtain ⟨x, hx1, hx2⟩ := itv_lower_witness hvb (Or.inl h)
    rw [← hmab x] at hx1
    rw [itv_memSI_false_of_lowerTest_false hx2] at hx1
    exact Bool.noConfusion hx1

theorem itv_upper_eq_of_mem_eq {a b : SIRaw} (hva : validSI a) (hvb : validSI b)
    (hmab : ∀ x, memSI x a = memSI x b) :
    a.upper = b.upper ∧ a.upper_bound = b.upper_bound := by
  rcases lt_trichotomy a.upper b.upper with h | h | h
  · obtain ⟨x, hx1, hx2⟩ := itv_upper_witness hvb (Or.inl h)
    rw [← hmab x] at hx1
    rw [itv_memSI_false_of_upperTest_false hx2] at hx1
    exact Bool.noConfusion hx1
  · refine ⟨h, ?_⟩
    cases hcs : a.upper_bound <;> cases hct : b.upper_bound
    · rfl
    · obtain ⟨x, hx1, hx2⟩ := itv_upper_witness hvb (Or.inr ⟨h.symm, hct, hcs⟩)
      rw [← hmab x] at hx1
      rw [itv_memSI_false_of_upperTest_false hx2] at hx1
      exact Bool.noConfusion hx1
    · obtain ⟨x, hx1, hx2⟩ := itv_upper_witness hva (Or.inr ⟨h, hcs, hct⟩)
      rw [hmab x] at hx1
      rw [itv_memSI_false_of_upperTest_false hx2] at hx1
      exact Bool.noConfusion hx1
    · rfl
  · obtain ⟨x, hx1, hx2⟩ := itv_upper_witness hva (Or.inl h)
    rw [hmab x] at hx1
    rw [itv_memSI_false_of_upperTest_false hx2] at hx1
    exact Bool.noConfusion hx1

theorem itv_raw_ext {s t : SIRaw} (hvs : validSI s) (hvt : validSI t)
    (hm : ∀ x, memSI x s = memSI x t) : s = t := by
  obtain ⟨h1, h2⟩ := itv_lower_eq_of_mem_eq hvs hvt hm
  obtain ⟨h3, h4⟩ := itv_upper_eq_of_mem_eq hvs hvt hm
  exact SIRaw.ext h1 h3 h2 h4

/-- Canonical atoms with equal point sets are equal. -/
theorem itv_SI_ext {s t : SI} (hm : ∀ x, memB x s = memB x t) : s = t := by
  apply Subtype.ext
  rcases s.2 with hs | hs <;> rcases t.2 with ht | ht
  · rw [hs, ht]
  · obtain ⟨x, hx⟩ := itv_valid_nonempty ht
    have := hm x
    rw [memB, memB, hx, hs, itv_mem_emptySIRaw x] at this
    exact Bool.noConfusion this
  · obtain ⟨x, hx⟩ := itv_valid_nonempty hs
    have := hm x
    rw [memB, memB, hx, ht, itv_mem_emptySIRaw x] at this
    exact Bool.noConfusion this.symm
  · exact itv_raw_ext hs ht hm

instance : Min SI := ⟨infSI⟩

instance : SemilatticeInf SI :=
  SemilatticeInf.mk'
    (fun a b => itv_SI_ext (fun x => by
      show memB x (infSI a b) = memB x (infSI b a)
      rw [itv_mem_infSI, itv_mem_infSI, Bool.and_comm]))
    (fun a b c => itv_SI_ext (fun x => by
      show memB x (infSI (infSI a b) c) = memB x (infSI a (infSI b c))
      rw [itv_mem_infSI, itv_mem_infSI, itv_mem_infSI, itv_mem_infSI, Bool.and_assoc]))
    (fun a => itv_SI_ext (fun x => by
      show memB x (infSI a a) = memB x a
      rw [itv_mem_infSI, Bool.and_self]))

theorem itv_inf_def (a b : SI) : a ⊓ b = infSI a b := rfl

instance : OrderBot SI where
  bot := botSI
  bot_le := fun a => inf_eq_left.mp (itv_SI_ext (fun x => by
    show memB x (infSI botSI a) = memB x botSI
    rw [itv_mem_infSI, itv_mem_botSI, Bool.false_and]))

theorem itv_bot_def : (⊥ : SI) = botSI := rfl

theorem itv_lawMemInf : SA.LawMemInf memB :=
  fun x a b => itv_mem_infSI a b x

theorem itv_lawMemBot : SA.LawMemBot memB :=
  fun x => itv_mem_botSI x

/-- Flip a bound tag. -/
def flipB : Bound → Bound
  | Bound.OPEN => Bound.CLOSED
  | Bound.CLOSED => Bound.OPEN

/-- Modelled from the spec: `SimpleInterval.complement()` returns up to
two simples, `(-∞, lower)` with flipped lower bound and `(upper, +∞)`
with flipped upper bound, dropping any that are empty. -/
def complSI (s : SI) : List SI :=
  ([mkSI ⟨⊥, s.val.lower, Bound.OPEN, flipB s.val.lower_bound⟩,
    mkSI ⟨s.val.upper, ⊤, flipB s.val.upper_bound, Bound.OPEN⟩]).filter
    (fun t => decide (t ≠ botSI))

theorem itv_flip_upperTest (l : Ext) (b : Bound) (x : ℚ) :
    upperTest l (flipB b) x = !(lowerTest l b x) := by
  cases b <;> simp only [flipB, upperTest, lowerTest] <;>
    rw [Bool.eq_iff_iff] <;> simp [not_lt, not_le]

theorem itv_flip_lowerTest (u : Ext) (b : Bound) (x : ℚ) :
    lowerTest u (flipB b) x = !(upperTest u b x) := by
  cases b <;> simp only [flipB, upperTest, lowerTest] <;>
    rw [Bool.eq_iff_iff] <;> simp [not_lt, not_le]

theorem itv_lowerTest_bot (x : ℚ) : lowerTest ⊥ Bound.OPEN x = true := by
  simp [lowerTest, itv_bot_lt_ratE]

theorem itv_upperTest_top (x : ℚ) : upperTest ⊤ Bound.OPEN x = true := by
  simp [upperTest]
  rcases itv_ext_cases (ratE x) with h | h | ⟨q, h⟩
  · exact absurd h (itv_ratE_ne_bot x)
  · exact absurd h (itv_ratE_ne_top x)
  · rw [h]
    exact itv_ratE_lt_top q

theorem itv_valid_of_ne_bot {s : SI} (hs : s ≠ botSI) : validSI s.val := by
  rcases s.2 with h | h
  · exact absurd (Subtype.ext h) hs
  · exact h

theorem itv_lowerPart_shape {s : SI} :
    shapeSI ⟨⊥, s.val.lower, Bound.OPEN, flipB s.val.lower_bound⟩ := by
  refine ⟨fun _ => rfl, fun htop => ?_⟩
  exfalso
  rcases s.2 with h | h
  · rw [h] at htop
    exact itv_ratE_ne_top 0 htop
  · exact itv_valid_lower_ne_top h htop

theorem itv_upperPart_shape {s : SI} :
    shapeSI ⟨s.val.upper, ⊤, flipB s.val.upper_bound, Bound.OPEN⟩ := by
  refine ⟨fun hbot => ?_, fun _ => rfl⟩
  exfalso
  rcases s.2 with h | h
  · rw [h] at hbot
    exact itv_ratE_ne_bot 0 hbot
  · exact itv_valid_upper_ne_bot h hbot

theorem itv_memL_filter_ne_bot (x : ℚ) (l : List SI) :
    SA.memL memB x (l.filter (fun t => decide (t ≠ botSI)))
      = SA.memL memB x l := by
  induction l with
  | nil => rfl
  | cons t l ih =>
    rw [List.filter_cons]
    by_cases ht : t = botSI
    · rw [if_neg (by simpa using ht)]
      rw [ih]
      show _ = (memB x t || SA.memL memB x l)
      rw [ht, itv_mem_botSI, Bool.false_or]
    · rw [if_pos (by simpa using ht)]
      show (memB x t || _) = (memB x t || _)
      rw [show (List.filter (fun t => decide (t ≠ botSI)) l).any (memB x)
          = SA.memL memB x (List.filter (fun t => decide (t ≠ botSI)) l) from rfl, ih]
      rfl

theorem itv_mem_complSI (s : SI) (x : ℚ) :
    SA.memL memB x (complSI s) = !(memB x s) := by
  rw [complSI, itv_memL_filter_ne_bot]
  show (memB x (mkSI ⟨⊥, s.val.lower, Bound.OPEN, flipB s.val.lower_bound⟩) ||
    (memB x (mkSI ⟨s.val.upper, ⊤, flipB s.val.upper_bound, Bound.OPEN⟩) || false))
      = !(memB x s)
  rw [itv_mem_mkSI itv_lowerPart_shape, itv_mem_mkSI itv_upperPart_shape]
  show ((lowerTest ⊥ Bound.OPEN x && upperTest s.val.lower (flipB s.val.lower_bound) x) ||
    ((lowerTest s.val.upper (flipB s.val.upper_bound) x && upperTest ⊤ Bound.OPEN x) || false))
      = !(memB x s)
  rw [itv_lowerTest_bot, itv_upperTest_top, itv_flip_upperTest, itv_flip_lowerTest,
    Bool.true_and, Bool.and_true, Bool.or_false]
  show _ = !(lowerTest s.val.lower s.val.lower_bound x &&
    upperTest s.val.upper s.val.upper_bound x)
  cases lowerTest s.val.lower s.val.lower_bound x <;>
    cases upperTest s.val.upper s.val.upper_bound x <;> rfl

theorem itv_lowerTest_false_le {l : Ext} {b : Bound} {x : ℚ}
    (h : lowerTest l b x = false) : ratE x ≤ l := by
  cases b <;> simp [lowerTest] at h
  · exact h
  · exact le_of_lt h

theorem itv_upperTest_false_le {u : Ext} {b : Bound} {x : ℚ}
    (h : upperTest u b x = false) : u ≤ ratE x := by
  cases b <;> simp [upperTest] at h
  · exact h
  · exact le_of_lt h

theorem itv_complSI_dis {s : SI} (hs : s ≠ botSI) :
    (complSI s).Pairwise (SA.Dis memB) := by
  have hv : validSI s.val := itv_valid_of_ne_bot hs
  apply List.Pairwise.filter
  refine List.pairwise_cons.mpr ⟨?_, List.pairwise_singleton _ _⟩
  intro t ht
  rw [List.mem_singleton] at ht
  subst ht
  intro x ⟨h1, h2⟩
  rw [itv_mem_mkSI itv_lowerPart_shape] at h1
  rw [itv_mem_mkSI itv_upperPart_shape] at h2
  rw [memSI, Bool.and_eq_true_iff] at h1 h2
  have hxl : ratE x ≤ s.val.lower := by
    have := h1.2
    rw [itv_flip_upperTest, Bool.not_eq_true'] at this
    exact itv_lowerTest_false_le this
  have hux : s.val.upper ≤ ratE x := by
    have := h2.1
    rw [itv_flip_lowerTest, Bool.not_eq_true'] at this
    exact itv_upperTest_false_le this
  have hle := itv_valid_le hv
  have heq : s.val.lower = s.val.upper :=
    le_antisymm hle (le_trans hux hxl)
  rcases (itv_isEmpty_false_iff s.val).mp hv.1 with hlt | ⟨-, hb1, -⟩
  · rw [heq] at hlt
    exact absurd hlt (lt_irrefl _)
  · have h1' := h1.2
    rw [itv_flip_upperTest, Bool.not_eq_true'] at h1'
    rw [hb1] at h1'
    simp only [lowerTest, decide_eq_false_iff_not] at h1'
    exact h1' (le_trans (heq ▸ hux) (le_refl _))

theorem itv_lawMemCompl : SA.LawMemCompl memB complSI :=
  fun x a _ => itv_mem_complSI a x

theorem itv_lawComplDis : SA.LawComplDis memB complSI := by
  intro a ha
  exact itv_complSI_dis ha

/-- The composite interval type: a finite union of canonical atoms. -/
abbrev CInt : Type := List SI

/-- Modelled from the spec: `Interval.contains`. -/
def memCI (x : ℚ) (l : CInt) : Bool := SA.memL memB x l

/-- CLOSED sorts before OPEN at a shared endpoint. -/
def boundRank : Bound → Bool
  | Bound.CLOSED => false
  | Bound.OPEN => true

/-- The sort key of an atom: by `lower`, then `lower_bound`
(CLOSED before OPEN), with the upper data breaking remaining ties so the
comparison is total and antisymmetric. -/
def keySI (s : SI) : Lex (Ext × Lex (Bool × Lex (Ext × Bound))) :=
  toLex (s.val.lower, toLex (boundRank s.val.lower_bound,
    toLex (s.val.upper, s.val.upper_bound)))

instance : LinearOrder Bound :=
  LinearOrder.lift' boundRank (fun a b h => by
    cases a <;> cases b <;> first | rfl | exact Bool.noConfusion h)

/-- The atom comparison used for sorting composites. -/
def leKeyP (s t : SI) : Prop := keySI s ≤ keySI t

instance leKeyP_decidable : DecidableRel leKeyP :=
  fun s t => inferInstanceAs (Decidable (keySI s ≤ keySI t))

instance leKeyP_total : IsTotal SI leKeyP := ⟨fun a b => le_total (keySI a) (keySI b)⟩

instance leKeyP_trans : IsTrans SI leKeyP := ⟨fun _ _ _ h1 h2 => le_trans h1 h2⟩

/-- Modelled from the spec: composites keep their simples sorted. -/
def sortCanon (l : CInt) : CInt := l.insertionSort leKeyP

/-- The lower part of the sort key: `lower` then `lower_bound`, which is
the spec's atom ordering. -/
def lowKey (s : SI) : Lex (Ext × Bool) :=
  toLex (s.val.lower, boundRank s.val.lower_bound)

/-- Modelled from the spec: two consecutive simples merge exactly when
the left upper endpoint equals the right lower endpoint and not both
bounds at the shared endpoint are OPEN. -/
def mergeableSI (a b : SI) : Bool :=
  decide (a.val.upper = b.val.lower) &&
    !(decide (a.val.upper_bound = Bound.OPEN) &&
      decide (b.val.lower_bound = Bound.OPEN))

/-- Merge two abutting simples into one, keeping the left lower data and
the right upper data. -/
def mergeSI (a b : SI) : SI :=
  mkSI ⟨a.val.lower, b.val.upper, a.val.lower_bound, b.val.upper_bound⟩

/-- Modelled from the spec: `simplify` walks the sorted simples and
merges any two consecutive ones that abut without a gap. -/
def simplifyCI : CInt → CInt
  | [] => []
  | a :: rest =>
    match simplifyCI rest with
    | [] => [a]
    | b :: rest2 => if mergeableSI a b then mergeSI a b :: rest2 else a :: b :: rest2

/-- Modelled from the spec: every operation reduces a composite to the
canonical form: drop empties and duplicates, disjointify, sort,
simplify. -/
def canonicalizeCI (l : CInt) : CInt :=
  simplifyCI (sortCanon (SA.makeDisjoint complSI
    ((l.filter (fun s => decide (s ≠ botSI))).dedup)))

/-- Modelled from the spec: `union_with` concatenates the simples and
reduces to canonical form. -/
def unionCI (a b : CInt) : CInt := canonicalizeCI (a ++ b)

/-- Modelled from the spec: `intersection_with` intersects the simples
pairwise and reduces to canonical form. -/
def interCI (a b : CInt) : CInt :=
  canonicalizeCI (a.flatMap (fun s => b.map (fun t => s ⊓ t)))

/-- The full real line as an atom. -/
def realsSI : SI := mkSI ⟨⊥, ⊤, Bound.OPEN, Bound.OPEN⟩

/-- The ambient composite: all of the real line. -/
def fullCI : CInt := [realsSI]

/-- Modelled from the spec: composite `complement()` starts from the
ambient space and intersects the complements of all simples. -/
def complCI (a : CInt) : CInt :=
  a.foldl (fun acc s => interCI acc (complSI s)) fullCI

/-- Modelled from the spec: `difference_with` subtracts every simple of
the other composite from each simple of this one and reduces the
surviving pieces to canonical form. -/
def diffCI (a b : CInt) : CInt :=
  canonicalizeCI (a.flatMap (fun s => SA.diffList complSI s b))

/-- Modelled from the spec: `is_disjoint()` checks that all pairwise
intersections of the stored simples are empty. -/
def isDisjointCI (l : CInt) : Prop := l.Pairwise (fun a b => a ⊓ b = ⊥)

/-- The stored simples are sorted by the atom ordering (`lower`, then
`lower_bound`). -/
def isSortedCI (l : CInt) : Prop := l.Pairwise (fun a b => lowKey a ≤ lowKey b)

/-- No two consecutive stored simples can be merged into one. -/
def isSimplifiedCI (l : CInt) : Prop :=
  l.Chain' (fun a b => mergeableSI a b = false)

/-- The canonical form every public operation must return. -/
def CanonicalForm (l : CInt) : Prop :=
  isDisjointCI l ∧ isSortedCI l ∧ isSimplifiedCI l

theorem itv_inf_bot_of_dis {a b : SI} (h : SA.Dis memB a b) : a ⊓ b = ⊥ := by
  apply itv_SI_ext
  intro x
  rw [itv_inf_def, itv_mem_infSI, itv_bot_def, itv_mem_botSI]
  cases hma : memB x a
  · rfl
  · cases hmb : memB x b
    · rfl
    · exact absurd ⟨hma, hmb⟩ (h x)

theorem itv_sortCanon_sorted (l : CInt) : (sortCanon l).Pairwise leKeyP :=
  List.sorted_insertionSort leKeyP l

theorem itv_sortCanon_perm (l : CInt) : (sortCanon l).Perm l :=
  List.perm_insertionSort leKeyP l

theorem itv_leSI_lowKey {a b : SI} (h : leKeyP a b) : lowKey a ≤ lowKey b := by
  rw [leKeyP, keySI, keySI, Prod.Lex.le_iff] at h
  rw [lowKey, lowKey, Prod.Lex.le_iff]
  rcases h with h | ⟨h1, h2⟩
  · exact Or.inl h
  · refine Or.inr ⟨h1, ?_⟩
    rw [Prod.Lex.le_iff] at h2
    rcases h2 with h2 | ⟨h2, -⟩
    · exact le_of_lt h2
    · exact le_of_eq h2

theorem itv_merge_shape {a b : SI} :
    shapeSI ⟨a.val.lower, b.val.upper, a.val.lower_bound, b.val.upper_bound⟩ :=
  ⟨fun h => (itv_canonical_shape a.2).1 h, fun h => (itv_canonical_shape b.2).2 h⟩

theorem itv_mem_mergeSI {a b : SI} (hva : validSI a.val) (hvb : validSI b.val)
    (hm : mergeableSI a b = true) (x : ℚ) :
    memB x (mergeSI a b) = (memB x a || memB x b) := by
  rw [mergeSI, itv_mem_mkSI itv_merge_shape]
  rw [mergeableSI, Bool.and_eq_true_iff, decide_eq_true_eq] at hm
  obtain ⟨heq, hnb⟩ := hm
  rw [Bool.not_eq_true', Bool.and_eq_false_iff] at hnb
  have hfa : validSI b.val → b.val.lower ≤ b.val.upper := itv_valid_le
  rw [Bool.eq_iff_iff, Bool.or_eq_true]
  show (lowerTest a.val.lower a.val.lower_bound x &&
      upperTest b.val.upper b.val.upper_bound x) = true ↔ _
  rw [Bool.and_eq_true_iff]
  show _ ↔ (memSI x a.val = true ∨ memSI x b.val = true)
  rw [memSI, memSI, Bool.and_eq_true_iff, Bool.and_eq_true_iff]
  constructor
  · rintro ⟨hl, hu⟩
    rcases lt_trichotomy (ratE x) a.val.upper with hx | hx | hx
    · exact Or.inl ⟨hl, itv_upperTest_of_lt hx _⟩
    · cases hub : a.val.upper_bound
      · have hb2 : b.val.lower_bound = Bound.CLOSED := by
          rcases hnb with hc | hc
          · rw [hub] at hc
            simp at hc
          · rw [decide_eq_false_iff_not] at hc
            cases hcb : b.val.lower_bound
            · exact absurd hcb hc
            · rfl
        refine Or.inr ⟨?_, hu⟩
        rw [hb2]
        simp only [lowerTest, decide_eq_true_eq]
        rw [← heq, ← hx]
      · refine Or.inl ⟨hl, ?_⟩
        simp only [upperTest, decide_eq_true_eq]
        exact le_of_eq hx
    · refine Or.inr ⟨?_, hu⟩
      exact itv_lowerTest_of_lt (heq ▸ hx) _
  · rintro (⟨hl, hu⟩ | ⟨hl, hu⟩)
    · refine ⟨hl, ?_⟩
      have hxu : ratE x ≤ a.val.upper := itv_upperTest_le hu
      rcases (itv_isEmpty_false_iff b.val).mp hvb.1 with hlt | ⟨hbeq, -, hb2⟩
      · exact itv_upperTest_of_lt (lt_of_le_of_lt (heq ▸ hxu) hlt) _
      · rw [hb2]
        simp only [upperTest, decide_eq_true_eq]
        rw [← hbeq, ← heq]
        exact hxu
    · refine ⟨?_, hu⟩
      have hbx : b.val.lower ≤ ratE x := itv_lowerTest_le hl
      rcases (itv_isEmpty_false_iff a.val).mp hva.1 with hlt | ⟨haeq, hb1, -⟩
      · exact itv_lowerTest_of_lt (lt_of_lt_of_le (heq ▸ hlt) hbx) _
      · rw [hb1]
        simp only [lowerTest, decide_eq_true_eq]
        rw [haeq, heq]
        exact hbx

theorem itv_mergeSI_ne_bot {a b : SI} (hva : validSI a.val) (hvb : validSI b.val)
    (hm : mergeableSI a b = true) : mergeSI a b ≠ botSI := by
  obtain ⟨x, hx⟩ := itv_valid_nonempty hva
  intro hbot
  have h1 := itv_mem_mergeSI hva hvb hm x
  rw [hbot, itv_mem_botSI] at h1
  have hxa : memB x a = true := hx
  rw [hxa, Bool.true_or] at h1
  exact Bool.noConfusion h1

theorem itv_mergeSI_val {a b : SI} (h : mergeSI a b ≠ botSI) :
    (mergeSI a b).val
      = ⟨a.val.lower, b.val.upper, a.val.lower_bound, b.val.upper_bound⟩ := by
  by_cases hv : validSI
      (⟨a.val.lower, b.val.upper, a.val.lower_bound, b.val.upper_bound⟩ : SIRaw)
  · rw [mergeSI, mkSI, dif_pos hv]
  · exfalso
    apply h
    rw [mergeSI, mkSI, dif_neg hv]

theorem itv_mergeSI_lowKey {a b : SI} (h : mergeSI a b ≠ botSI) :
    lowKey (mergeSI a b) = lowKey a := by
  rw [lowKey, lowKey, itv_mergeSI_val h]

theorem itv_mergeSI_mergeable {a b c : SI} (h : mergeSI a b ≠ botSI) :
    mergeableSI (mergeSI a b) c = mergeableSI b c := by
  rw [mergeableSI, mergeableSI, itv_mergeSI_val h]

theorem itv_ne_bot_valid {s : SI} (h : s ≠ botSI) : validSI s.val :=
  itv_valid_of_ne_bot h

theorem itv_memCI_of_mem {x : ℚ} {c : SI} {l : CInt} (hc : c ∈ l)
    (hm : memB x c = true) : memCI x l = true :=
  (SA.sa_memL_iff memB x l).mpr ⟨c, hc, hm⟩

theorem itv_simplifyCI_spec :
    ∀ l : CInt, (∀ s ∈ l, s ≠ botSI) → l.Pairwise (SA.Dis memB) → isSortedCI l →
      (∀ x, memCI x (simplifyCI l) = memCI x l) ∧
      (∀ s ∈ simplifyCI l, s ≠ botSI) ∧
      (simplifyCI l).Pairwise (SA.Dis memB) ∧
      isSortedCI (simplifyCI l) ∧
      isSimplifiedCI (simplifyCI l) ∧
      (∀ c ∈ simplifyCI l, ∃ c' ∈ l, lowKey c = lowKey c') ∧
      ((simplifyCI l).head?.map lowKey = l.head?.map lowKey) := by
  intro l
  induction l with
  | nil =>
    intro _ _ _
    exact ⟨fun x => rfl, fun s hs => absurd hs (List.not_mem_nil s), List.Pairwise.nil,
      List.Pairwise.nil, List.chain'_nil, fun c hc => absurd hc (List.not_mem_nil c), rfl⟩
  | cons a rest ih =>
    intro hbot hdis hsort
    have hbot_rest : ∀ s ∈ rest, s ≠ botSI := fun s hs => hbot s (List.mem_cons_of_mem a hs)
    have hdis_rest : rest.Pairwise (SA.Dis memB) := hdis.of_cons
    have hsort_rest : isSortedCI rest := hsort.of_cons
    have hdis_a : ∀ r ∈ rest, SA.Dis memB a r := (List.pairwise_cons.mp hdis).1
    have hsort_a : ∀ r ∈ rest, lowKey a ≤ lowKey r := (List.pairwise_cons.mp hsort).1
    obtain ⟨ih_mem, ih_bot, ih_dis, ih_sort, ih_simp, ih_low, ih_head⟩ :=
      ih hbot_rest hdis_rest hsort_rest
    have ha : a ≠ botSI := hbot a (List.mem_cons_self a rest)
    have hdis_of : ∀ c ∈ simplifyCI rest, SA.Dis memB a c := by
      intro c hc x ⟨hxa, hxc⟩
      have h1 : memCI x (simplifyCI rest) = true := itv_memCI_of_mem hc hxc
      rw [ih_mem x] at h1
      obtain ⟨r, hr, hxr⟩ := (SA.sa_memL_iff memB x rest).mp h1
      exact hdis_a r hr x ⟨hxa, hxr⟩
    have hsort_of : ∀ c ∈ simplifyCI rest, lowKey a ≤ lowKey c := by
      intro c hc
      obtain ⟨c', hc', heq⟩ := ih_low c hc
      exact heq ▸ hsort_a c' hc'
    cases hrec : simplifyCI rest with
    | nil =>
      have hunfold : simplifyCI (a :: rest) = [a] := by
        rw [simplifyCI, hrec]
      rw [hunfold]
      have hmem_rest : ∀ x, memCI x rest = false := by
        intro x
        rw [← ih_mem x, hrec]
        rfl
      refine ⟨?_, ?_, ?_, ?_, ?_, ?_, ?_⟩
      · intro x
        show memCI x [a] = memCI x (a :: rest)
        show (memB x a || false) = (memB x a || memCI x rest)
        rw [hmem_rest x]
      · intro s hs
        rw [List.mem_singleton] at hs
        exact hs ▸ ha
      · exact List.pairwise_singleton _ a
      · exact List.pairwise_singleton _ a
      · exact List.chain'_singleton a
      · intro c hc
        rw [List.mem_singleton] at hc
        exact ⟨a, List.mem_cons_self a rest, hc ▸ rfl⟩
      · rfl
    | cons b rest2 =>
      have hb_mem : b ∈ simplifyCI rest := by
        rw [hrec]
        exact List.mem_cons_self b rest2
      have hb_ne : b ≠ botSI := ih_bot b hb_mem
      have hrest2_sub : ∀ c ∈ rest2, c ∈ simplifyCI rest := by
        intro c hc
        rw [hrec]
        exact List.mem_cons_of_mem b hc
      have hmem_brest2 : ∀ x, (memB x b || SA.memL memB x rest2) = memCI x rest := by
        intro x
        rw [← ih_mem x, hrec]
        rfl
      have hunfold : simplifyCI (a :: rest)
          = if mergeableSI a b = true then mergeSI a b :: rest2
            else a :: b :: rest2 := by
        rw [simplifyCI, hrec]
      by_cases hm : mergeableSI a b = true
      · rw [hunfold, if_pos hm]
        have hva := itv_ne_bot_valid ha
        have hvb := itv_ne_bot_valid hb_ne
        have hmerged_mem := itv_mem_mergeSI hva hvb hm
        have hmerged_ne := itv_mergeSI_ne_bot hva hvb hm
        refine ⟨?_, ?_, ?_, ?_, ?_, ?_, ?_⟩
        · intro x
          show (memB x (mergeSI a b) || SA.memL memB x rest2)
            = (memB x a || memCI x rest)
          rw [hmerged_mem x, ← hmem_brest2 x]
          cases memB x a <;> cases memB x b <;> cases SA.memL memB x rest2 <;> rfl
        · intro s hs
          rcases List.mem_cons.mp hs with rfl | hs
          · exact hmerged_ne
          · exact ih_bot s (hrest2_sub s hs)
        · rw [List.pairwise_cons]
          refine ⟨?_, ?_⟩
          · intro c hc x ⟨hxm, hxc⟩
            rw [hmerged_mem x, Bool.or_eq_true] at hxm
            rcases hxm with hxa | hxb
            · exact hdis_of c (hrest2_sub c hc) x ⟨hxa, hxc⟩
            · have := ih_dis
              rw [hrec, List.pairwise_cons] at this
              exact this.1 c hc x ⟨hxb, hxc⟩
          · have := ih_dis
            rw [hrec, List.pairwise_cons] at this
            exact this.2
        · rw [isSortedCI, List.pairwise_cons]
          refine ⟨?_, ?_⟩
          · intro c hc
            rw [itv_mergeSI_lowKey hmerged_ne]
            exact hsort_of c (hrest2_sub c hc)
          · have := ih_sort
            rw [isSortedCI, hrec, List.pairwise_cons] at this
            exact this.2
        · cases hr2 : rest2 with
          | nil => exact List.chain'_singleton _
          | cons c rest3 =>
            rw [isSimplifiedCI, List.chain'_cons]
            have := ih_simp
            rw [isSimplifiedCI, hrec, hr2, List.chain'_cons] at this
            exact ⟨(itv_mergeSI_mergeable hmerged_ne).trans this.1, this.2⟩
        · intro c hc
          rcases List.mem_cons.mp hc with rfl | hc
          · exact ⟨a, List.mem_cons_self a rest, itv_mergeSI_lowKey hmerged_ne⟩
          · obtain ⟨c', hc', heq⟩ := ih_low c (hrest2_sub c hc)
            exact ⟨c', List.mem_cons_of_mem a hc', heq⟩
        · show some (lowKey (mergeSI a b)) = some (lowKey a)
          rw [itv_mergeSI_lowKey hmerged_ne]
      · rw [hunfold, if_neg hm]
        have hm' : mergeableSI a b = false := by
          cases h : mergeableSI a b
          · rfl
          · exact absurd h hm
        refine ⟨?_, ?_, ?_, ?_, ?_, ?_, ?_⟩
        · intro x
          show (memB x a || (memB x b || SA.memL memB x rest2))
            = (memB x a || memCI x rest)
          rw [hmem_brest2 x]
        · intro s hs
          rcases List.mem_cons.mp hs with rfl | hs
          · exact ha
          · rw [← hrec] at hs
            exact ih_bot s hs
        · rw [List.pairwise_cons]
          refine ⟨?_, ?_⟩
          · intro c hc
            rw [← hrec] at hc
            exact hdis_of c hc
          · rw [← hrec]
            exact ih_dis
        · rw [isSortedCI, List.pairwise_cons]
          refine ⟨?_, ?_⟩
          · intro c hc
            rw [← hrec] at hc
            exact hsort_of c hc
          · rw [← hrec]
            exact ih_sort
        · rw [isSimplifiedCI, List.chain'_cons]
          refine ⟨hm', ?_⟩
          rw [← hrec]
          exact ih_simp
        · intro c hc
          rcases List.mem_cons.mp hc with hca | hc
          · exact ⟨a, List.mem_cons_self a rest, by rw [hca]⟩
          · rw [← hrec] at hc
            obtain ⟨c', hc', heq⟩ := ih_low c hc
            exact ⟨c', List.mem_cons_of_mem a hc', heq⟩
        · rfl

theorem itv_dis_symm {a b : SI} (h : SA.Dis memB a b) : SA.Dis memB b a :=
  fun x hx => h x ⟨hx.2, hx.1⟩

theorem itv_canonicalizeCI_spec (l : CInt) :
    (∀ x, memCI x (canonicalizeCI l) = memCI x l) ∧
      CanonicalForm (canonicalizeCI l) := by
  have hnd : ((l.filter (fun s => decide (s ≠ botSI))).dedup).Nodup :=
    List.nodup_dedup _
  have hne : ∀ s ∈ (l.filter (fun s => decide (s ≠ botSI))).dedup, s ≠ (⊥ : SI) := by
    intro s hs
    rw [List.mem_dedup, List.mem_filter] at hs
    simpa using hs.2
  obtain ⟨hmd_dis, hmd_mem⟩ :=
    SA.sa_makeDisjoint_spec itv_lawMemInf itv_lawMemBot itv_lawMemCompl
      itv_lawComplDis hnd hne
  have hmd_ne : ∀ p ∈ SA.makeDisjoint complSI
      ((l.filter (fun s => decide (s ≠ botSI))).dedup), p ≠ botSI :=
    fun p hp => SA.sa_makeDisjoint_ne_bot hne p hp
  have hperm := itv_sortCanon_perm
    (SA.makeDisjoint complSI ((l.filter (fun s => decide (s ≠ botSI))).dedup))
  have hsrt_dis := (List.Perm.pairwise_iff (fun h => itv_dis_symm h) hperm).mpr hmd_dis
  have hsrt_ne : ∀ p ∈ sortCanon (SA.makeDisjoint complSI
      ((l.filter (fun s => decide (s ≠ botSI))).dedup)), p ≠ botSI :=
    fun p hp => hmd_ne p (hperm.mem_iff.mp hp)
  have hsrt_sorted : isSortedCI (sortCanon (SA.makeDisjoint complSI
      ((l.filter (fun s => decide (s ≠ botSI))).dedup))) :=
    (itv_sortCanon_sorted _).imp itv_leSI_lowKey
  obtain ⟨hs_mem, hs_ne, hs_dis, hs_sort, hs_simp, -, -⟩ :=
    itv_simplifyCI_spec _ hsrt_ne hsrt_dis hsrt_sorted
  refine ⟨?_, ?_, hs_sort, hs_simp⟩
  · intro x
    rw [canonicalizeCI, hs_mem x]
    show SA.memL memB x _ = _
    rw [SA.sa_memL_perm memB x hperm, hmd_mem x, SA.sa_memL_dedup,
      itv_memL_filter_ne_bot]
    rfl
  · exact hs_dis.imp (fun h => itv_inf_bot_of_dis h)

theorem itv_any_and_left (c : Bool) (p : SI → Bool) (l : List SI) :
    l.any (fun t => c && p t) = (c && l.any p) := by
  induction l with
  | nil => simp
  | cons t l ih => simp [List.any_cons, ih, Bool.and_or_distrib_left]

theorem itv_any_and_right (p : SI → Bool) (c : Bool) (l : List SI) :
    l.any (fun t => p t && c) = (l.any p && c) := by
  induction l with
  | nil => simp
  | cons t l ih => simp [List.any_cons, ih, Bool.and_or_distrib_right]

theorem itv_interCI_mem (a b : CInt) (x : ℚ) :
    memCI x (interCI a b) = (memCI x a && memCI x b) := by
  rw [interCI, (itv_canonicalizeCI_spec _).1 x]
  show (a.flatMap (fun s => b.map (fun t => s ⊓ t))).any (memB x) = _
  rw [List.any_flatMap]
  have hinner : ∀ s : SI, (b.map (fun t => s ⊓ t)).any (memB x)
      = (memB x s && b.any (memB x)) := by
    intro s
    rw [List.any_map]
    have : (memB x ∘ fun t => s ⊓ t) = (fun t => memB x s && memB x t) := by
      funext t
      show memB x (s ⊓ t) = _
      rw [itv_inf_def, itv_mem_infSI]
    rw [this, itv_any_and_left]
  have : (fun s => (b.map (fun t => s ⊓ t)).any (memB x))
      = (fun s => memB x s && b.any (memB x)) := funext hinner
  rw [this, itv_any_and_right]
  rfl

theorem itv_mem_fullCI (x : ℚ) : memCI x fullCI = true := by
  show (memB x realsSI || false) = true
  rw [Bool.or_false]
  rw [show memB x realsSI
    = memSI x ⟨⊥, ⊤, Bound.OPEN, Bound.OPEN⟩ from
      itv_mem_mkSI ⟨fun _ => rfl, fun _ => rfl⟩ x]
  rw [memSI]
  show (lowerTest ⊥ Bound.OPEN x && upperTest ⊤ Bound.OPEN x) = true
  rw [itv_lowerTest_bot, itv_upperTest_top]
  rfl

theorem itv_complCI_fold_mem :
    ∀ (l : CInt) (acc : CInt) (x : ℚ),
      memCI x (l.foldl (fun acc s => interCI acc (complSI s)) acc)
        = (memCI x acc && !(memCI x l)) := by
  intro l
  induction l with
  | nil =>
    intro acc x
    show memCI x acc = (memCI x acc && !false)
    rw [Bool.not_false, Bool.and_true]
  | cons s l ih =>
    intro acc x
    rw [List.foldl_cons, ih, itv_interCI_mem]
    have h1 : memCI x (complSI s) = !(memB x s) := itv_mem_complSI s x
    rw [h1]
    show _ = (memCI x acc && !(memB x s || memCI x l))
    cases memCI x acc <;> cases memB x s <;> cases memCI x l <;> rfl

theorem itv_complCI_mem (a : CInt) (x : ℚ) :
    memCI x (complCI a) = !(memCI x a) := by
  rw [complCI, itv_complCI_fold_mem, itv_mem_fullCI, Bool.true_and]

theorem itv_canonical_fullCI : CanonicalForm fullCI :=
  ⟨List.pairwise_singleton _ _, List.pairwise_singleton _ _, List.chain'_singleton _⟩

theorem itv_complCI_fold_canonical :
    ∀ (l : CInt) (acc : CInt), CanonicalForm acc →
      CanonicalForm (l.foldl (fun acc s => interCI acc (complSI s)) acc) := by
  intro l
  induction l with
  | nil => intro acc h; exact h
  | cons s l ih =>
    intro acc _
    rw [List.foldl_cons]
    exact ih _ (itv_canonicalizeCI_spec _).2

/-- Shortcut constructor: the closed interval `[p, q]`. -/
def closedI (p q : ℚ) : SI := mkSI ⟨ratE p, ratE q, Bound.CLOSED, Bound.CLOSED⟩

/-- Shortcut constructor: the open interval `(p, q)`. -/
def openI (p q : ℚ) : SI := mkSI ⟨ratE p, ratE q, Bound.OPEN, Bound.OPEN⟩

/-- Shortcut constructor: the half-open interval `[p, q)`. -/
def closed_openI (p q : ℚ) : SI := mkSI ⟨ratE p, ratE q, Bound.CLOSED, Bound.OPEN⟩

/-- Shortcut constructor: the half-open interval `(p, q]`. -/
def open_closedI (p q : ℚ) : SI := mkSI ⟨ratE p, ratE q, Bound.OPEN, Bound.CLOSED⟩

theorem itv_mergeableSI_iff (a b : SI) :
    mergeableSI a b = true ↔
      (a.val.upper = b.val.lower ∧
        ¬(a.val.upper_bound = Bound.OPEN ∧ b.val.lower_bound = Bound.OPEN)) := by
  rw [mergeableSI, Bool.and_eq_true_iff, decide_eq_true_eq, Bool.not_eq_true',
    Bool.and_eq_false_iff]
  constructor
  · rintro ⟨h1, h2⟩
    refine ⟨h1, ?_⟩
    rintro ⟨ho1, ho2⟩
    rcases h2 with h | h <;> rw [decide_eq_false_iff_not] at h
    · exact h ho1
    · exact h ho2
  · rintro ⟨h1, h2⟩
    refine ⟨h1, ?_⟩
    by_cases hc1 : a.val.upper_bound = Bound.OPEN
    · refine Or.inr ?_
      rw [decide_eq_false_iff_not]
      exact fun hc2 => h2 ⟨hc1, hc2⟩
    · refine Or.inl ?_
      rw [decide_eq_false_iff_not]
      exact hc1

end Itv

/-- C7: interval simplification merges two consecutive simple intervals
exactly when the left upper endpoint equals the right lower endpoint and
not both bounds at the shared endpoint are OPEN; the merged simple has
the same point set as the union of the two; in particular the union of
`closed(0,1)` and `open(1,2)` canonicalises to the single simple
`[0, 2)`. -/
theorem claim_C7_simplify_policy (a b : Itv.SI)
    (ha : a ≠ Itv.botSI) (hb : b ≠ Itv.botSI) :
    (Itv.simplifyCI [a, b] = [Itv.mergeSI a b] ↔
      (a.val.upper = b.val.lower ∧
        ¬(a.val.upper_bound = Itv.Bound.OPEN ∧
          b.val.lower_bound = Itv.Bound.OPEN))) ∧
    (Itv.mergeableSI a b = true →
      ∀ x : ℚ, Itv.memB x (Itv.mergeSI a b) = (Itv.memB x a || Itv.memB x b)) ∧
    Itv.unionCI [Itv.closedI 0 1] [Itv.openI 1 2] = [Itv.closed_openI 0 2] := by
  refine ⟨?_, ?_, by decide⟩
  · have hunf : Itv.simplifyCI [a, b]
        = if Itv.mergeableSI a b = true then [Itv.mergeSI a b] else [a, b] := rfl
    rw [hunf, ← Itv.itv_mergeableSI_iff a b]
    by_cases hm : Itv.mergeableSI a b = true
    · rw [if_pos hm]
      constructor
      · intro _
        exact hm
      · intro _
        rfl
    · rw [if_neg hm]
      constructor
      · intro h
        exact absurd (congrArg List.length h) (by simp)
      · intro h
        exact absurd h hm
  · intro hm x
    exact Itv.itv_mem_mergeSI (Itv.itv_ne_bot_valid ha) (Itv.itv_ne_bot_valid hb) hm x

/-- Witness for C7 at the concrete pair `[0,1]` and `(1,2)`. -/
theorem claim_C7_simplify_policy_witness :
    (Itv.closedI 0 1 ≠ Itv.botSI ∧ Itv.openI 1 2 ≠ Itv.botSI) ∧
    ((Itv.simplifyCI [Itv.closedI 0 1, Itv.openI 1 2]
        = [Itv.mergeSI (Itv.closedI 0 1) (Itv.openI 1 2)] ↔
      ((Itv.closedI 0 1).val.upper = (Itv.openI 1 2).val.lower ∧
        ¬((Itv.closedI 0 1).val.upper_bound = Itv.Bound.OPEN ∧
          (Itv.openI 1 2).val.lower_bound = Itv.Bound.OPEN))) ∧
    (Itv.mergeableSI (Itv.closedI 0 1) (Itv.openI 1 2) = true →
      ∀ x : ℚ, Itv.memB x (Itv.mergeSI (Itv.closedI 0 1) (Itv.openI 1 2))
        = (Itv.memB x (Itv.closedI 0 1) || Itv.memB x (Itv.openI 1 2))) ∧
    Itv.unionCI [Itv.closedI 0 1] [Itv.openI 1 2] = [Itv.closed_openI 0 2]) :=
  ⟨⟨by decide, by decide⟩,
    claim_C7_simplify_policy (Itv.closedI 0 1) (Itv.openI 1 2) (by decide) (by decide)⟩

namespace PE

variable {γ β : Type}

/-- Modelled from the spec: a `SimpleEvent` over `n` variables binds one
composite per variable; variables are the positions of the list.  A point
is in the event iff every coordinate is in its variable's composite
(events and points of different dimension never match). -/
def memSE (memC : β → γ → Bool) : List β → List γ → Bool
  | [], [] => true
  | x :: xs, c :: cs => memC x c && memSE memC xs cs
  | _, _ => false

/-- Membership in a union of simple events. -/
def memUnionSE (memC : β → γ → Bool) (xs : List β) (es : List (List γ)) : Bool :=
  es.any (memSE memC xs)

/-- Modelled from the spec and the conceptual guide's linear-complement
proof: the complement of `A₁ × … × Aₙ` is materialised as the `n` events
whose `i`-th event binds the original composites before variable `i`,
the complement at `i`, and the full domain after `i`. -/
def complementSE (complC : γ → γ) (full : γ) : List γ → List (List γ)
  | [] => []
  | c :: rest =>
    (complC c :: rest.map (fun _ => full)) ::
      (complementSE complC full rest).map (fun e => c :: e)

theorem pe_complementSE_length (complC : γ → γ) (full : γ) :
    ∀ A : List γ, (complementSE complC full A).length = A.length := by
  intro A
  induction A with
  | nil => rfl
  | cons c rest ih =>
    rw [complementSE]
    show _ + 1 = _ + 1
    rw [List.length_map, ih]

theorem pe_memSE_fulls (memC : β → γ → Bool) (full : γ)
    (hfull : ∀ x : β, memC x full = true) :
    ∀ (xs : List β) (rest : List γ), xs.length = rest.length →
      memSE memC xs (rest.map (fun _ => full)) = true := by
  intro xs
  induction xs with
  | nil =>
    intro rest h
    cases rest
    · rfl
    · exact absurd h (by simp)
  | cons x xs ih =>
    intro rest h
    cases rest with
    | nil => exact absurd h (by simp)
    | cons c rest =>
      rw [List.map_cons]
      show (memC x full && memSE memC xs (rest.map (fun _ => full))) = true
      rw [hfull x, ih rest (by simpa using h)]
      rfl

end PE

/-- C1: the product-layer `complement()` of a `SimpleEvent` over `n`
variables (each bound to a nonempty, non-full composite) returns at most
`n` simple events that are pairwise disjoint and whose union is the
ambient universe minus the event. -/
theorem claim_C1_linear_complement {γ β : Type} (memC : β → γ → Bool)
    (complC : γ → γ) (full : γ)
    (hcompl : ∀ (x : β) (c : γ), memC x (complC c) = !(memC x c))
    (hfull : ∀ x : β, memC x full = true)
    (A : List γ)
    (_hne : ∀ c ∈ A, ∃ x, memC x c = true)
    (_hnf : ∀ c ∈ A, ∃ x, memC x c = false) :
    (PE.complementSE complC full A).length ≤ A.length ∧
    (PE.complementSE complC full A).Pairwise (fun e1 e2 =>
      ∀ xs : List β,
        ¬(PE.memSE memC xs e1 = true ∧ PE.memSE memC xs e2 = true)) ∧
    (∀ xs : List β, xs.length = A.length →
      PE.memUnionSE memC xs (PE.complementSE complC full A)
        = !(PE.memSE memC xs A)) := by
  refine ⟨le_of_eq (PE.pe_complementSE_length complC full A), ?_, ?_⟩
  · clear _hne _hnf
    induction A with
    | nil => exact List.Pairwise.nil
    | cons c rest ih =>
      rw [PE.complementSE, List.pairwise_cons]
      constructor
      · intro e he xs ⟨h1, h2⟩
        rw [List.mem_map] at he
        obtain ⟨e', -, rfl⟩ := he
        cases xs with
        | nil => exact Bool.noConfusion h1
        | cons x xs =>
          have hc1 : memC x (complC c) = true :=
            (Bool.and_eq_true_iff.mp h1).1
          have hc2 : memC x c = true := (Bool.and_eq_true_iff.mp h2).1
          rw [hcompl, hc2] at hc1
          exact Bool.noConfusion hc1
      · rw [List.pairwise_map]
        refine ih.imp ?_
        intro e1 e2 h xs ⟨h1, h2⟩
        cases xs with
        | nil => exact Bool.noConfusion h1
        | cons x xs =>
          exact h xs ⟨(Bool.and_eq_true_iff.mp h1).2, (Bool.and_eq_true_iff.mp h2).2⟩
  · clear _hne _hnf
    induction A with
    | nil =>
      intro xs h
      cases xs
      · rfl
      · exact absurd h (by simp)
    | cons c rest ih =>
      intro xs h
      cases xs with
      | nil => exact absurd h (by simp)
      | cons x xs =>
        have hlen : xs.length = rest.length := by simpa using h
        rw [PE.complementSE, PE.memUnionSE, List.any_cons]
        have hfst : PE.memSE memC (x :: xs) (complC c :: rest.map (fun _ => full))
            = !(memC x c) := by
          show (memC x (complC c) && _) = _
          rw [hcompl, PE.pe_memSE_fulls memC full hfull xs rest hlen, Bool.and_true]
        have hsnd : ((PE.complementSE complC full rest).map (fun e => c :: e)).any
            (PE.memSE memC (x :: xs))
            = (memC x c && !(PE.memSE memC xs rest)) := by
          rw [List.any_map]
          have : (PE.memSE memC (x :: xs) ∘ fun e => c :: e)
              = fun e => memC x c && PE.memSE memC xs e := by
            funext e
            rfl
          rw [this]
          have hconst : ((PE.complementSE complC full rest).any
              (fun e => memC x c && PE.memSE memC xs e))
              = (memC x c && PE.memUnionSE memC xs (PE.complementSE complC full rest)) := by
            rw [PE.memUnionSE]
            induction (PE.complementSE complC full rest) with
            | nil => simp
            | cons e es ihe => simp [List.any_cons, ihe, Bool.and_or_distrib_left]
          rw [hconst, ih xs hlen]
        rw [hfst, hsnd]
        show _ = !(memC x c && PE.memSE memC xs rest)
        cases memC x c <;> cases PE.memSE memC xs rest <;> rfl

/-- Witness for C1: the unit square over two continuous variables; the
complement is exactly the two events of the claim: left-and-right strip
`(-∞,0) ∪ (1,+∞)` times the full line, and `[0,1]` times
`(-∞,0) ∪ (1,+∞)`. -/
theorem claim_C1_linear_complement_witness :
    ((∀ c ∈ [[Itv.closedI 0 1], [Itv.closedI 0 1]],
        ∃ x : ℚ, Itv.memCI x c = true) ∧
      (∀ c ∈ [[Itv.closedI 0 1], [Itv.closedI 0 1]],
        ∃ x : ℚ, Itv.memCI x c = false)) ∧
    (PE.complementSE Itv.complCI Itv.fullCI [[Itv.closedI 0 1], [Itv.closedI 0 1]]
      = [[[Itv.mkSI ⟨⊥, Itv.ratE 0, Itv.Bound.OPEN, Itv.Bound.OPEN⟩,
           Itv.mkSI ⟨Itv.ratE 1, ⊤, Itv.Bound.OPEN, Itv.Bound.OPEN⟩], Itv.fullCI],
         [[Itv.closedI 0 1],
          [Itv.mkSI ⟨⊥, Itv.ratE 0, Itv.Bound.OPEN, Itv.Bound.OPEN⟩,
           Itv.mkSI ⟨Itv.ratE 1, ⊤, Itv.Bound.OPEN, Itv.Bound.OPEN⟩]]]) ∧
    ((PE.complementSE Itv.complCI Itv.fullCI
        [[Itv.closedI 0 1], [Itv.closedI 0 1]]).length
      ≤ ([[Itv.closedI 0 1], [Itv.closedI 0 1]] : List Itv.CInt).length ∧
    (PE.complementSE Itv.complCI Itv.fullCI
        [[Itv.closedI 0 1], [Itv.closedI 0 1]]).Pairwise (fun e1 e2 =>
      ∀ xs : List ℚ,
        ¬(PE.memSE (fun x c => Itv.memCI x c) xs e1 = true ∧
          PE.memSE (fun x c => Itv.memCI x c) xs e2 = true)) ∧
    (∀ xs : List ℚ, xs.length = ([[Itv.closedI 0 1], [Itv.closedI 0 1]] : List Itv.CInt).length →
      PE.memUnionSE (fun x c => Itv.memCI x c) xs
        (PE.complementSE Itv.complCI Itv.fullCI [[Itv.closedI 0 1], [Itv.closedI 0 1]])
        = !(PE.memSE (fun x c => Itv.memCI x c) xs
            [[Itv.closedI 0 1], [Itv.closedI 0 1]]))) :=
  ⟨⟨fun c hc => by
      rcases List.mem_cons.mp hc with rfl | hc
      · exact ⟨0, by decide⟩
      · rcases List.mem_cons.mp hc with rfl | hc
        · exact ⟨0, by decide⟩
        · exact absurd hc (List.not_mem_nil c),
    fun c hc => by
      rcases List.mem_cons.mp hc with rfl | hc
      · exact ⟨2, by decide⟩
      · rcases List.mem_cons.mp hc with rfl | hc
        · exact ⟨2, by decide⟩
        · exact absurd hc (List.not_mem_nil c)⟩,
   by decide,
   claim_C1_linear_complement (fun x c => Itv.memCI x c) Itv.complCI Itv.fullCI
     (fun x c => Itv.itv_complCI_mem c x) (fun x => Itv.itv_mem_fullCI x)
     [[Itv.closedI 0 1], [Itv.closedI 0 1]]
     (fun c hc => by
      rcases List.mem_cons.mp hc with rfl | hc
      · exact ⟨0, by decide⟩
      · rcases List.mem_cons.mp hc with rfl | hc
        · exact ⟨0, by decide⟩
        · exact absurd hc (List.not_mem_nil c))
     (fun c hc => by
      rcases List.mem_cons.mp hc with rfl | hc
      · exact ⟨2, by decide⟩
      · rcases List.mem_cons.mp hc with rfl | hc
        · exact ⟨2, by decide⟩
        · exact absurd hc (List.not_mem_nil c))⟩

namespace Sym

/-- Modelled from the spec: a symbolic-set atom is a single element of a
fixed finite universe of `n` symbols, and `complement()` of one element
returns all other elements, one simple per other index. -/
def complSetElement (n : Nat) (e : Fin n) : List (Fin n) :=
  (List.finRange n).filter (fun j => decide (j ≠ e))

theorem sym_filter_length {n : Nat} (e : Fin n) :
    ∀ l : List (Fin n), l.Nodup → e ∈ l →
      (l.filter (fun j => decide (j ≠ e))).length = l.length - 1 := by
  intro l
  induction l with
  | nil => intro _ h; exact absurd h (List.not_mem_nil e)
  | cons x rest ih =>
    intro hnd hmem
    by_cases hx : x = e
    · subst hx
      rw [List.filter_cons]
      rw [if_neg (by simp)]
      have hrest : ∀ j ∈ rest, j ≠ x := by
        intro j hj he
        exact (List.pairwise_cons.mp hnd).1 j hj he.symm
      have : rest.filter (fun j => decide (j ≠ x)) = rest := by
        apply List.filter_eq_self.mpr
        intro j hj
        simpa using hrest j hj
      rw [this]
      rfl
    · rw [List.filter_cons, if_pos (by simpa using hx)]
      have hmem' : e ∈ rest := by
        rcases List.mem_cons.mp hmem with h | h
        · exact absurd h.symm hx
        · exact h
      have hlen : 1 ≤ rest.length := List.length_pos.mpr
        (fun h => by rw [h] at hmem'; exact absurd hmem' (List.not_mem_nil e))
      simp only [List.length_cons]
      rw [ih (List.Pairwise.of_cons hnd) hmem']
      omega

end Sym

/-- Counterexample for C6: over a three-element universe the complement
of one element returns two simples, so it is not a collection of at most
one simple set. -/
theorem claim_C6_counterexample :
    (Sym.complSetElement 3 0).length = 2 ∧
      ¬((Sym.complSetElement 3 0).length ≤ 1) := by decide

/-- C6 amended: the symbolic-set complement of a single element returns
a disjoint (duplicate-free) collection of exactly `|universe| - 1`
simple sets, one per other element, whose union is the complement of the
element in the universe. -/
theorem claim_C6_symbolic_complement (n : Nat) (e : Fin n) :
    (Sym.complSetElement n e).length = n - 1 ∧
    (Sym.complSetElement n e).Pairwise (fun a b => a ≠ b) ∧
    (∀ x : Fin n, x ∈ Sym.complSetElement n e ↔ x ≠ e) := by
  refine ⟨?_, ?_, ?_⟩
  · rw [Sym.complSetElement,
      Sym.sym_filter_length e (List.finRange n) (List.nodup_finRange n)
        (List.mem_finRange e), List.length_finRange]
  · exact (List.nodup_finRange n).filter _
  · intro x
    rw [Sym.complSetElement, List.mem_filter]
    simp [List.mem_finRange]

namespace VM

/-- Modelled from the spec: the kind of a variable. -/
inductive VarKind : Type
  | Symbolic : VarKind
  | Integer : VarKind
  | Continuous : VarKind
deriving DecidableEq

/-- Modelled from the spec: a variable has a name, a kind and a domain;
two variables are equal iff their names are equal, and they are compared
by name. -/
structure Variable (δ : Type) : Type where
  name : String
  kind : VarKind
  domain : δ

/-- Modelled from the spec: a `VariableMap` assigns variables to values;
the entries are keyed by variables. -/
abbrev VariableMap (δ ν : Type) : Type := List (Variable δ × ν)

/-- Modelled from the spec: variable equality is name equality. -/
def varEq {δ : Type} (v w : Variable δ) : Bool := decide (v.name = w.name)

/-- Lookup by variable: the first entry whose key equals the variable
(key equality being variable equality, i.e. name equality). -/
def getVar {δ ν : Type} (m : VariableMap δ ν) (v : Variable δ) : Option ν :=
  (m.find? (fun p => varEq p.1 v)).map (fun p => p.2)

/-- The variable object stored under a name, if any. -/
def variable_of {δ ν : Type} (m : VariableMap δ ν) (s : String) :
    Option (Variable δ) :=
  (m.map (fun p => p.1)).find? (fun w => decide (w.name = s))

/-- Lookup by name string: find the stored variable of that name, then
look it up as a variable. -/
def getName {δ ν : Type} (m : VariableMap δ ν) (s : String) : Option ν :=
  match variable_of m s with
  | none => none
  | some w => getVar m w

end VM

/-- C10: looking an event entry up by the variable's name string returns
the same value as looking it up by the variable object. -/
theorem claim_C10_name_lookup {δ ν : Type} (m : VM.VariableMap δ ν)
    (v : VM.Variable δ) (_hv : ∃ p ∈ m, VM.varEq p.1 v = true) :
    VM.getName m v.name = VM.getVar m v := by
  rw [VM.getName, VM.variable_of, List.find?_map]
  cases hf : List.find? ((fun w => decide (w.name = v.name)) ∘ fun p => p.1) m with
  | none =>
    show none = VM.getVar m v
    rw [VM.getVar]
    have : List.find? (fun p => VM.varEq p.1 v) m = none := by
      rw [List.find?_eq_none]
      intro p hp
      exact (List.find?_eq_none.mp hf) p hp
    rw [this]
    rfl
  | some p =>
    have hname : p.1.name = v.name := by
      have := List.find?_some hf
      simpa using this
    show VM.getVar m p.1 = VM.getVar m v
    rw [VM.getVar, VM.getVar]
    have : (fun q : VM.Variable δ × ν => VM.varEq q.1 p.1)
        = (fun q : VM.Variable δ × ν => VM.varEq q.1 v) := by
      funext q
      rw [VM.varEq, VM.varEq, hname]
    rw [this]

/-- Witness for C10: a two-entry map over rational domains, looked up at
the second entry's variable. -/
theorem claim_C10_name_lookup_witness :
    (∃ p ∈ ([(⟨"a", VM.VarKind.Continuous, (0 : ℚ)⟩, (1 : ℚ)),
             (⟨"b", VM.VarKind.Continuous, (0 : ℚ)⟩, (2 : ℚ))] :
        VM.VariableMap ℚ ℚ),
      VM.varEq p.1 ⟨"b", VM.VarKind.Symbolic, (7 : ℚ)⟩ = true) ∧
    VM.getName ([(⟨"a", VM.VarKind.Continuous, (0 : ℚ)⟩, (1 : ℚ)),
             (⟨"b", VM.VarKind.Continuous, (0 : ℚ)⟩, (2 : ℚ))] :
        VM.VariableMap ℚ ℚ)
      (VM.Variable.name (⟨"b", VM.VarKind.Symbolic, (7 : ℚ)⟩ : VM.Variable ℚ))
      = VM.getVar ([(⟨"a", VM.VarKind.Continuous, (0 : ℚ)⟩, (1 : ℚ)),
             (⟨"b", VM.VarKind.Continuous, (0 : ℚ)⟩, (2 : ℚ))] :
        VM.VariableMap ℚ ℚ) ⟨"b", VM.VarKind.Symbolic, (7 : ℚ)⟩ :=
  ⟨⟨(⟨"b", VM.VarKind.Continuous, (0 : ℚ)⟩, (2 : ℚ)),
      List.mem_cons_of_mem _ (List.mem_cons_self _ _), by decide⟩,
    claim_C10_name_lookup _ _
      ⟨(⟨"b", VM.VarKind.Continuous, (0 : ℚ)⟩, (2 : ℚ)),
        List.mem_cons_of_mem _ (List.mem_cons_self _ _), by decide⟩⟩

namespace Ser

/-- Modelled from the spec: the nested serialization document; the
spec's object shape with a kind and a data part is modelled as a tagged
array. -/
inductive JSON : Type
  | jnull : JSON
  | jbool : Bool → JSON
  | jnum : ℚ → JSON
  | jstr : String → JSON
  | jarr : List JSON → JSON

/-- Decode every element of an array, failing if any element fails. -/
def fromJsonList {α : Type} (f : JSON → Option α) : List JSON → Option (List α)
  | [] => some []
  | j :: rest =>
    match f j, fromJsonList f rest with
    | some a, some l => some (a :: l)
    | _, _ => none

theorem ser_list_round {α : Type} (f : JSON → Option α) (g : α → JSON)
    (h : ∀ a, f (g a) = some a) :
    ∀ l : List α, fromJsonList f (l.map g) = some l := by
  intro l
  induction l with
  | nil => rfl
  | cons a l ih =>
    rw [List.map_cons, fromJsonList, h a, ih]

/-- Serialize an interval endpoint. -/
def toJsonExt (l : Itv.Ext) : JSON :=
  WithBot.recBotCoe (JSON.jstr "neg_infinity")
    (fun w => WithTop.recTopCoe (JSON.jstr "infinity") (fun q => JSON.jnum q) w) l

/-- Deserialize an interval endpoint. -/
def fromJsonExt : JSON → Option Itv.Ext
  | JSON.jstr s =>
    if s = "neg_infinity" then some ⊥
    else if s = "infinity" then some ⊤ else none
  | JSON.jnum q => some (Itv.ratE q)
  | _ => none

theorem ser_ext_round (l : Itv.Ext) : fromJsonExt (toJsonExt l) = some l := by
  induction l using WithBot.recBotCoe with
  | bot => rfl
  | coe w =>
    induction w using WithTop.recTopCoe with
    | top => rfl
    | coe q => rfl

/-- Serialize a bound tag. -/
def toJsonBound : Itv.Bound → JSON
  | Itv.Bound.OPEN => JSON.jbool true
  | Itv.Bound.CLOSED => JSON.jbool false

/-- Deserialize a bound tag. -/
def fromJsonBound : JSON → Option Itv.Bound
  | JSON.jbool true => some Itv.Bound.OPEN
  | JSON.jbool false => some Itv.Bound.CLOSED
  | _ => none

theorem ser_bound_round (b : Itv.Bound) : fromJsonBound (toJsonBound b) = some b := by
  cases b <;> rfl

/-- Modelled from the spec: a `SimpleInterval` serializes as a kind tag
with its two endpoints and two bounds. -/
def toJsonSIRaw (s : Itv.SIRaw) : JSON :=
  JSON.jarr [JSON.jstr "SimpleInterval", toJsonExt s.lower, toJsonExt s.upper,
    toJsonBound s.lower_bound, toJsonBound s.upper_bound]

/-- Deserialize a `SimpleInterval`. -/
def fromJsonSIRaw : JSON → Option Itv.SIRaw
  | JSON.jarr [JSON.jstr k, j1, j2, j3, j4] =>
    if k = "SimpleInterval" then
      match fromJsonExt j1, fromJsonExt j2, fromJsonBound j3, fromJsonBound j4 with
      | some l, some u, some lb, some ub => some ⟨l, u, lb, ub⟩
      | _, _, _, _ => none
    else none
  | _ => none

theorem ser_siraw_round (s : Itv.SIRaw) : fromJsonSIRaw (toJsonSIRaw s) = some s := by
  obtain ⟨l, u, lb, ub⟩ := s
  show fromJsonSIRaw (JSON.jarr [JSON.jstr "SimpleInterval", toJsonExt l,
    toJsonExt u, toJsonBound lb, toJsonBound ub]) = _
  rw [fromJsonSIRaw, if_pos rfl, ser_ext_round, ser_ext_round,
    ser_bound_round, ser_bound_round]

/-- Serialize a canonical atom (its raw data). -/
def toJsonSI (s : Itv.SI) : JSON := toJsonSIRaw s.val

/-- Deserialize a canonical atom, rejecting non-canonical raws. -/
def fromJsonSI (j : JSON) : Option Itv.SI :=
  match fromJsonSIRaw j with
  | none => none
  | some r => if h : Itv.canonicalSI r then some ⟨r, h⟩ else none

theorem ser_si_round (s : Itv.SI) : fromJsonSI (toJsonSI s) = some s := by
  rw [fromJsonSI, toJsonSI, ser_siraw_round]
  show (if h : Itv.canonicalSI s.val then some (⟨s.val, h⟩ : Itv.SI) else none) = some s
  rw [dif_pos s.2]
  rfl

/-- Modelled from the spec: a composite interval serializes as a kind
tag with the array of its simples. -/
def toJsonCInt (l : Itv.CInt) : JSON :=
  JSON.jarr [JSON.jstr "Interval", JSON.jarr (l.map toJsonSI)]

/-- Deserialize a composite interval. -/
def fromJsonCInt : JSON → Option Itv.CInt
  | JSON.jarr [JSON.jstr k, JSON.jarr js] =>
    if k = "Interval" then fromJsonList fromJsonSI js else none
  | _ => none

theorem ser_cint_round (l : Itv.CInt) : fromJsonCInt (toJsonCInt l) = some l := by
  show fromJsonCInt (JSON.jarr [JSON.jstr "Interval", JSON.jarr (l.map toJsonSI)]) = _
  rw [fromJsonCInt, if_pos rfl, ser_list_round fromJsonSI toJsonSI ser_si_round]

/-- Modelled from the spec: a symbolic composite carries its ordered
universe of symbols and the sorted indices of its elements. -/
structure SetVal : Type where
  univ : List String
  elems : List Nat

/-- Serialize a natural number. -/
def toJsonNat (n : Nat) : JSON := JSON.jnum (n : ℚ)

/-- Deserialize a natural number. -/
def fromJsonNat : JSON → Option Nat
  | JSON.jnum q => if q.den = 1 ∧ 0 ≤ q.num then some q.num.toNat else none
  | _ => none

theorem ser_nat_round (n : Nat) : fromJsonNat (toJsonNat n) = some n := by
  rw [toJsonNat, fromJsonNat]
  rw [if_pos ⟨Rat.den_natCast n, by exact_mod_cast Int.ofNat_nonneg n⟩]
  rw [Rat.num_natCast, Int.toNat_natCast]

/-- Serialize a string. -/
def toJsonStr (s : String) : JSON := JSON.jstr s

/-- Deserialize a string. -/
def fromJsonStr : JSON → Option String
  | JSON.jstr s => some s
  | _ => none

theorem ser_str_round (s : String) : fromJsonStr (toJsonStr s) = some s := rfl

/-- Serialize a symbolic composite. -/
def toJsonSetVal (s : SetVal) : JSON :=
  JSON.jarr [JSON.jstr "Set", JSON.jarr (s.univ.map toJsonStr),
    JSON.jarr (s.elems.map toJsonNat)]

/-- Deserialize a symbolic composite. -/
def fromJsonSetVal : JSON → Option SetVal
  | JSON.jarr [JSON.jstr k, JSON.jarr ju, JSON.jarr je] =>
    if k = "Set" then
      match fromJsonList fromJsonStr ju, fromJsonList fromJsonNat je with
      | some u, some e => some ⟨u, e⟩
      | _, _ => none
    else none
  | _ => none

theorem ser_setval_round (s : SetVal) : fromJsonSetVal (toJsonSetVal s) = some s := by
  obtain ⟨u, e⟩ := s
  show fromJsonSetVal (JSON.jarr [JSON.jstr "Set", JSON.jarr (u.map toJsonStr),
    JSON.jarr (e.map toJsonNat)]) = _
  rw [fromJsonSetVal, if_pos rfl, ser_list_round fromJsonStr toJsonStr ser_str_round,
    ser_list_round fromJsonNat toJsonNat ser_nat_round]

/-- A variable's domain: an interval composite or a symbolic composite. -/
def Domain : Type := Sum Itv.CInt SetVal

/-- Serialize a domain. -/
def toJsonDomain : Domain → JSON
  | Sum.inl c => JSON.jarr [JSON.jstr "continuous", toJsonCInt c]
  | Sum.inr s => JSON.jarr [JSON.jstr "symbolic", toJsonSetVal s]

/-- Deserialize a domain. -/
def fromJsonDomain : JSON → Option Domain
  | JSON.jarr [JSON.jstr k, j] =>
    if k = "continuous" then
      match fromJsonCInt j with
      | some c => some (Sum.inl c)
      | none => none
    else if k = "symbolic" then
      match fromJsonSetVal j with
      | some s => some (Sum.inr s)
      | none => none
    else none
  | _ => none

theorem ser_domain_round (d : Domain) : fromJsonDomain (toJsonDomain d) = some d := by
  cases d with
  | inl c =>
    show fromJsonDomain (JSON.jarr [JSON.jstr "continuous", toJsonCInt c]) = _
    rw [fromJsonDomain, if_pos rfl, ser_cint_round]
  | inr s =>
    show fromJsonDomain (JSON.jarr [JSON.jstr "symbolic", toJsonSetVal s]) = _
    rw [fromJsonDomain, if_neg (by decide), if_pos rfl, ser_setval_round]

/-- Serialize a variable kind. -/
def toJsonKind : VM.VarKind → JSON
  | VM.VarKind.Symbolic => JSON.jstr "Symbolic"
  | VM.VarKind.Integer => JSON.jstr "Integer"
  | VM.VarKind.Continuous => JSON.jstr "Continuous"

/-- Deserialize a variable kind. -/
def fromJsonKind : JSON → Option VM.VarKind
  | JSON.jstr s =>
    if s = "Symbolic" then some VM.VarKind.Symbolic
    else if s = "Integer" then some VM.VarKind.Integer
    else if s = "Continuous" then some VM.VarKind.Continuous
    else none
  | _ => none

theorem ser_kind_round (k : VM.VarKind) : fromJsonKind (toJsonKind k) = some k := by
  cases k <;> rfl

/-- Modelled from the spec: variables serialize as name, kind and
domain, the domain recursively. -/
def toJsonVariable (v : VM.Variable Domain) : JSON :=
  JSON.jarr [JSON.jstr "Variable", JSON.jstr v.name, toJsonKind v.kind,
    toJsonDomain v.domain]

/-- Deserialize a variable. -/
def fromJsonVariable : JSON → Option (VM.Variable Domain)
  | JSON.jarr [JSON.jstr k, JSON.jstr n, jk, jd] =>
    if k = "Variable" then
      match fromJsonKind jk, fromJsonDomain jd with
      | some kk, some dd => some ⟨n, kk, dd⟩
      | _, _ => none
    else none
  | _ => none

theorem ser_variable_round (v : VM.Variable Domain) :
    fromJsonVariable (toJsonVariable v) = some v := by
  obtain ⟨n, k, d⟩ := v
  show fromJsonVariable (JSON.jarr [JSON.jstr "Variable", JSON.jstr n,
    toJsonKind k, toJsonDomain d]) = _
  rw [fromJsonVariable, if_pos rfl, ser_kind_round, ser_domain_round]

/-- Modelled from the spec: a `SimpleEvent` is a mapping from variables
to composites and serializes as the tagged array of its entries. -/
def SimpleEventV : Type := List (VM.Variable Domain × Domain)

/-- Serialize one event entry. -/
def toJsonEntry (p : VM.Variable Domain × Domain) : JSON :=
  JSON.jarr [toJsonVariable p.1, toJsonDomain p.2]

/-- Deserialize one event entry. -/
def fromJsonEntry : JSON → Option (VM.Variable Domain × Domain)
  | JSON.jarr [jv, jd] =>
    match fromJsonVariable jv, fromJsonDomain jd with
    | some v, some d => some (v, d)
    | _, _ => none
  | _ => none

theorem ser_entry_round (p : VM.Variable Domain × Domain) :
    fromJsonEntry (toJsonEntry p) = some p := by
  obtain ⟨v, d⟩ := p
  show fromJsonEntry (JSON.jarr [toJsonVariable v, toJsonDomain d]) = _
  rw [fromJsonEntry, ser_variable_round, ser_domain_round]

/-- Serialize a simple event. -/
def toJsonSimpleEvent (e : SimpleEventV) : JSON :=
  JSON.jarr [JSON.jstr "SimpleEvent", JSON.jarr (e.map toJsonEntry)]

/-- Deserialize a simple event. -/
def fromJsonSimpleEvent : JSON → Option SimpleEventV
  | JSON.jarr [JSON.jstr k, JSON.jarr js] =>
    if k = "SimpleEvent" then fromJsonList fromJsonEntry js else none
  | _ => none

theorem ser_simpleevent_round (e : SimpleEventV) :
    fromJsonSimpleEvent (toJsonSimpleEvent e) = some e := by
  show fromJsonSimpleEvent (JSON.jarr [JSON.jstr "SimpleEvent",
    JSON.jarr (e.map toJsonEntry)]) = _
  rw [fromJsonSimpleEvent, if_pos rfl,
    ser_list_round fromJsonEntry toJsonEntry ser_entry_round]

/-- Serialize an event (a union of simple events). -/
def toJsonEvent (e : List SimpleEventV) : JSON :=
  JSON.jarr [JSON.jstr "Event", JSON.jarr (e.map toJsonSimpleEvent)]

/-- Deserialize an event. -/
def fromJsonEvent : JSON → Option (List SimpleEventV)
  | JSON.jarr [JSON.jstr k, JSON.jarr js] =>
    if k = "Event" then fromJsonList fromJsonSimpleEvent js else none
  | _ => none

theorem ser_event_round (e : List SimpleEventV) :
    fromJsonEvent (toJsonEvent e) = some e := by
  show fromJsonEvent (JSON.jarr [JSON.jstr "Event",
    JSON.jarr (e.map toJsonSimpleEvent)]) = _
  rw [fromJsonEvent, if_pos rfl,
    ser_list_round fromJsonSimpleEvent toJsonSimpleEvent ser_simpleevent_round]

end Ser

/-- C9: serialization round-trips: for every simple set, composite set
(interval or symbolic), variable, simple event and event value `v`,
`from_json (v.to_json()) = v`. -/
theorem claim_C9_roundtrip :
    (∀ s : Itv.SI, Ser.fromJsonSI (Ser.toJsonSI s) = some s) ∧
    (∀ l : Itv.CInt, Ser.fromJsonCInt (Ser.toJsonCInt l) = some l) ∧
    (∀ s : Ser.SetVal, Ser.fromJsonSetVal (Ser.toJsonSetVal s) = some s) ∧
    (∀ v : VM.Variable Ser.Domain,
      Ser.fromJsonVariable (Ser.toJsonVariable v) = some v) ∧
    (∀ e : Ser.SimpleEventV,
      Ser.fromJsonSimpleEvent (Ser.toJsonSimpleEvent e) = some e) ∧
    (∀ e : List Ser.SimpleEventV,
      Ser.fromJsonEvent (Ser.toJsonEvent e) = some e) :=
  ⟨Ser.ser_si_round, Ser.ser_cint_round, Ser.ser_setval_round,
   Ser.ser_variable_round, Ser.ser_simpleevent_round, Ser.ser_event_round⟩

namespace Itv

theorem itv_lowerTest_false_of_lt {l : Ext} {x : ℚ} (h : ratE x < l) (b : Bound) :
    lowerTest l b x = false := by
  cases b <;> simp [lowerTest]
  · exact le_of_lt h
  · exact h

theorem itv_upperTest_false_of_lt {u : Ext} {x : ℚ} (h : u < ratE x) (b : Bound) :
    upperTest u b x = false := by
  cases b <;> simp [upperTest]
  · exact le_of_lt h
  · exact h

theorem itv_dis_of_inf_bot {a b : SI} (h : a ⊓ b = ⊥) : SA.Dis memB a b := by
  intro x ⟨hxa, hxb⟩
  have hm : memB x (a ⊓ b) = true := by
    rw [itv_inf_def, itv_mem_infSI, hxa, hxb]
    rfl
  rw [h, itv_bot_def, itv_mem_botSI] at hm
  exact Bool.noConfusion hm

/-- Every atom of a canonicalized composite is nonempty. -/
theorem itv_canonicalizeCI_ne_bot (l : CInt) :
    ∀ s ∈ canonicalizeCI l, s ≠ botSI := by
  have hnd : ((l.filter (fun s => decide (s ≠ botSI))).dedup).Nodup :=
    List.nodup_dedup _
  have hne : ∀ s ∈ (l.filter (fun s => decide (s ≠ botSI))).dedup, s ≠ (⊥ : SI) := by
    intro s hs
    rw [List.mem_dedup, List.mem_filter] at hs
    simpa using hs.2
  obtain ⟨hmd_dis, -⟩ :=
    SA.sa_makeDisjoint_spec itv_lawMemInf itv_lawMemBot itv_lawMemCompl
      itv_lawComplDis hnd hne
  have hmd_ne : ∀ p ∈ SA.makeDisjoint complSI
      ((l.filter (fun s => decide (s ≠ botSI))).dedup), p ≠ botSI :=
    fun p hp => SA.sa_makeDisjoint_ne_bot hne p hp
  have hperm := itv_sortCanon_perm
    (SA.makeDisjoint complSI ((l.filter (fun s => decide (s ≠ botSI))).dedup))
  have hsrt_dis := (List.Perm.pairwise_iff (fun h => itv_dis_symm h) hperm).mpr hmd_dis
  have hsrt_ne : ∀ p ∈ sortCanon (SA.makeDisjoint complSI
      ((l.filter (fun s => decide (s ≠ botSI))).dedup)), p ≠ botSI :=
    fun p hp => hmd_ne p (hperm.mem_iff.mp hp)
  have hsrt_sorted : isSortedCI (sortCanon (SA.makeDisjoint complSI
      ((l.filter (fun s => decide (s ≠ botSI))).dedup))) :=
    (itv_sortCanon_sorted _).imp itv_leSI_lowKey
  obtain ⟨-, hs_ne, -, -, -, -, -⟩ :=
    itv_simplifyCI_spec _ hsrt_ne hsrt_dis hsrt_sorted
  exact hs_ne

end Itv

namespace SymC

/-- Modelled from the spec: a symbolic composite is a sequence of indices
from a fixed universe of size `n`; every operation reduces it to the
canonical sorted duplicate-free form. -/
def canonicalizeS (n : Nat) (l : List (Fin n)) : List (Fin n) :=
  List.insertionSort (fun a b => a ≤ b) l.dedup

/-- Modelled from the spec: construction from any iterable of simples
reduces to canonical form. -/
def mkSetS (n : Nat) (l : List (Fin n)) : List (Fin n) := canonicalizeS n l

/-- Modelled from the spec: symbolic `union_with` concatenates and
reduces to the canonical sorted-set form. -/
def unionS (n : Nat) (a b : List (Fin n)) : List (Fin n) := canonicalizeS n (a ++ b)

/-- Modelled from the spec: symbolic `intersection_with` keeps the
indices present in both operands (atom intersection is identity on equal
indices and empty otherwise). -/
def interS (n : Nat) (a b : List (Fin n)) : List (Fin n) :=
  canonicalizeS n (a.filter (fun x => decide (x ∈ b)))

/-- Modelled from the spec: symbolic `difference_with` drops the indices
present in the other operand. -/
def diffS (n : Nat) (a b : List (Fin n)) : List (Fin n) :=
  canonicalizeS n (a.filter (fun x => !decide (x ∈ b)))

/-- Modelled from the spec: symbolic `complement()` returns all other
indices of the universe. -/
def complS (n : Nat) (a : List (Fin n)) : List (Fin n) :=
  canonicalizeS n ((List.finRange n).filter (fun x => !decide (x ∈ a)))

/-- `is_disjoint()` for symbolic composites: two single-index atoms
intersect emptily iff the indices differ. -/
def isDisjointS (n : Nat) (l : List (Fin n)) : Prop := l.Pairwise (fun a b => a ≠ b)

/-- The stored atoms are sorted by the symbolic atom ordering. -/
def isSortedS (n : Nat) (l : List (Fin n)) : Prop := l.Pairwise (fun a b => a ≤ b)

/-- No two consecutive single-index atoms can merge into one atom: a
merge of two singletons is a singleton only when the indices coincide. -/
def isSimplifiedS (n : Nat) (l : List (Fin n)) : Prop := l.Chain' (fun a b => a ≠ b)

/-- The canonical form of a symbolic composite. -/
def CanonicalFormS (n : Nat) (l : List (Fin n)) : Prop :=
  isDisjointS n l ∧ isSortedS n l ∧ isSimplifiedS n l

theorem symc_canonicalizeS_strict (n : Nat) (l : List (Fin n)) :
    (canonicalizeS n l).Pairwise (fun a b => a < b) := by
  have hs : (canonicalizeS n l).Pairwise (fun a b => a ≤ b) :=
    List.sorted_insertionSort _ _
  have hnd : (canonicalizeS n l).Nodup :=
    (List.perm_insertionSort (fun a b => a ≤ b) l.dedup).nodup_iff.mpr
      (List.nodup_dedup l)
  exact List.Sorted.lt_of_le hs hnd

theorem symc_canonical_of_strict {n : Nat} {l : List (Fin n)}
    (h : l.Pairwise (fun a b => a < b)) : CanonicalFormS n l :=
  ⟨h.imp (fun hab => ne_of_lt hab), h.imp (fun hab => le_of_lt hab),
    (List.Pairwise.chain' h).imp (fun _ _ hab => ne_of_lt hab)⟩

theorem symc_canonicalizeS_canonical (n : Nat) (l : List (Fin n)) :
    CanonicalFormS n (canonicalizeS n l) :=
  symc_canonical_of_strict (symc_canonicalizeS_strict n l)

theorem symc_mem_canonicalizeS (n : Nat) (l : List (Fin n)) (x : Fin n) :
    x ∈ canonicalizeS n l ↔ x ∈ l := by
  rw [canonicalizeS,
    (List.perm_insertionSort (fun a b => a ≤ b) l.dedup).mem_iff, List.mem_dedup]

theorem symc_mem_unionS (n : Nat) (a b : List (Fin n)) (x : Fin n) :
    x ∈ unionS n a b ↔ x ∈ a ∨ x ∈ b := by
  rw [unionS, symc_mem_canonicalizeS, List.mem_append]

theorem symc_mem_interS (n : Nat) (a b : List (Fin n)) (x : Fin n) :
    x ∈ interS n a b ↔ x ∈ a ∧ x ∈ b := by
  rw [interS, symc_mem_canonicalizeS, List.mem_filter]
  simp

theorem symc_mem_diffS (n : Nat) (a b : List (Fin n)) (x : Fin n) :
    x ∈ diffS n a b ↔ x ∈ a ∧ x ∉ b := by
  rw [diffS, symc_mem_canonicalizeS, List.mem_filter]
  simp

theorem symc_mem_complS (n : Nat) (a : List (Fin n)) (x : Fin n) :
    x ∈ complS n a ↔ x ∉ a := by
  rw [complS, symc_mem_canonicalizeS, List.mem_filter]
  simp [List.mem_finRange]

end SymC

namespace Itv

theorem itv_lowKey_le_iff {a b : SI} : lowKey a ≤ lowKey b ↔
    (a.val.lower < b.val.lower ∨ (a.val.lower = b.val.lower ∧
      boundRank a.val.lower_bound ≤ boundRank b.val.lower_bound)) := by
  rw [lowKey, lowKey, Prod.Lex.le_iff]

theorem itv_lowKey_lt_iff {a b : SI} : lowKey a < lowKey b ↔
    (a.val.lower < b.val.lower ∨ (a.val.lower = b.val.lower ∧
      boundRank a.val.lower_bound < boundRank b.val.lower_bound)) := by
  rw [lowKey, lowKey, Prod.Lex.lt_iff]

theorem itv_boundRank_inj {b c : Bound} (h : boundRank b = boundRank c) : b = c := by
  cases b <;> cases c <;> first | rfl | exact Bool.noConfusion h

/-- A weaker lower constraint (in the atom ordering) is implied by a
stronger one. -/
theorem itv_lowerTest_of_lowKey_le {a b : SI} (h : lowKey a ≤ lowKey b) {x : ℚ}
    (hx : lowerTest b.val.lower b.val.lower_bound x = true) :
    lowerTest a.val.lower a.val.lower_bound x = true := by
  rcases itv_lowKey_le_iff.mp h with h | ⟨h1, h2⟩
  · exact itv_lowerTest_of_lt (lt_of_lt_of_le h (itv_lowerTest_le hx)) _
  · cases ca : a.val.lower_bound
    · cases cb : b.val.lower_bound
      · rw [cb] at hx
        rw [h1]
        exact hx
      · rw [ca, cb] at h2
        exact absurd h2 (by decide)
    · have hle : b.val.lower ≤ ratE x := itv_lowerTest_le hx
      rw [h1]
      exact decide_eq_true hle

/-- Every point of a sorted composite satisfies the head's lower
constraint. -/
theorem itv_head_lowerTest {a : SI} {r : CInt} (hsort : isSortedCI (a :: r))
    {x : ℚ} (hx : memCI x (a :: r) = true) :
    lowerTest a.val.lower a.val.lower_bound x = true := by
  obtain ⟨c, hc, hxc⟩ := (SA.sa_memL_iff memB x _).mp hx
  have hxc' : (lowerTest c.val.lower c.val.lower_bound x &&
      upperTest c.val.upper c.val.upper_bound x) = true := hxc
  rcases List.mem_cons.mp hc with rfl | hcr
  · exact (Bool.and_eq_true_iff.mp hxc').1
  · have hk : lowKey a ≤ lowKey c := (List.pairwise_cons.mp hsort).1 c hcr
    exact itv_lowerTest_of_lowKey_le hk (Bool.and_eq_true_iff.mp hxc').1

/-- A point failing the head's lower constraint is outside the whole
sorted composite. -/
theorem itv_memCI_false_of_head_lowerTest_false {a : SI} {r : CInt}
    (hsort : isSortedCI (a :: r)) {x : ℚ}
    (hx : lowerTest a.val.lower a.val.lower_bound x = false) :
    memCI x (a :: r) = false := by
  cases hcx : memCI x (a :: r)
  · rfl
  · rw [itv_head_lowerTest hsort hcx] at hx
    exact Bool.noConfusion hx

/-- The heads of two canonical composites with equal point sets have the
same lower data. -/
theorem itv_heads_low_eq {a b : SI} {r₁ r₂ : CInt}
    (hva : validSI a.val) (hvb : validSI b.val)
    (hs₁ : isSortedCI (a :: r₁)) (hs₂ : isSortedCI (b :: r₂))
    (hm : ∀ x, memCI x (a :: r₁) = memCI x (b :: r₂)) :
    a.val.lower = b.val.lower ∧ a.val.lower_bound = b.val.lower_bound := by
  rcases lt_trichotomy (lowKey a) (lowKey b) with h | h | h
  · exfalso
    have hstr : a.val.lower < b.val.lower ∨
        (a.val.lower = b.val.lower ∧ a.val.lower_bound = Bound.CLOSED ∧
          b.val.lower_bound = Bound.OPEN) := by
      rcases itv_lowKey_lt_iff.mp h with h' | ⟨h1, h2⟩
      · exact Or.inl h'
      · refine Or.inr ⟨h1, ?_, ?_⟩
        · cases ca : a.val.lower_bound
          · rw [ca] at h2
            cases cb : b.val.lower_bound <;> rw [cb] at h2 <;>
              exact absurd h2 (by decide)
          · rfl
        · cases cb : b.val.lower_bound
          · rfl
          · rw [cb] at h2
            cases ca : a.val.lower_bound <;> rw [ca] at h2 <;>
              exact absurd h2 (by decide)
    obtain ⟨x, hx1, hx2⟩ := itv_lower_witness hva hstr
    have hm1 : memCI x (a :: r₁) = true :=
      itv_memCI_of_mem (List.mem_cons_self a r₁) hx1
    rw [hm x] at hm1
    rw [itv_head_lowerTest hs₂ hm1] at hx2
    exact Bool.noConfusion hx2
  · have h1 : a.val.lower = b.val.lower :=
      congrArg (fun k => (ofLex k).1) h
    have h2 : boundRank a.val.lower_bound = boundRank b.val.lower_bound :=
      congrArg (fun k => (ofLex k).2) h
    exact ⟨h1, itv_boundRank_inj h2⟩
  · exfalso
    have hstr : b.val.lower < a.val.lower ∨
        (b.val.lower = a.val.lower ∧ b.val.lower_bound = Bound.CLOSED ∧
          a.val.lower_bound = Bound.OPEN) := by
      rcases itv_lowKey_lt_iff.mp h with h' | ⟨h1, h2⟩
      · exact Or.inl h'
      · refine Or.inr ⟨h1, ?_, ?_⟩
        · cases cb : b.val.lower_bound
          · rw [cb] at h2
            cases ca : a.val.lower_bound <;> rw [ca] at h2 <;>
              exact absurd h2 (by decide)
          · rfl
        · cases ca : a.val.lower_bound
          · rfl
          · rw [ca] at h2
            cases cb : b.val.lower_bound <;> rw [cb] at h2 <;>
              exact absurd h2 (by decide)
    obtain ⟨x, hx1, hx2⟩ := itv_lower_witness hvb hstr
    have hm1 : memCI x (b :: r₂) = true :=
      itv_memCI_of_mem (List.mem_cons_self b r₂) hx1
    rw [← hm x] at hm1
    rw [itv_head_lowerTest hs₁ hm1] at hx2
    exact Bool.noConfusion hx2

/-- Between two consecutive atoms of a canonical composite there is a
genuine gap: the left one ends strictly below the right one's lower, or
they share an endpoint excluded on both sides. -/
theorem itv_next_gap {a a' : SI} (hva : validSI a.val) (hva' : validSI a'.val)
    (hd : SA.Dis memB a a') (hk : lowKey a ≤ lowKey a')
    (hnm : mergeableSI a a' = false) :
    a.val.upper < a'.val.lower ∨
      (a.val.upper = a'.val.lower ∧ a.val.upper_bound = Bound.OPEN ∧
        a'.val.lower_bound = Bound.OPEN) := by
  have hlow_le : a.val.lower ≤ a'.val.lower := by
    rcases itv_lowKey_le_iff.mp hk with h | ⟨h1, -⟩
    · exact le_of_lt h
    · exact le_of_eq h1
  have hnlt : ¬(a'.val.lower < a.val.upper) := by
    intro hlt
    rcases (itv_isEmpty_false_iff a'.val).mp hva'.1 with hlu' | ⟨heq', hcl', hcu'⟩
    · obtain ⟨q, hq1, hq2⟩ := itv_ratBetween (lt_min hlt hlu')
      have hqa' : memSI q a'.val = true := by
        rw [memSI, itv_lowerTest_of_lt hq1,
          itv_upperTest_of_lt (lt_of_lt_of_le hq2 (min_le_right _ _)) _]
        rfl
      have hqa : memSI q a.val = true := by
        rw [memSI,
          itv_lowerTest_of_lt (lt_of_le_of_lt hlow_le hq1) _,
          itv_upperTest_of_lt (lt_of_lt_of_le hq2 (min_le_left _ _)) _]
        rfl
      exact hd q ⟨hqa, hqa'⟩
    · obtain ⟨q, hq⟩ := itv_valid_closed_lower_ratE hva' hcl'
      have hqa' : memSI q a'.val = true := itv_mem_lower_point hva' hq hcl'
      have hqa : memSI q a.val = true := by
        rw [memSI, itv_upperTest_of_lt (hq ▸ hlt) _]
        have hlt2 : lowerTest a.val.lower a.val.lower_bound q = true := by
          rcases lt_or_eq_of_le hlow_le with hl | hl
          · exact itv_lowerTest_of_lt (lt_of_lt_of_eq hl hq) _
          · rcases itv_lowKey_le_iff.mp hk with h' | ⟨-, h2⟩
            · exact itv_lowerTest_of_lt (lt_of_lt_of_eq h' hq) _
            · rw [hcl'] at h2
              cases ca : a.val.lower_bound
              · rw [ca] at h2
                exact absurd h2 (by decide)
              · rw [lowerTest, hl, hq]
                exact decide_eq_true (le_refl _)
        rw [hlt2]
        rfl
      exact hd q ⟨hqa, hqa'⟩
  rcases lt_or_eq_of_le (not_lt.mp hnlt) with h | h
  · exact Or.inl h
  · refine Or.inr ⟨h, ?_⟩
    have hnotcc : ¬(a.val.upper_bound = Bound.CLOSED ∧
        a'.val.lower_bound = Bound.CLOSED) := by
      rintro ⟨hc1, hc2⟩
      obtain ⟨q, hq⟩ := itv_valid_closed_upper_ratE hva hc1
      have hqa : memSI q a.val = true := itv_mem_upper_point hva hq hc1
      have hqa' : memSI q a'.val = true :=
        itv_mem_lower_point hva' (h ▸ hq) hc2
      exact hd q ⟨hqa, hqa'⟩
    have hmz := hnm
    rw [mergeableSI] at hmz
    rw [Bool.and_eq_false_iff] at hmz
    rcases hmz with hz | hz
    · rw [decide_eq_false_iff_not] at hz
      exact absurd h hz
    · rw [Bool.not_eq_false', Bool.and_eq_true_iff,
        decide_eq_true_eq, decide_eq_true_eq] at hz
      exact hz

/-- A canonical composite whose head ends strictly before `b` does (with
the bound tiebreak) cannot cover all of `b`: there is a point of `b`
past the head and before the gap to the next atom. -/
theorem itv_no_overhang {a b : SI} {r₁ : CInt}
    (hva : validSI a.val) (hvb : validSI b.val)
    (hne₁ : ∀ s ∈ (a :: r₁), s ≠ botSI)
    (hd₁ : (a :: r₁).Pairwise (SA.Dis memB))
    (hs₁ : isSortedCI (a :: r₁)) (hsimp₁ : isSimplifiedCI (a :: r₁))
    (hlow : a.val.lower = b.val.lower)
    (hsub : ∀ x, memSI x b.val = true → memCI x (a :: r₁) = true) :
    ¬(a.val.upper < b.val.upper ∨
      (a.val.upper = b.val.upper ∧ a.val.upper_bound = Bound.OPEN ∧
        b.val.upper_bound = Bound.CLOSED)) := by
  intro hend
  cases r₁ with
  | nil =>
    have hstr : a.val.upper < b.val.upper ∨
        (b.val.upper = a.val.upper ∧ b.val.upper_bound = Bound.CLOSED ∧
          a.val.upper_bound = Bound.OPEN) := by
      rcases hend with h | ⟨h1, h2, h3⟩
      · exact Or.inl h
      · exact Or.inr ⟨h1.symm, h3, h2⟩
    obtain ⟨x, hxb, hxa⟩ := itv_upper_witness hvb hstr
    have h1 : memCI x [a] = true := hsub x hxb
    have h2 : memSI x a.val = false := itv_memSI_false_of_upperTest_false hxa
    rw [show memCI x [a] = (memSI x a.val || false) from rfl, h2] at h1
    exact Bool.noConfusion h1
  | cons a' r₁' =>
    have hva' : validSI a'.val :=
      itv_valid_of_ne_bot
        (hne₁ a' (List.mem_cons_of_mem a (List.mem_cons_self a' r₁')))
    have hdis_aa' : SA.Dis memB a a' :=
      (List.pairwise_cons.mp hd₁).1 a' (List.mem_cons_self a' r₁')
    have hk : lowKey a ≤ lowKey a' :=
      (List.pairwise_cons.mp hs₁).1 a' (List.mem_cons_self a' r₁')
    have hnm : mergeableSI a a' = false := by
      have hch : List.Chain' (fun s t => mergeableSI s t = false) (a :: a' :: r₁') :=
        hsimp₁
      exact (List.chain'_cons.mp hch).1
    have hsort_tail : isSortedCI (a' :: r₁') := List.Pairwise.of_cons hs₁
    rcases itv_next_gap hva hva' hdis_aa' hk hnm with hgap | ⟨hge, hgo1, hgo2⟩
    · rcases hend with hE | ⟨hE1, hE2, hE3⟩
      · obtain ⟨q, hq1, hq2⟩ := itv_ratBetween (lt_min hgap hE)
        have hqb : memSI q b.val = true := by
          rw [memSI,
            itv_lowerTest_of_lt (lt_of_le_of_lt (hlow ▸ itv_valid_le hva) hq1) _,
            itv_upperTest_of_lt (lt_of_lt_of_le hq2 (min_le_right _ _)) _]
          rfl
        have hqa : memSI q a.val = false :=
          itv_memSI_false_of_upperTest_false (itv_upperTest_false_of_lt hq1 _)
        have hqtail : memCI q (a' :: r₁') = false :=
          itv_memCI_false_of_head_lowerTest_false hsort_tail
            (itv_lowerTest_false_of_lt (lt_of_lt_of_le hq2 (min_le_left _ _)) _)
        have h1 : memCI q (a :: a' :: r₁') = true := hsub q hqb
        rw [show memCI q (a :: a' :: r₁')
            = (memSI q a.val || memCI q (a' :: r₁')) from rfl, hqa, hqtail] at h1
        exact Bool.noConfusion h1
      · obtain ⟨q, hq⟩ := itv_valid_closed_upper_ratE hvb hE3
        have hqb : memSI q b.val = true := itv_mem_upper_point hvb hq hE3
        have haq : a.val.upper = ratE q := hE1.trans hq
        have hqa : memSI q a.val = false := by
          apply itv_memSI_false_of_upperTest_false
          rw [hE2, haq]
          simp [upperTest]
        have hqtail : memCI q (a' :: r₁') = false := by
          apply itv_memCI_false_of_head_lowerTest_false hsort_tail
          exact itv_lowerTest_false_of_lt (haq ▸ hgap) _
        have h1 : memCI q (a :: a' :: r₁') = true := hsub q hqb
        rw [show memCI q (a :: a' :: r₁')
            = (memSI q a.val || memCI q (a' :: r₁')) from rfl, hqa, hqtail] at h1
        exact Bool.noConfusion h1
    · have hendnb : a.val.upper ≠ ⊥ := itv_valid_upper_ne_bot hva
      have hendnt : a.val.upper ≠ ⊤ := by
        rw [hge]
        exact itv_valid_lower_ne_top hva'
      rcases itv_ext_cases a.val.upper with h | h | ⟨q, hqe⟩
      · exact absurd h hendnb
      · exact absurd h hendnt
      · have hqa : memSI q a.val = false := by
          apply itv_memSI_false_of_upperTest_false
          rw [hgo1, hqe]
          simp [upperTest]
        have hqtail : memCI q (a' :: r₁') = false := by
          apply itv_memCI_false_of_head_lowerTest_false hsort_tail
          rw [hgo2, ← hge, hqe]
          simp [lowerTest]
        have hqb : memSI q b.val = true := by
          rw [memSI]
          have hblt : b.val.lower < ratE q := by
            rw [← hlow, ← hqe]
            exact itv_valid_lower_lt_upper_of_ub_open hva hgo1
          have hl : lowerTest b.val.lower b.val.lower_bound q = true :=
            itv_lowerTest_of_lt hblt _
          have hu : upperTest b.val.upper b.val.upper_bound q = true := by
            rcases hend with hE | ⟨hE1, hE2, hE3⟩
            · exact itv_upperTest_of_lt (hqe ▸ hE) _
            · rw [hE3, ← hE1, hqe]
              exact decide_eq_true (le_refl _)
          rw [hl, hu]
          rfl
        have h1 : memCI q (a :: a' :: r₁') = true := hsub q hqb
        rw [show memCI q (a :: a' :: r₁')
            = (memSI q a.val || memCI q (a' :: r₁')) from rfl, hqa, hqtail] at h1
        exact Bool.noConfusion h1

/-- The heads of two canonical composites with equal point sets are
equal. -/
theorem itv_heads_eq {a b : SI} {r₁ r₂ : CInt}
    (hva : validSI a.val) (hvb : validSI b.val)
    (hne₁ : ∀ s ∈ (a :: r₁), s ≠ botSI)
    (hd₁ : (a :: r₁).Pairwise (SA.Dis memB))
    (hs₁ : isSortedCI (a :: r₁)) (hsimp₁ : isSimplifiedCI (a :: r₁))
    (hne₂ : ∀ s ∈ (b :: r₂), s ≠ botSI)
    (hd₂ : (b :: r₂).Pairwise (SA.Dis memB))
    (hs₂ : isSortedCI (b :: r₂)) (hsimp₂ : isSimplifiedCI (b :: r₂))
    (hm : ∀ x, memCI x (a :: r₁) = memCI x (b :: r₂)) : a = b := by
  obtain ⟨hlow, hlb⟩ := itv_heads_low_eq hva hvb hs₁ hs₂ hm
  have hsub₁ : ∀ x, memSI x b.val = true → memCI x (a :: r₁) = true := by
    intro x hx
    rw [hm x]
    exact itv_memCI_of_mem (List.mem_cons_self b r₂) hx
  have hsub₂ : ∀ x, memSI x a.val = true → memCI x (b :: r₂) = true := by
    intro x hx
    rw [← hm x]
    exact itv_memCI_of_mem (List.mem_cons_self a r₁) hx
  have hno₁ := itv_no_overhang hva hvb hne₁ hd₁ hs₁ hsimp₁ hlow hsub₁
  have hno₂ := itv_no_overhang hvb hva hne₂ hd₂ hs₂ hsimp₂ hlow.symm hsub₂
  have hup : a.val.upper = b.val.upper := by
    rcases lt_trichotomy a.val.upper b.val.upper with h | h | h
    · exact absurd (Or.inl h) hno₁
    · exact h
    · exact absurd (Or.inl h) hno₂
  have hub : a.val.upper_bound = b.val.upper_bound := by
    cases ca : a.val.upper_bound <;> cases cb : b.val.upper_bound
    · rfl
    · exact absurd (Or.inr ⟨hup, ca, cb⟩) hno₁
    · exact absurd (Or.inr ⟨hup.symm, cb, ca⟩) hno₂
    · rfl
  exact Subtype.ext (SIRaw.ext hlow hup hlb hub)

/-- Peeling the head of a disjoint composite: the tail covers exactly the
points of the composite outside the head. -/
theorem itv_mem_tail {a : SI} {r : CInt} (hd : (a :: r).Pairwise (SA.Dis memB))
    (x : ℚ) : memCI x r = (memCI x (a :: r) && !(memB x a)) := by
  have hs : memCI x (a :: r) = (memB x a || memCI x r) := rfl
  cases hxa : memB x a
  · rw [hs, hxa, Bool.false_or, Bool.not_false, Bool.and_true]
  · rw [hs, hxa]
    cases hr : memCI x r
    · rfl
    · obtain ⟨c, hc, hxc⟩ := (SA.sa_memL_iff memB x r).mp hr
      exact absurd ⟨hxa, hxc⟩ ((List.pairwise_cons.mp hd).1 c hc x)

theorem itv_canonical_tail {a : SI} {r : CInt} (h : CanonicalForm (a :: r)) :
    CanonicalForm r :=
  ⟨List.Pairwise.of_cons h.1, List.Pairwise.of_cons h.2.1, List.Chain'.tail h.2.2⟩

/-- Canonical form is unique: two canonical composites with the same
point set are syntactically equal. -/
theorem itv_canonical_unique : ∀ (l₁ l₂ : CInt),
    CanonicalForm l₁ → (∀ s ∈ l₁, s ≠ botSI) →
    CanonicalForm l₂ → (∀ s ∈ l₂, s ≠ botSI) →
    (∀ x, memCI x l₁ = memCI x l₂) → l₁ = l₂ := by
  intro l₁
  induction l₁ with
  | nil =>
    intro l₂ _ _ _ hne₂ hm
    cases l₂ with
    | nil => rfl
    | cons b r₂ =>
      exfalso
      obtain ⟨x, hx⟩ := itv_valid_nonempty
        (itv_valid_of_ne_bot (hne₂ b (List.mem_cons_self b r₂)))
      have h1 : memCI x (b :: r₂) = true :=
        itv_memCI_of_mem (List.mem_cons_self b r₂) hx
      rw [← hm x] at h1
      exact Bool.noConfusion h1
  | cons a r₁ ih =>
    intro l₂ hc₁ hne₁ hc₂ hne₂ hm
    cases l₂ with
    | nil =>
      exfalso
      obtain ⟨x, hx⟩ := itv_valid_nonempty
        (itv_valid_of_ne_bot (hne₁ a (List.mem_cons_self a r₁)))
      have h1 : memCI x (a :: r₁) = true :=
        itv_memCI_of_mem (List.mem_cons_self a r₁) hx
      rw [hm x] at h1
      exact Bool.noConfusion h1
    | cons b r₂ =>
      have hva := itv_valid_of_ne_bot (hne₁ a (List.mem_cons_self a r₁))
      have hvb := itv_valid_of_ne_bot (hne₂ b (List.mem_cons_self b r₂))
      have hd₁ : (a :: r₁).Pairwise (SA.Dis memB) :=
        List.Pairwise.imp (fun h => itv_dis_of_inf_bot h) hc₁.1
      have hd₂ : (b :: r₂).Pairwise (SA.Dis memB) :=
        List.Pairwise.imp (fun h => itv_dis_of_inf_bot h) hc₂.1
      have hab : a = b :=
        itv_heads_eq hva hvb hne₁ hd₁ hc₁.2.1 hc₁.2.2 hne₂ hd₂ hc₂.2.1 hc₂.2.2 hm
      have hmr : ∀ x, memCI x r₁ = memCI x r₂ := by
        intro x
        rw [itv_mem_tail hd₁ x, itv_mem_tail hd₂ x, hm x, hab]
      have hr : r₁ = r₂ :=
        ih r₂ (itv_canonical_tail hc₁)
          (fun s hs => hne₁ s (List.mem_cons_of_mem a hs))
          (itv_canonical_tail hc₂)
          (fun s hs => hne₂ s (List.mem_cons_of_mem b hs)) hmr
      rw [hab, hr]

instance isDisjointCI_decidable (l : CInt) : Decidable (isDisjointCI l) :=
  inferInstanceAs (Decidable (l.Pairwise (fun a b => a ⊓ b = ⊥)))

instance isSortedCI_decidable (l : CInt) : Decidable (isSortedCI l) :=
  inferInstanceAs (Decidable (l.Pairwise (fun a b => lowKey a ≤ lowKey b)))

instance isSimplifiedCI_decidable (l : CInt) : Decidable (isSimplifiedCI l) :=
  inferInstanceAs (Decidable (l.Chain' (fun a b => mergeableSI a b = false)))

instance canonicalForm_decidable (l : CInt) : Decidable (CanonicalForm l) :=
  inferInstanceAs (Decidable (isDisjointCI l ∧ isSortedCI l ∧ isSimplifiedCI l))

/-- The representation invariant of stored interval composites: canonical
form with every atom nonempty. -/
def CanonCC (l : CInt) : Prop := CanonicalForm l ∧ ∀ s ∈ l, s ≠ botSI

instance canonCC_decidable (l : CInt) : Decidable (CanonCC l) :=
  inferInstanceAs (Decidable (_ ∧ _))

/-- The values the interval operations produce and consume: composites in
canonical form. -/
def CC : Type := {l : CInt // CanonCC l}

instance : DecidableEq CC := fun a b =>
  decidable_of_iff (a.val = b.val) Subtype.ext_iff.symm

/-- Membership for canonical composites. -/
def memCC (x : ℚ) (c : CC) : Bool := memCI x c.val

/-- Canonical composites with equal point sets are equal. -/
theorem itv_CC_ext {a b : CC} (h : ∀ x, memCC x a = memCC x b) : a = b :=
  Subtype.ext (itv_canonical_unique a.val b.val a.2.1 a.2.2 b.2.1 b.2.2 h)

/-- Construction: reduce an arbitrary list of atoms to canonical form. -/
def mkCC (l : CInt) : CC :=
  ⟨canonicalizeCI l, (itv_canonicalizeCI_spec l).2, itv_canonicalizeCI_ne_bot l⟩

theorem itv_mem_mkCC (l : CInt) (x : ℚ) : memCC x (mkCC l) = memCI x l :=
  (itv_canonicalizeCI_spec l).1 x

/-- The canonical empty composite. -/
def botCC : CC :=
  ⟨[], ⟨⟨List.Pairwise.nil, List.Pairwise.nil, List.chain'_nil⟩,
    fun s hs => absurd hs (List.not_mem_nil s)⟩⟩

theorem itv_mem_botCC (x : ℚ) : memCC x botCC = false := rfl

/-- The full-line composite. -/
def fullCC : CC := ⟨fullCI, itv_canonical_fullCI, by decide⟩

theorem itv_mem_fullCC (x : ℚ) : memCC x fullCC = true := itv_mem_fullCI x

/-- Modelled from the spec: `intersection_with` on stored composites. -/
def interCC (a b : CC) : CC :=
  ⟨interCI a.val b.val, (itv_canonicalizeCI_spec _).2, itv_canonicalizeCI_ne_bot _⟩

theorem itv_mem_interCC (a b : CC) (x : ℚ) :
    memCC x (interCC a b) = (memCC x a && memCC x b) := itv_interCI_mem a.val b.val x

theorem itv_complCI_canonical (a : CInt) : CanonicalForm (complCI a) :=
  itv_complCI_fold_canonical a fullCI itv_canonical_fullCI

theorem itv_complCI_fold_ne_bot :
    ∀ (l : CInt) (acc : CInt), (∀ s ∈ acc, s ≠ botSI) →
      ∀ s ∈ l.foldl (fun acc s => interCI acc (complSI s)) acc, s ≠ botSI := by
  intro l
  induction l with
  | nil =>
    intro acc h
    exact h
  | cons t l ih =>
    intro acc _
    rw [List.foldl_cons]
    exact ih _ (itv_canonicalizeCI_ne_bot _)

theorem itv_complCI_ne_bot (a : CInt) : ∀ s ∈ complCI a, s ≠ botSI :=
  itv_complCI_fold_ne_bot a fullCI (by decide)

/-- Modelled from the spec: `complement()` on stored composites. -/
def complCC (c : CC) : CC :=
  ⟨complCI c.val, itv_complCI_canonical c.val, itv_complCI_ne_bot c.val⟩

theorem itv_mem_complCC (c : CC) (x : ℚ) :
    memCC x (complCC c) = !(memCC x c) := itv_complCI_mem c.val x

instance : Min CC := ⟨interCC⟩

instance : SemilatticeInf CC :=
  SemilatticeInf.mk'
    (fun a b => itv_CC_ext (fun x => by
      show memCC x (interCC a b) = memCC x (interCC b a)
      rw [itv_mem_interCC, itv_mem_interCC, Bool.and_comm]))
    (fun a b c => itv_CC_ext (fun x => by
      show memCC x (interCC (interCC a b) c) = memCC x (interCC a (interCC b c))
      rw [itv_mem_interCC, itv_mem_interCC, itv_mem_interCC, itv_mem_interCC,
        Bool.and_assoc]))
    (fun a => itv_CC_ext (fun x => by
      show memCC x (interCC a a) = memCC x a
      rw [itv_mem_interCC, Bool.and_self]))

theorem itv_infCC_def (a b : CC) : a ⊓ b = interCC a b := rfl

instance : OrderBot CC where
  bot := botCC
  bot_le := fun a => inf_eq_left.mp (itv_CC_ext (fun x => by
    show memCC x (interCC botCC a) = memCC x botCC
    rw [itv_mem_interCC, itv_mem_botCC, Bool.false_and]))

theorem itv_botCC_def : (⊥ : CC) = botCC := rfl

theorem itv_CC_lawMemInf : SA.LawMemInf memCC := fun x a b => itv_mem_interCC a b x

theorem itv_CC_lawMemBot : SA.LawMemBot memCC := fun x => itv_mem_botCC x

/-- A canonical composite with no points is the empty composite. -/
theorem itv_CC_bot_of_empty {c : CC} (h : ∀ x, memCC x c = false) : c = botCC :=
  itv_CC_ext (fun x => by rw [h x, itv_mem_botCC])

/-- A nonempty canonical composite has a rational point. -/
theorem itv_CC_nonempty {c : CC} (h : c ≠ botCC) : ∃ x, memCC x c = true := by
  cases hc : c.val with
  | nil =>
    exfalso
    apply h
    apply Subtype.ext
    rw [hc]
    rfl
  | cons a r =>
    obtain ⟨x, hx⟩ := itv_valid_nonempty (itv_valid_of_ne_bot
      (c.2.2 a (by rw [hc]; exact List.mem_cons_self a r)))
    refine ⟨x, ?_⟩
    show memCI x c.val = true
    rw [hc]
    exact itv_memCI_of_mem (List.mem_cons_self a r) hx

theorem itv_CC_inf_bot_of_dis {a b : CC} (h : SA.Dis memCC a b) : a ⊓ b = ⊥ := by
  rw [itv_infCC_def, itv_botCC_def]
  apply itv_CC_bot_of_empty
  intro x
  rw [itv_mem_interCC]
  cases hma : memCC x a
  · rfl
  · cases hmb : memCC x b
    · rfl
    · exact absurd ⟨hma, hmb⟩ (h x)

theorem itv_CC_dis_of_inf_bot {a b : CC} (h : a ⊓ b = ⊥) : SA.Dis memCC a b := by
  intro x ⟨hxa, hxb⟩
  have hm : memCC x (a ⊓ b) = true := by
    rw [itv_infCC_def, itv_mem_interCC, hxa, hxb]
    rfl
  rw [h, itv_botCC_def, itv_mem_botCC] at hm
  exact Bool.noConfusion hm

end Itv

namespace PEV

/-- Modelled from the spec: an aligned `SimpleEvent` over `n` variables
assigns every variable a stored (canonical) composite. -/
def PRaw (n : Nat) : Type := Fin n → Itv.CC

instance praw_deq (n : Nat) : DecidableEq (PRaw n) :=
  inferInstanceAs (DecidableEq (Fin n → Itv.CC))

/-- The empty simple event sentinel: every coordinate empty. -/
def emptyPR (n : Nat) : PRaw n := fun _ => Itv.botCC

/-- Modelled from the spec: a stored simple event is the empty sentinel
or has every per-variable composite nonempty (an event empty in one
coordinate `is_empty` and collapses). -/
def PAtom (n : Nat) : Type :=
  {f : PRaw n // f = emptyPR n ∨ ∀ i, f i ≠ Itv.botCC}

instance patom_deq (n : Nat) : DecidableEq (PAtom n) := fun a b =>
  decidable_of_iff (a.val = b.val) Subtype.ext_iff.symm

/-- The canonical empty simple event. -/
def botPA (n : Nat) : PAtom n := ⟨emptyPR n, Or.inl rfl⟩

/-- Build a stored simple event, collapsing to the empty sentinel when
some coordinate is empty. -/
def mkPA {n : Nat} (f : PRaw n) : PAtom n :=
  if h : ∀ i, f i ≠ Itv.botCC then ⟨f, Or.inr h⟩ else botPA n

/-- Modelled from the spec: `contains` for simple events, coordinate by
coordinate. -/
def memPA {n : Nat} (xs : Fin n → ℚ) (a : PAtom n) : Bool :=
  (List.finRange n).all (fun i => Itv.memCC (xs i) (a.val i))

/-- Modelled from the spec: simple-event intersection is pointwise per
variable, collapsing when some coordinate comes out empty. -/
def infPA {n : Nat} (a b : PAtom n) : PAtom n := mkPA (fun i => a.val i ⊓ b.val i)

instance pa_min (n : Nat) : Min (PAtom n) := ⟨infPA⟩

theorem pev_mem_botPA_at {n : Nat} (i : Fin n) (xs : Fin n → ℚ) :
    memPA xs (botPA n) = false := by
  rw [memPA, List.all_eq_false]
  refine ⟨i, List.mem_finRange i, ?_⟩
  intro h
  exact Bool.noConfusion h

theorem pev_mem_botPA {n : Nat} (hn : 0 < n) (xs : Fin n → ℚ) :
    memPA xs (botPA n) = false := pev_mem_botPA_at ⟨0, hn⟩ xs

theorem pev_all_and {n : Nat} (l : List (Fin n)) (p q : Fin n → Bool) :
    l.all (fun i => p i && q i) = (l.all p && l.all q) := by
  induction l with
  | nil => rfl
  | cons i l ih =>
    simp only [List.all_cons, ih]
    cases p i <;> cases q i <;> cases l.all p <;> cases l.all q <;> rfl

theorem pev_mem_infPA {n : Nat} (xs : Fin n → ℚ) (a b : PAtom n) :
    memPA xs (infPA a b) = (memPA xs a && memPA xs b) := by
  by_cases hc : ∀ i, a.val i ⊓ b.val i ≠ Itv.botCC
  · rw [infPA, mkPA, dif_pos hc, memPA, memPA, memPA, ← pev_all_and]
    congr 1
    funext i
    show Itv.memCC (xs i) (a.val i ⊓ b.val i) = _
    rw [Itv.itv_infCC_def, Itv.itv_mem_interCC]
  · rw [infPA, mkPA, dif_neg hc]
    push_neg at hc
    obtain ⟨i, hi⟩ := hc
    rw [pev_mem_botPA_at i xs]
    have h0 : (Itv.memCC (xs i) (a.val i) && Itv.memCC (xs i) (b.val i)) = false := by
      rw [← Itv.itv_mem_interCC, ← Itv.itv_infCC_def, hi, Itv.itv_mem_botCC]
    rcases Bool.and_eq_false_iff.mp h0 with h | h
    · have hA : memPA xs a = false := by
        rw [memPA, List.all_eq_false]
        exact ⟨i, List.mem_finRange i, by simp [h]⟩
      rw [hA, Bool.false_and]
    · have hB : memPA xs b = false := by
        rw [memPA, List.all_eq_false]
        exact ⟨i, List.mem_finRange i, by simp [h]⟩
      rw [hB, Bool.and_false]

/-- Simple events with the same points are equal (over any nonempty
choice of coordinates the product determines its factors). -/
theorem pev_PA_ext {n : Nat} {a b : PAtom n}
    (h : ∀ xs, memPA xs a = memPA xs b) : a = b := by
  cases n with
  | zero => exact Subtype.ext (funext (fun i => i.elim0))
  | succ m =>
    have hn : 0 < m + 1 := Nat.succ_pos m
    rcases a.2 with ha | ha <;> rcases b.2 with hb | hb
    · exact Subtype.ext (ha.trans hb.symm)
    · exfalso
      have hpts : ∀ i, ∃ x, Itv.memCC x (b.val i) = true :=
        fun i => Itv.itv_CC_nonempty (hb i)
      choose ws hws using hpts
      have hmb : memPA ws b = true := by
        rw [memPA, List.all_eq_true]
        exact fun i _ => hws i
      rw [← h ws] at hmb
      have hma : memPA ws a = false := by
        have ha' : a = botPA (m + 1) := Subtype.ext ha
        rw [ha']
        exact pev_mem_botPA hn ws
      rw [hma] at hmb
      exact Bool.noConfusion hmb
    · exfalso
      have hpts : ∀ i, ∃ x, Itv.memCC x (a.val i) = true :=
        fun i => Itv.itv_CC_nonempty (ha i)
      choose ws hws using hpts
      have hma : memPA ws a = true := by
        rw [memPA, List.all_eq_true]
        exact fun i _ => hws i
      rw [h ws] at hma
      have hmb : memPA ws b = false := by
        have hb' : b = botPA (m + 1) := Subtype.ext hb
        rw [hb']
        exact pev_mem_botPA hn ws
      rw [hmb] at hma
      exact Bool.noConfusion hma
    · have hpa : ∀ i, ∃ x, Itv.memCC x (a.val i) = true :=
        fun i => Itv.itv_CC_nonempty (ha i)
      have hpb : ∀ i, ∃ x, Itv.memCC x (b.val i) = true :=
        fun i => Itv.itv_CC_nonempty (hb i)
      choose wa hwa using hpa
      choose wb hwb using hpb
      apply Subtype.ext
      funext i
      apply Itv.itv_CC_ext
      intro x
      have hdir : ∀ (c d : PAtom (m + 1)) (wc : Fin (m + 1) → ℚ),
          (∀ j, Itv.memCC (wc j) (c.val j) = true) →
          (∀ ys, memPA ys c = memPA ys d) →
          Itv.memCC x (c.val i) = true → Itv.memCC x (d.val i) = true := by
        intro c d wc hwc hcd hx
        have hmc : memPA (fun j => if j = i then x else wc j) c = true := by
          rw [memPA, List.all_eq_true]
          intro j _
          by_cases hj : j = i
          · subst hj
            simpa using hx
          · simpa [hj] using hwc j
        rw [hcd _] at hmc
        have := List.all_eq_true.mp hmc i (List.mem_finRange i)
        simpa using this
      cases hxa : Itv.memCC x (a.val i)
      · cases hxb : Itv.memCC x (b.val i)
        · rfl
        · exact absurd (hdir b a wb hwb (fun ys => (h ys).symm) hxb)
            (by rw [hxa]; simp)
      · exact (hdir a b wa hwa h hxa).symm

instance pa_semilattice (n : Nat) : SemilatticeInf (PAtom n) :=
  SemilatticeInf.mk'
    (fun a b => pev_PA_ext (fun xs => by
      show memPA xs (infPA a b) = memPA xs (infPA b a)
      rw [pev_mem_infPA, pev_mem_infPA, Bool.and_comm]))
    (fun a b c => pev_PA_ext (fun xs => by
      show memPA xs (infPA (infPA a b) c) = memPA xs (infPA a (infPA b c))
      rw [pev_mem_infPA, pev_mem_infPA, pev_mem_infPA, pev_mem_infPA,
        Bool.and_assoc]))
    (fun a => pev_PA_ext (fun xs => by
      show memPA xs (infPA a a) = memPA xs a
      rw [pev_mem_infPA, Bool.and_self]))

theorem pev_infPA_def {n : Nat} (a b : PAtom n) : a ⊓ b = infPA a b := rfl

theorem pev_infPA_bot {n : Nat} (a : PAtom n) : infPA (botPA n) a = botPA n := by
  have hf : (fun i => (botPA n).val i ⊓ a.val i) = emptyPR n := by
    funext i
    show (⊥ : Itv.CC) ⊓ a.val i = (⊥ : Itv.CC)
    exact bot_inf_eq (a.val i)
  rw [infPA, hf]
  by_cases h : ∀ i, emptyPR n i ≠ Itv.botCC
  · rw [mkPA, dif_pos h]
    exact Subtype.ext rfl
  · rw [mkPA, dif_neg h]

instance pa_orderbot (n : Nat) : OrderBot (PAtom n) where
  bot := botPA n
  bot_le := fun a => inf_eq_left.mp (pev_infPA_bot a)

theorem pev_botPA_def (n : Nat) : (⊥ : PAtom n) = botPA n := rfl

theorem pev_lawMemInf (n : Nat) : SA.LawMemInf (memPA : (Fin n → ℚ) → PAtom n → Bool) :=
  fun xs a b => pev_mem_infPA xs a b

theorem pev_lawMemBot {n : Nat} (hn : 0 < n) :
    SA.LawMemBot (memPA : (Fin n → ℚ) → PAtom n → Bool) :=
  fun xs => pev_mem_botPA hn xs

theorem pev_inf_bot_of_dis {n : Nat} {a b : PAtom n}
    (h : SA.Dis memPA a b) : a ⊓ b = ⊥ := by
  rw [pev_infPA_def, pev_botPA_def, infPA]
  by_cases hc : ∀ i, a.val i ⊓ b.val i ≠ Itv.botCC
  · exfalso
    have hpts : ∀ i, ∃ x, Itv.memCC x (a.val i ⊓ b.val i) = true :=
      fun i => Itv.itv_CC_nonempty (hc i)
    choose ws hws using hpts
    have hm : memPA ws (a ⊓ b) = true := by
      rw [pev_infPA_def, infPA, mkPA, dif_pos hc, memPA, List.all_eq_true]
      exact fun i _ => hws i
    rw [pev_infPA_def, pev_mem_infPA, Bool.and_eq_true_iff] at hm
    exact h ws hm
  · rw [mkPA, dif_neg hc]

theorem pev_dis_of_inf_bot {n : Nat} (hn : 0 < n) {a b : PAtom n}
    (h : a ⊓ b = ⊥) : SA.Dis memPA a b := by
  intro xs ⟨hxa, hxb⟩
  have hm : memPA xs (a ⊓ b) = true := by
    rw [pev_infPA_def, pev_mem_infPA, hxa, hxb]
    rfl
  rw [h, pev_botPA_def, pev_mem_botPA hn] at hm
  exact Bool.noConfusion hm

theorem pev_fullCC_ne_bot : Itv.fullCC ≠ Itv.botCC := by decide

theorem pev_mkPA_val_pos {n : Nat} {f : PRaw n} (h : ∀ i, f i ≠ Itv.botCC) :
    (mkPA f).val = f := by
  rw [mkPA, dif_pos h]

/-- The full ambient simple event. -/
def fullPA (n : Nat) : PAtom n := mkPA (fun _ => Itv.fullCC)

theorem pev_fullPA_val (n : Nat) : (fullPA n).val = fun _ => Itv.fullCC :=
  pev_mkPA_val_pos (fun _ => pev_fullCC_ne_bot)

theorem pev_mem_fullPA {n : Nat} (xs : Fin n → ℚ) : memPA xs (fullPA n) = true := by
  rw [memPA, List.all_eq_true]
  intro i _
  rw [pev_fullPA_val]
  exact Itv.itv_mem_fullCC (xs i)

/-- The `i`-th piece of the linear complement: the original composites
before `i`, the complement at `i`, the full domain after `i`. -/
def complPiece {n : Nat} (a : PAtom n) (i : Fin n) : PRaw n := fun j =>
  if j < i then a.val j else if j = i then Itv.complCC (a.val i) else Itv.fullCC

/-- Modelled from the spec: the linear complement of a simple event
materialises the `n` pieces in variable order and drops empty pieces. -/
def complPA {n : Nat} (a : PAtom n) : List (PAtom n) :=
  ((List.finRange n).map (fun i => mkPA (complPiece a i))).filter
    (fun e => decide (e ≠ botPA n))

theorem pev_piece_at {n : Nat} (a : PAtom n) (i : Fin n) :
    complPiece a i i = Itv.complCC (a.val i) := by
  show (if i < i then a.val i else if i = i then Itv.complCC (a.val i)
    else Itv.fullCC) = _
  rw [if_neg (lt_irrefl i), if_pos rfl]

theorem pev_piece_before {n : Nat} (a : PAtom n) {i j : Fin n} (h : j < i) :
    complPiece a i j = a.val j := by
  show (if j < i then a.val j else if j = i then Itv.complCC (a.val i)
    else Itv.fullCC) = _
  rw [if_pos h]

theorem pev_piece_after {n : Nat} (a : PAtom n) {i j : Fin n} (h : i < j) :
    complPiece a i j = Itv.fullCC := by
  show (if j < i then a.val j else if j = i then Itv.complCC (a.val i)
    else Itv.fullCC) = _
  rw [if_neg (asymm h), if_neg (ne_of_gt h)]

theorem pev_mkPA_piece {n : Nat} {a : PAtom n} (ha : ∀ j, a.val j ≠ Itv.botCC)
    {i : Fin n} (hci : Itv.complCC (a.val i) ≠ Itv.botCC) :
    (mkPA (complPiece a i)).val = complPiece a i := by
  apply pev_mkPA_val_pos
  intro j
  rcases lt_trichotomy j i with h | h | h
  · rw [pev_piece_before a h]
    exact ha j
  · subst h
    rw [pev_piece_at]
    exact hci
  · rw [pev_piece_after a h]
    exact pev_fullCC_ne_bot

theorem pev_memL_filter_ne_bot {n : Nat} (hn : 0 < n) (xs : Fin n → ℚ)
    (l : List (PAtom n)) :
    SA.memL memPA xs (l.filter (fun e => decide (e ≠ botPA n)))
      = SA.memL memPA xs l := by
  induction l with
  | nil => rfl
  | cons t l ih =>
    rw [List.filter_cons]
    by_cases ht : t = botPA n
    · rw [if_neg (by simpa using ht), ih]
      show _ = (memPA xs t || SA.memL memPA xs l)
      rw [ht, pev_mem_botPA hn, Bool.false_or]
    · rw [if_pos (by simpa using ht)]
      show (memPA xs t || _) = (memPA xs t || _)
      rw [show (List.filter (fun e => decide (e ≠ botPA n)) l).any (memPA xs)
          = SA.memL memPA xs (List.filter (fun e => decide (e ≠ botPA n)) l)
          from rfl, ih]
      rfl

theorem pev_coords_ne_bot {n : Nat} {a : PAtom n} (hane : a ≠ botPA n) :
    ∀ j, a.val j ≠ Itv.botCC := by
  rcases a.2 with h | h
  · exact absurd (Subtype.ext h : a = botPA n) hane
  · exact h

/-- Modelled from the spec: the linear complement of a simple event
covers exactly the points outside it. -/
theorem pev_lawMemCompl {n : Nat} (hn : 0 < n) :
    SA.LawMemCompl (memPA : (Fin n → ℚ) → PAtom n → Bool) complPA := by
  intro xs a hane
  have ha : ∀ j, a.val j ≠ Itv.botCC :=
    pev_coords_ne_bot (by rwa [← pev_botPA_def])
  rw [complPA, pev_memL_filter_ne_bot hn]
  cases hma : memPA xs a
  · rw [Bool.not_false]
    have hex : ∃ i, Itv.memCC (xs i) (a.val i) = false := by
      rw [memPA, List.all_eq_false] at hma
      obtain ⟨i, -, hi⟩ := hma
      refine ⟨i, ?_⟩
      revert hi
      cases Itv.memCC (xs i) (a.val i) <;> simp
    have hne : (Finset.univ.filter
        (fun i => Itv.memCC (xs i) (a.val i) = false)).Nonempty := by
      obtain ⟨i, hi⟩ := hex
      exact ⟨i, Finset.mem_filter.mpr ⟨Finset.mem_univ i, hi⟩⟩
    obtain ⟨i₀, hi₀mem, hi₀min⟩ := Finset.exists_min_image _ id hne
    have hi₀ : Itv.memCC (xs i₀) (a.val i₀) = false :=
      (Finset.mem_filter.mp hi₀mem).2
    have hmin : ∀ j, j < i₀ → Itv.memCC (xs j) (a.val j) = true := by
      intro j hj
      cases hcj : Itv.memCC (xs j) (a.val j)
      · exfalso
        have hjs : j ∈ Finset.univ.filter
            (fun i => Itv.memCC (xs i) (a.val i) = false) :=
          Finset.mem_filter.mpr ⟨Finset.mem_univ j, hcj⟩
        exact absurd hj (not_lt.mpr (hi₀min j hjs))
      · rfl
    have hci : Itv.memCC (xs i₀) (Itv.complCC (a.val i₀)) = true := by
      rw [Itv.itv_mem_complCC, hi₀]
      rfl
    have hcine : Itv.complCC (a.val i₀) ≠ Itv.botCC := by
      intro hb
      rw [hb, Itv.itv_mem_botCC] at hci
      exact Bool.noConfusion hci
    have hval := pev_mkPA_piece ha hcine
    have hmem : memPA xs (mkPA (complPiece a i₀)) = true := by
      rw [memPA, List.all_eq_true]
      intro j _
      rw [hval]
      rcases lt_trichotomy j i₀ with h | h | h
      · rw [pev_piece_before a h]
        exact hmin j h
      · subst h
        rw [pev_piece_at]
        exact hci
      · rw [pev_piece_after a h]
        exact Itv.itv_mem_fullCC (xs j)
    refine (SA.sa_memL_iff memPA xs _).mpr ⟨mkPA (complPiece a i₀), ?_, hmem⟩
    exact List.mem_map.mpr ⟨i₀, List.mem_finRange i₀, rfl⟩
  · rw [Bool.not_true]
    have hmi : ∀ i : Fin n, Itv.memCC (xs i) (a.val i) = true := by
      intro i
      rw [memPA, List.all_eq_true] at hma
      exact hma i (List.mem_finRange i)
    cases hml : SA.memL memPA xs
        ((List.finRange n).map (fun i => mkPA (complPiece a i)))
    · rfl
    · exfalso
      obtain ⟨e, he, hxe⟩ := (SA.sa_memL_iff memPA xs _).mp hml
      obtain ⟨i, -, rfl⟩ := List.mem_map.mp he
      by_cases hcol : ∀ j, complPiece a i j ≠ Itv.botCC
      · have hcoord : Itv.memCC (xs i) ((mkPA (complPiece a i)).val i) = true := by
          rw [memPA, List.all_eq_true] at hxe
          exact hxe i (List.mem_finRange i)
        rw [pev_mkPA_val_pos hcol, pev_piece_at, Itv.itv_mem_complCC,
          hmi i] at hcoord
        exact Bool.noConfusion hcoord
      · rw [mkPA, dif_neg hcol, pev_mem_botPA hn] at hxe
        exact Bool.noConfusion hxe

/-- The pieces of the linear complement are pairwise disjoint. -/
theorem pev_complPA_sem_pairwise {n : Nat} (hn : 0 < n) (a : PAtom n) :
    (complPA a).Pairwise (SA.Dis memPA) := by
  rw [complPA]
  apply List.Pairwise.filter
  rw [List.pairwise_map]
  refine List.Pairwise.imp ?_ (List.pairwise_lt_finRange n)
  intro i j hij xs ⟨hxi, hxj⟩
  by_cases hci : ∀ k, complPiece a i k ≠ Itv.botCC
  · by_cases hcj : ∀ k, complPiece a j k ≠ Itv.botCC
    · have h1 : Itv.memCC (xs i) ((mkPA (complPiece a i)).val i) = true := by
        rw [memPA, List.all_eq_true] at hxi
        exact hxi i (List.mem_finRange i)
      have h2 : Itv.memCC (xs i) ((mkPA (complPiece a j)).val i) = true := by
        rw [memPA, List.all_eq_true] at hxj
        exact hxj i (List.mem_finRange i)
      rw [pev_mkPA_val_pos hci, pev_piece_at, Itv.itv_mem_complCC] at h1
      rw [pev_mkPA_val_pos hcj, pev_piece_before a hij] at h2
      rw [h2] at h1
      exact Bool.noConfusion h1
    · rw [mkPA, dif_neg hcj, pev_mem_botPA hn] at hxj
      exact Bool.noConfusion hxj
  · rw [mkPA, dif_neg hci, pev_mem_botPA hn] at hxi
    exact Bool.noConfusion hxi

theorem pev_lawComplDis {n : Nat} (hn : 0 < n) :
    SA.LawComplDis (memPA : (Fin n → ℚ) → PAtom n → Bool) complPA :=
  fun a _ => pev_complPA_sem_pairwise hn a

theorem pev_complPA_pairwise {n : Nat} (hn : 0 < n) (a : PAtom n) :
    (complPA a).Pairwise (fun e f => e ⊓ f = ⊥) :=
  (pev_complPA_sem_pairwise hn a).imp (fun h => pev_inf_bot_of_dis h)

theorem pev_complPA_pairwise_all {n : Nat} (a : PAtom n) :
    (complPA a).Pairwise (fun e f => e ⊓ f = ⊥) := by
  cases n with
  | zero =>
    have h0 : complPA a = [] := by
      rw [complPA, List.finRange_zero]
      rfl
    rw [h0]
    exact List.Pairwise.nil
  | succ m => exact pev_complPA_pairwise (Nat.succ_pos m) a

/-- The sort key of a stored simple event: its per-variable lists of atom
keys in variable order, compared lexicographically. -/
def keyPA {n : Nat} (a : PAtom n) :
    List (List (Lex (Itv.Ext × Lex (Bool × Lex (Itv.Ext × Itv.Bound))))) :=
  (List.finRange n).map (fun i => (a.val i).val.map Itv.keySI)

/-- Modelled from the spec: events sort their simples by lexicographic
comparison of the atoms in variable order. -/
def leEv {n : Nat} (a b : PAtom n) : Prop := keyPA a ≤ keyPA b

instance leEv_decidable {n : Nat} : DecidableRel (fun a b : PAtom n => leEv a b) :=
  fun a b => inferInstanceAs (Decidable (keyPA a ≤ keyPA b))

instance leEv_total {n : Nat} : IsTotal (PAtom n) leEv :=
  ⟨fun a b => le_total (keyPA a) (keyPA b)⟩

instance leEv_trans {n : Nat} : IsTrans (PAtom n) leEv :=
  ⟨fun _ _ _ h1 h2 => le_trans h1 h2⟩

/-- Modelled from the spec: event canonicalisation drops empty simples
and sorts the rest (per-variable simplification holds by the stored
composite invariant). -/
def canonizeE {n : Nat} (es : List (PAtom n)) : List (PAtom n) :=
  List.insertionSort leEv (es.filter (fun e => decide (e ≠ botPA n)))

theorem pev_canonizeE_perm {n : Nat} (es : List (PAtom n)) :
    (canonizeE es).Perm (es.filter (fun e => decide (e ≠ botPA n))) :=
  List.perm_insertionSort leEv _

theorem pev_canonizeE_sorted {n : Nat} (es : List (PAtom n)) :
    (canonizeE es).Pairwise leEv :=
  List.sorted_insertionSort leEv _

theorem pev_canonizeE_ne_bot {n : Nat} (es : List (PAtom n)) :
    ∀ e ∈ canonizeE es, e ≠ botPA n := by
  intro e he
  have hf := (pev_canonizeE_perm es).mem_iff.mp he
  rw [List.mem_filter] at hf
  simpa using hf.2

theorem pev_inf_bot_symm {n : Nat} {a b : PAtom n} (h : a ⊓ b = ⊥) : b ⊓ a = ⊥ := by
  rwa [inf_comm]

theorem pev_canonizeE_pairwise {n : Nat} {es : List (PAtom n)}
    (h : es.Pairwise (fun a b => a ⊓ b = ⊥)) :
    (canonizeE es).Pairwise (fun a b => a ⊓ b = ⊥) :=
  (List.Perm.pairwise_iff (fun hab => pev_inf_bot_symm hab)
    (pev_canonizeE_perm es)).mpr (List.Pairwise.filter _ h)

theorem pev_memL_canonizeE {n : Nat} (hn : 0 < n) (es : List (PAtom n))
    (xs : Fin n → ℚ) :
    SA.memL memPA xs (canonizeE es) = SA.memL memPA xs es := by
  rw [SA.sa_memL_perm memPA xs (pev_canonizeE_perm es),
    pev_memL_filter_ne_bot hn]

/-- Modelled from the spec: the product-level `make_disjoint` is the
generic algorithm with the product intersection, difference and
emptiness. -/
def makeDisjointE {n : Nat} (es : List (PAtom n)) : List (PAtom n) :=
  SA.makeDisjoint complPA ((es.filter (fun e => decide (e ≠ botPA n))).dedup)

theorem pev_makeDisjointE_spec {n : Nat} (hn : 0 < n) (es : List (PAtom n)) :
    (makeDisjointE es).Pairwise (SA.Dis memPA) ∧
      (∀ xs, SA.memL memPA xs (makeDisjointE es) = SA.memL memPA xs es) ∧
      (∀ e ∈ makeDisjointE es, e ≠ botPA n) := by
  have hnd : ((es.filter (fun e => decide (e ≠ botPA n))).dedup).Nodup :=
    List.nodup_dedup _
  have hne : ∀ e ∈ (es.filter (fun e => decide (e ≠ botPA n))).dedup,
      e ≠ (⊥ : PAtom n) := by
    intro e he
    rw [List.mem_dedup, List.mem_filter] at he
    simpa using he.2
  obtain ⟨hdis, hmem⟩ := SA.sa_makeDisjoint_spec (pev_lawMemInf n)
    (pev_lawMemBot hn) (pev_lawMemCompl hn) (pev_lawComplDis hn) hnd hne
  refine ⟨hdis, ?_, fun e he => SA.sa_makeDisjoint_ne_bot hne e he⟩
  intro xs
  rw [makeDisjointE, hmem xs, SA.sa_memL_dedup, pev_memL_filter_ne_bot hn]

/-- Modelled from the spec: event construction from any iterable of
simple events reduces to disjoint canonical form. -/
def constructE {n : Nat} (es : List (PAtom n)) : List (PAtom n) :=
  canonizeE (makeDisjointE es)

/-- Modelled from the spec: event `union_with` concatenates the simples
and re-runs the product-level `make_disjoint`. -/
def unionE {n : Nat} (A B : List (PAtom n)) : List (PAtom n) :=
  constructE (A ++ B)

/-- Modelled from the spec: event `intersection_with` intersects the
simple events pairwise (pointwise per variable). -/
def interE {n : Nat} (A B : List (PAtom n)) : List (PAtom n) :=
  canonizeE (A.flatMap (fun a => B.map (fun b => a ⊓ b)))

/-- The ambient product universe as an event. -/
def fullE (n : Nat) : List (PAtom n) := [fullPA n]

/-- Modelled from the spec: event `complement()` intersects the linear
complements of all simples, starting from the ambient universe. -/
def complE {n : Nat} (A : List (PAtom n)) : List (PAtom n) :=
  A.foldl (fun acc a => interE acc (complPA a)) (fullE n)

/-- Modelled from the spec: event `difference_with` intersects with the
complement. -/
def diffE {n : Nat} (A B : List (PAtom n)) : List (PAtom n) := interE A (complE B)

/-- The canonical form of a stored event: pairwise disjoint simples
(`is_disjoint()`), sorted by the lexicographic atom ordering, no empty
simples, and every per-variable composite in interval canonical form. -/
def EventCanonical {n : Nat} (es : List (PAtom n)) : Prop :=
  es.Pairwise (fun a b => a ⊓ b = ⊥) ∧ es.Pairwise leEv ∧
    (∀ e ∈ es, e ≠ botPA n) ∧ (∀ e ∈ es, ∀ i, Itv.CanonCC ((e.val i).val))

theorem pev_coords_canonical {n : Nat} (es : List (PAtom n)) :
    ∀ e ∈ es, ∀ i, Itv.CanonCC ((e.val i).val) := fun e _ i => (e.val i).2

theorem pev_constructE_canonical {n : Nat} (hn : 0 < n) (es : List (PAtom n)) :
    EventCanonical (constructE es) := by
  obtain ⟨hdis, -, -⟩ := pev_makeDisjointE_spec hn es
  exact ⟨pev_canonizeE_pairwise (hdis.imp (fun h => pev_inf_bot_of_dis h)),
    pev_canonizeE_sorted _, pev_canonizeE_ne_bot _, pev_coords_canonical _⟩

theorem pev_unionE_canonical {n : Nat} (hn : 0 < n) (A B : List (PAtom n)) :
    EventCanonical (unionE A B) :=
  pev_constructE_canonical hn (A ++ B)

theorem pev_prod_inf_bot_left {α : Type} [SemilatticeInf α] [OrderBot α]
    {a c : α} (h : a ⊓ c = ⊥) (b d : α) : (a ⊓ b) ⊓ (c ⊓ d) = ⊥ :=
  le_bot_iff.mp (le_trans (inf_le_inf inf_le_left inf_le_left) (le_of_eq h))

theorem pev_prod_inf_bot_right {α : Type} [SemilatticeInf α] [OrderBot α]
    {b d : α} (h : b ⊓ d = ⊥) (a c : α) : (a ⊓ b) ⊓ (c ⊓ d) = ⊥ :=
  le_bot_iff.mp (le_trans (inf_le_inf inf_le_right inf_le_right) (le_of_eq h))

theorem pev_interE_prod_pairwise {n : Nat} {A B : List (PAtom n)}
    (hA : A.Pairwise (fun a b => a ⊓ b = ⊥))
    (hB : B.Pairwise (fun a b => a ⊓ b = ⊥)) :
    (A.flatMap (fun a => B.map (fun b => a ⊓ b))).Pairwise
      (fun e f => e ⊓ f = ⊥) := by
  refine SA.sa_pairwise_flatMap hA ?_ ?_
  · intro a _
    rw [List.pairwise_map]
    exact hB.imp (fun h => pev_prod_inf_bot_right h _ _)
  · intro p q _ _ hpq u hu v hv
    rw [List.mem_map] at hu hv
    obtain ⟨b1, -, rfl⟩ := hu
    obtain ⟨b2, -, rfl⟩ := hv
    exact pev_prod_inf_bot_left hpq b1 b2

theorem pev_interE_canonical {n : Nat} {A B : List (PAtom n)}
    (hA : A.Pairwise (fun a b => a ⊓ b = ⊥))
    (hB : B.Pairwise (fun a b => a ⊓ b = ⊥)) :
    EventCanonical (interE A B) :=
  ⟨pev_canonizeE_pairwise (pev_interE_prod_pairwise hA hB),
    pev_canonizeE_sorted _, pev_canonizeE_ne_bot _, pev_coords_canonical _⟩

theorem pev_fullE_canonical {n : Nat} (hn : 0 < n) : EventCanonical (fullE n) := by
  refine ⟨List.pairwise_singleton _ _, List.pairwise_singleton _ _, ?_,
    pev_coords_canonical _⟩
  intro e he
  rw [fullE, List.mem_singleton] at he
  subst he
  intro hb
  have h1 := pev_mem_fullPA (fun _ : Fin n => (0 : ℚ))
  rw [hb, pev_mem_botPA hn] at h1
  exact Bool.noConfusion h1

theorem pev_complE_fold_canonical {n : Nat} :
    ∀ (l : List (PAtom n)) (acc : List (PAtom n)), EventCanonical acc →
      EventCanonical (l.foldl (fun acc a => interE acc (complPA a)) acc) := by
  intro l
  induction l with
  | nil =>
    intro acc h
    exact h
  | cons a l ih =>
    intro acc hacc
    rw [List.foldl_cons]
    exact ih _ (pev_interE_canonical hacc.1 (pev_complPA_pairwise_all a))

theorem pev_complE_canonical {n : Nat} (hn : 0 < n) (A : List (PAtom n)) :
    EventCanonical (complE A) :=
  pev_complE_fold_canonical A (fullE n) (pev_fullE_canonical hn)

theorem pev_diffE_canonical {n : Nat} (hn : 0 < n) {A : List (PAtom n)}
    (B : List (PAtom n)) (hA : A.Pairwise (fun a b => a ⊓ b = ⊥)) :
    EventCanonical (diffE A B) :=
  pev_interE_canonical hA (pev_complE_canonical hn B).1

theorem pev_any_and_left {n : Nat} (c : Bool) (p : PAtom n → Bool)
    (l : List (PAtom n)) : l.any (fun t => c && p t) = (c && l.any p) := by
  induction l with
  | nil => simp
  | cons t l ih => simp [List.any_cons, ih, Bool.and_or_distrib_left]

theorem pev_any_and_right {n : Nat} (p : PAtom n → Bool) (c : Bool)
    (l : List (PAtom n)) : l.any (fun t => p t && c) = (l.any p && c) := by
  induction l with
  | nil => simp
  | cons t l ih => simp [List.any_cons, ih, Bool.and_or_distrib_right]

theorem pev_mem_constructE {n : Nat} (hn : 0 < n) (es : List (PAtom n))
    (xs : Fin n → ℚ) :
    SA.memL memPA xs (constructE es) = SA.memL memPA xs es := by
  rw [constructE, pev_memL_canonizeE hn, (pev_makeDisjointE_spec hn es).2.1 xs]

theorem pev_mem_unionE {n : Nat} (hn : 0 < n) (A B : List (PAtom n))
    (xs : Fin n → ℚ) :
    SA.memL memPA xs (unionE A B) = (SA.memL memPA xs A || SA.memL memPA xs B) := by
  rw [unionE, pev_mem_constructE hn, SA.sa_memL_append]

theorem pev_mem_interE {n : Nat} (hn : 0 < n) (A B : List (PAtom n))
    (xs : Fin n → ℚ) :
    SA.memL memPA xs (interE A B) = (SA.memL memPA xs A && SA.memL memPA xs B) := by
  rw [interE, pev_memL_canonizeE hn]
  show (A.flatMap (fun a => B.map (fun b => a ⊓ b))).any (memPA xs) = _
  rw [List.any_flatMap]
  have hinner : ∀ a : PAtom n, (B.map (fun b => a ⊓ b)).any (memPA xs)
      = (memPA xs a && B.any (memPA xs)) := by
    intro a
    rw [List.any_map]
    have hfun : (memPA xs ∘ fun b => a ⊓ b)
        = (fun b => memPA xs a && memPA xs b) := by
      funext b
      show memPA xs (a ⊓ b) = _
      rw [pev_infPA_def, pev_mem_infPA]
    rw [hfun, pev_any_and_left]
  have hall : (fun a => (B.map (fun b => a ⊓ b)).any (memPA xs))
      = (fun a => memPA xs a && B.any (memPA xs)) := funext hinner
  rw [hall, pev_any_and_right]
  rfl

theorem pev_mem_fullE {n : Nat} (xs : Fin n → ℚ) :
    SA.memL memPA xs (fullE n) = true := by
  show (memPA xs (fullPA n) || false) = true
  rw [pev_mem_fullPA]
  rfl

theorem pev_complCC_bot_ne_bot : Itv.complCC Itv.botCC ≠ Itv.botCC := by decide

theorem pev_mem_complPA {n : Nat} (hn : 0 < n) (a : PAtom n) (xs : Fin n → ℚ) :
    SA.memL memPA xs (complPA a) = !(memPA xs a) := by
  by_cases hane : a = botPA n
  · subst hane
    rw [pev_mem_botPA hn, Bool.not_false]
    have hcoords : ∀ j, complPiece (botPA n) ⟨0, hn⟩ j ≠ Itv.botCC := by
      intro j
      rcases lt_trichotomy j (⟨0, hn⟩ : Fin n) with h | h | h
      · exact absurd h (fun hh => Nat.not_lt_zero j.val hh)
      · subst h
        rw [pev_piece_at]
        exact pev_complCC_bot_ne_bot
      · rw [pev_piece_after _ h]
        exact pev_fullCC_ne_bot
    have hval := pev_mkPA_val_pos hcoords
    have hmem : memPA xs (mkPA (complPiece (botPA n) ⟨0, hn⟩)) = true := by
      rw [memPA, List.all_eq_true]
      intro j _
      rw [hval]
      rcases lt_trichotomy j (⟨0, hn⟩ : Fin n) with h | h | h
      · exact absurd h (fun hh => Nat.not_lt_zero j.val hh)
      · subst h
        rw [pev_piece_at, Itv.itv_mem_complCC]
        show (!Itv.memCC (xs ⟨0, hn⟩) Itv.botCC) = true
        rw [Itv.itv_mem_botCC]
        rfl
      · rw [pev_piece_after _ h]
        exact Itv.itv_mem_fullCC (xs j)
    rw [complPA, pev_memL_filter_ne_bot hn]
    refine (SA.sa_memL_iff memPA xs _).mpr
      ⟨mkPA (complPiece (botPA n) ⟨0, hn⟩), ?_, hmem⟩
    exact List.mem_map.mpr ⟨⟨0, hn⟩, List.mem_finRange _, rfl⟩
  · exact pev_lawMemCompl hn xs a (by rwa [pev_botPA_def])

theorem pev_mem_complE_fold {n : Nat} (hn : 0 < n) :
    ∀ (l : List (PAtom n)) (acc : List (PAtom n)) (xs : Fin n → ℚ),
      SA.memL memPA xs (l.foldl (fun acc a => interE acc (complPA a)) acc)
        = (SA.memL memPA xs acc && !(SA.memL memPA xs l)) := by
  intro l
  induction l with
  | nil =>
    intro acc xs
    show SA.memL memPA xs acc = (SA.memL memPA xs acc && !false)
    rw [Bool.not_false, Bool.and_true]
  | cons a l ih =>
    intro acc xs
    rw [List.foldl_cons, ih, pev_mem_interE hn, pev_mem_complPA hn]
    show _ = (SA.memL memPA xs acc && !(memPA xs a || SA.memL memPA xs l))
    cases SA.memL memPA xs acc <;> cases memPA xs a <;>
      cases SA.memL memPA xs l <;> rfl

theorem pev_mem_complE {n : Nat} (hn : 0 < n) (A : List (PAtom n))
    (xs : Fin n → ℚ) :
    SA.memL memPA xs (complE A) = !(SA.memL memPA xs A) := by
  rw [complE, pev_mem_complE_fold hn, pev_mem_fullE, Bool.true_and]

theorem pev_mem_diffE {n : Nat} (hn : 0 < n) (A B : List (PAtom n))
    (xs : Fin n → ℚ) :
    SA.memL memPA xs (diffE A B)
      = (SA.memL memPA xs A && !(SA.memL memPA xs B)) := by
  rw [diffE, pev_mem_interE hn, pev_mem_complE hn]

/-- A one-variable simple event bounding its variable to `[0, 1]`. -/
def unitPA : PAtom 1 := mkPA (fun _ => Itv.mkCC [Itv.closedI 0 1])

/-- A one-variable simple event bounding its variable to `(2, 3)`. -/
def shiftPA : PAtom 1 := mkPA (fun _ => Itv.mkCC [Itv.openI 2 3])

end PEV

/-- C4: every composite value returned by any public operation
(construction, `union_with`, `intersection_with`, `difference_with`,
`complement`) of each of the library's algebras is in canonical form.
Interval composites: `is_disjoint()` holds (pairwise atom intersections
are the empty sentinel), the simples are sorted by the atom ordering
(`lower`, then `lower_bound`), and no two consecutive simples merge.
Symbolic composites: distinct sorted indices (disjoint, sorted by the
atom ordering, no two consecutive atoms merge). Product events over a
nonempty variable list: pairwise disjoint simple events, sorted by the
lexicographic atom ordering, no empty simples, and every per-variable
composite in canonical form; intersection and difference take operands
in disjoint form, as every operation returns them. -/
theorem claim_C4_canonical_form :
    ((∀ l : Itv.CInt, Itv.CanonicalForm (Itv.canonicalizeCI l)) ∧
     (∀ a b : Itv.CInt, Itv.CanonicalForm (Itv.unionCI a b)) ∧
     (∀ a b : Itv.CInt, Itv.CanonicalForm (Itv.interCI a b)) ∧
     (∀ a b : Itv.CInt, Itv.CanonicalForm (Itv.diffCI a b)) ∧
     (∀ a : Itv.CInt, Itv.CanonicalForm (Itv.complCI a))) ∧
    ((∀ (n : Nat) (l : List (Fin n)), SymC.CanonicalFormS n (SymC.mkSetS n l)) ∧
     (∀ (n : Nat) (a b : List (Fin n)), SymC.CanonicalFormS n (SymC.unionS n a b)) ∧
     (∀ (n : Nat) (a b : List (Fin n)), SymC.CanonicalFormS n (SymC.interS n a b)) ∧
     (∀ (n : Nat) (a b : List (Fin n)), SymC.CanonicalFormS n (SymC.diffS n a b)) ∧
     (∀ (n : Nat) (a : List (Fin n)), SymC.CanonicalFormS n (SymC.complS n a))) ∧
    ((∀ (n : Nat), 0 < n → ∀ es : List (PEV.PAtom n),
        PEV.EventCanonical (PEV.constructE es)) ∧
     (∀ (n : Nat), 0 < n → ∀ A B : List (PEV.PAtom n),
        PEV.EventCanonical (PEV.unionE A B)) ∧
     (∀ (n : Nat) (A B : List (PEV.PAtom n)),
        A.Pairwise (fun a b => a ⊓ b = ⊥) → B.Pairwise (fun a b => a ⊓ b = ⊥) →
        PEV.EventCanonical (PEV.interE A B)) ∧
     (∀ (n : Nat), 0 < n → ∀ A : List (PEV.PAtom n),
        PEV.EventCanonical (PEV.complE A)) ∧
     (∀ (n : Nat), 0 < n → ∀ (A B : List (PEV.PAtom n)),
        A.Pairwise (fun a b => a ⊓ b = ⊥) →
        PEV.EventCanonical (PEV.diffE A B))) :=
  ⟨⟨fun l => (Itv.itv_canonicalizeCI_spec l).2,
    fun _ _ => (Itv.itv_canonicalizeCI_spec _).2,
    fun _ _ => (Itv.itv_canonicalizeCI_spec _).2,
    fun _ _ => (Itv.itv_canonicalizeCI_spec _).2,
    fun a => Itv.itv_complCI_fold_canonical a Itv.fullCI Itv.itv_canonical_fullCI⟩,
   ⟨fun n l => SymC.symc_canonicalizeS_canonical n l,
    fun n a b => SymC.symc_canonicalizeS_canonical n (a ++ b),
    fun n _ _ => SymC.symc_canonicalizeS_canonical n _,
    fun n _ _ => SymC.symc_canonicalizeS_canonical n _,
    fun n _ => SymC.symc_canonicalizeS_canonical n _⟩,
   ⟨fun _ hn es => PEV.pev_constructE_canonical hn es,
    fun _ hn A B => PEV.pev_unionE_canonical hn A B,
    fun _ _ _ hA hB => PEV.pev_interE_canonical hA hB,
    fun _ hn A => PEV.pev_complE_canonical hn A,
    fun _ hn _ B hA => PEV.pev_diffE_canonical hn B hA⟩⟩

/-- Concrete instantiation of C4's conditional conjuncts at one
variable: the event operations on one-variable events return canonical
events. -/
theorem claim_C4_canonical_form_witness :
    PEV.EventCanonical (PEV.constructE [PEV.unitPA, PEV.shiftPA]) ∧
    PEV.EventCanonical (PEV.unionE [PEV.unitPA] [PEV.shiftPA]) ∧
    PEV.EventCanonical (PEV.interE [PEV.unitPA] [PEV.shiftPA]) ∧
    PEV.EventCanonical (PEV.complE [PEV.unitPA]) ∧
    PEV.EventCanonical (PEV.diffE [PEV.unitPA] [PEV.shiftPA]) :=
  ⟨claim_C4_canonical_form.2.2.1 1 (by decide) [PEV.unitPA, PEV.shiftPA],
   claim_C4_canonical_form.2.2.2.1 1 (by decide) [PEV.unitPA] [PEV.shiftPA],
   claim_C4_canonical_form.2.2.2.2.1 1 [PEV.unitPA] [PEV.shiftPA]
     (List.pairwise_singleton _ _) (List.pairwise_singleton _ _),
   claim_C4_canonical_form.2.2.2.2.2.1 1 (by decide) [PEV.unitPA],
   claim_C4_canonical_form.2.2.2.2.2.2 1 (by decide) [PEV.unitPA] [PEV.shiftPA]
     (List.pairwise_singleton _ _)⟩

end RandomEvents
